import Mathlib

/-!
Shallow embedding of the editing engine of `TextEditor.cpp` (ImGuiColorTextEdit
fork).  Bytes of the document are modelled as natural numbers (the value of the
C++ `char`, read as an unsigned byte: all the bit tests in the source only look
at the low 8 bits, so sign extension is immaterial), a line is the list of the
`mChar` fields of its glyphs, and a document is the list `mLines`.  Columns and
coordinates are C++ `int`s and are modelled as `Int`; internal loop counters
that provably start at 0 and only grow are modelled as `Nat`.
-/

namespace ImGuiTextEdit

/-- A document byte: the `mChar` field of a `Glyph`, read as an unsigned byte. -/
abbrev Byte := Nat

/-- A `Line` is the ordered list of the bytes of its glyphs (`TextEditor::Line`). -/
abbrev Line := List Byte

/-- A `(line, display-column)` pair; model of `TextEditor::Coordinates`
(both fields are C++ `int`s). -/
structure Coordinates where
  mLine : Int
  mColumn : Int
deriving DecidableEq, Repr

/-- Coordinates compare lexicographically by `(line, column)`.  The comparison
operators live in the editor's header, which is not part of `src/`; modelled
from the spec: "Two Coordinates compare lexicographically by (line, column)". -/
def Coordinates.lt (a b : Coordinates) : Prop :=
  a.mLine < b.mLine ∨ (a.mLine = b.mLine ∧ a.mColumn < b.mColumn)

instance : LT Coordinates := ⟨Coordinates.lt⟩

instance (a b : Coordinates) : Decidable (a < b) :=
  decidable_of_iff
    (a.mLine < b.mLine ∨ (a.mLine = b.mLine ∧ a.mColumn < b.mColumn)) Iff.rfl

/-- Non-strict lexicographic comparison of coordinates. -/
def Coordinates.le (a b : Coordinates) : Prop :=
  a < b ∨ a = b

instance : LE Coordinates := ⟨Coordinates.le⟩

instance (a b : Coordinates) : Decidable (a ≤ b) :=
  decidable_of_iff (a < b ∨ a = b) Iff.rfl

/-- Model of `std::min` on coordinates (lexicographic order). -/
def cmin (a b : Coordinates) : Coordinates := if b < a then b else a

/-- Model of `std::max` on coordinates (lexicographic order). -/
def cmax (a b : Coordinates) : Coordinates := if a < b then b else a

/-- Model of `TextEditor::SetTabSize` (TextEditor.cpp:126): the tab size is
clamped into `[1, 8]`. -/
def SetTabSize (aValue : Int) : Int := max 1 (min 8 aValue)

/-- Model of the static `UTF8CharLength` (TextEditor.cpp:533): the length of
the UTF-8 sequence announced by a lead byte. -/
def UTF8CharLength (c : Byte) : Nat :=
  if c &&& 0xFE = 0xFC then 6
  else if c &&& 0xFC = 0xF8 then 5
  else if c &&& 0xF8 = 0xF0 then 4
  else if c &&& 0xF0 = 0xE0 then 3
  else if c &&& 0xE0 = 0xC0 then 2
  else 1

theorem UTF8CharLength_pos (c : Byte) : 0 < UTF8CharLength c := by
  unfold UTF8CharLength
  repeat' split
  all_goals norm_num

theorem UTF8CharLength_le (c : Byte) : UTF8CharLength c ≤ 6 := by
  unfold UTF8CharLength
  repeat' split
  all_goals norm_num

/-- Model of `TabSizeAtColumn`, declared in the editor's header which is not
part of `src/`.  Modelled from the spec: "a tab advances the column to the next
multiple of the configured tab size", so a tab starting at column `c` spans
`t - c % t` columns; this is exactly consistent with the in-source
`MoveCharIndexAndColumn` (TextEditor.cpp:896), which sends column `c` to
`(c / t) * t + t = c + (t - c % t)`. -/
def TabSizeAtColumn (t c : Nat) : Nat := t - c % t

/-- Model of `TextEditor::MoveCharIndexAndColumn` (TextEditor.cpp:890): reads
the glyph at `aCharIndex`, advances the character index by its UTF-8 length and
the display column by its visual span (`t` is `mTabSize`, `9` is `'\t'`). -/
def MoveCharIndexAndColumn (t : Nat) (line : Line) (aCharIndex aColumn : Nat) :
    Nat × Nat :=
  (aCharIndex + UTF8CharLength (line.getD aCharIndex 0),
   if line.getD aCharIndex 0 = 9 then (aColumn / t) * t + t else aColumn + 1)

/-- Loop of `TextEditor::GetCharacterColumn` (TextEditor.cpp:1861):
`while (i < aIndex && i < line.size()) MoveCharIndexAndColumn(...)`. -/
def getCharacterColumnLoop (t : Nat) (line : Line) (aIndex : Int) (i c : Nat) :
    Nat :=
  if h : (i : Int) < aIndex ∧ i < line.length then
    let p := MoveCharIndexAndColumn t line i c
    getCharacterColumnLoop t line aIndex p.1 p.2
  else c
termination_by line.length - i
decreasing_by
  have := UTF8CharLength_pos (line.getD i 0)
  simp only [MoveCharIndexAndColumn]
  omega

/-- Model of `TextEditor::GetCharacterColumn` (TextEditor.cpp:1855).  The
out-of-range test `aLine >= mLines.size()` compares a signed `int` with a
`size_t`, so a negative `aLine` is converted to a huge unsigned value and the
test also fires. -/
def GetCharacterColumn (t : Nat) (lines : List Line) (aLine aIndex : Int) :
    Nat :=
  if aLine < 0 ∨ (lines.length : Int) ≤ aLine then 0
  else getCharacterColumnLoop t (lines.getD aLine.toNat []) aIndex 0 0

/-- Loop of the `aLimit == -1` branch of `TextEditor::GetLineMaxColumn`
(TextEditor.cpp:1884). -/
def getLineMaxColumnLoop (t : Nat) (line : Line) (i c : Nat) : Nat :=
  if h : i < line.length then
    let p := MoveCharIndexAndColumn t line i c
    getLineMaxColumnLoop t line p.1 p.2
  else c
termination_by line.length - i
decreasing_by
  have := UTF8CharLength_pos (line.getD i 0)
  simp only [MoveCharIndexAndColumn]
  omega

/-- Model of `TextEditor::GetLineMaxColumn(aLine)` with the default limit `-1`
(TextEditor.cpp:1879): the full display width of the line; `0` when the line
index is out of range (signed/unsigned comparison as in `GetCharacterColumn`). -/
def GetLineMaxColumn (t : Nat) (lines : List Line) (aLine : Int) : Nat :=
  if aLine < 0 ∨ (lines.length : Int) ≤ aLine then 0
  else getLineMaxColumnLoop t (lines.getD aLine.toNat []) 0 0

/-- Loop of the `aLimit != -1` branch of `TextEditor::GetLineMaxColumn`
(TextEditor.cpp:1889): stops with `aLimit` as soon as the accumulated column
exceeds it. -/
def getLineMaxColumnLimitLoop (t : Nat) (line : Line) (aLimit : Int)
    (i c : Nat) : Int :=
  if h : i < line.length then
    let p := MoveCharIndexAndColumn t line i c
    if (p.2 : Int) > aLimit then aLimit
    else getLineMaxColumnLimitLoop t line aLimit p.1 p.2
  else c
termination_by line.length - i
decreasing_by
  have := UTF8CharLength_pos (line.getD i 0)
  simp only [MoveCharIndexAndColumn]
  omega

/-- Model of `TextEditor::GetLineMaxColumn(aLine, aLimit)` with an explicit
limit (TextEditor.cpp:1879). -/
def GetLineMaxColumnLimited (t : Nat) (lines : List Line)
    (aLine aLimit : Int) : Int :=
  if aLine < 0 ∨ (lines.length : Int) ≤ aLine then 0
  else getLineMaxColumnLimitLoop t (lines.getD aLine.toNat []) aLimit 0 0

/-- Loop of `TextEditor::GetCharacterIndexR` (TextEditor.cpp:1850):
`while (i < line.size() && c < aColumn) MoveCharIndexAndColumn(...)`. -/
def getCharacterIndexRLoop (t : Nat) (line : Line) (aColumn : Int)
    (i c : Nat) : Nat :=
  if h : i < line.length ∧ (c : Int) < aColumn then
    let p := MoveCharIndexAndColumn t line i c
    getCharacterIndexRLoop t line aColumn p.1 p.2
  else i
termination_by line.length - i
decreasing_by
  have := UTF8CharLength_pos (line.getD i 0)
  simp only [MoveCharIndexAndColumn]
  omega

/-- Model of `TextEditor::GetCharacterIndexR` (TextEditor.cpp:1844): returns
`-1` when the line is out of range (signed/unsigned comparison), else the byte
index reached after walking `aColumn` display columns rounding right. -/
def GetCharacterIndexR (t : Nat) (lines : List Line) (aCoords : Coordinates) :
    Int :=
  if aCoords.mLine < 0 ∨ (lines.length : Int) ≤ aCoords.mLine then -1
  else getCharacterIndexRLoop t (lines.getD aCoords.mLine.toNat [])
    aCoords.mColumn 0 0

/-- Update of `tabCoordsLeft` in one iteration of the loop of
`TextEditor::GetCharacterIndexL` (TextEditor.cpp:1828): entering a tab arms the
counter with the tab's visual span, and each column inside the tab decrements
it (the source's `if (tabCoordsLeft > 0) tabCoordsLeft--` coincides with the
truncated subtraction). -/
def lTabCoordsUpd (t : Nat) (line : Line) (i c tabCoordsLeft : Nat) : Nat :=
  if line.getD i 0 = 9 then
    (if tabCoordsLeft = 0 then TabSizeAtColumn t c else tabCoordsLeft) - 1
  else tabCoordsLeft

/-- Loop of `TextEditor::GetCharacterIndexL` (TextEditor.cpp:1826): walks one
display column at a time; inside a tab's visual span (`tabCoordsLeft > 0`) the
byte index is frozen at the tab, so a column strictly inside a tab maps to the
tab's own byte index. -/
def getCharacterIndexLLoop (t : Nat) (line : Line) (aColumn : Int)
    (i c tabCoordsLeft : Nat) : Nat :=
  if h : i < line.length ∧ (c : Int) < aColumn then
    getCharacterIndexLLoop t line aColumn
      (if lTabCoordsUpd t line i c tabCoordsLeft = 0
       then i + UTF8CharLength (line.getD i 0) else i)
      (c + 1) (lTabCoordsUpd t line i c tabCoordsLeft)
  else i
termination_by (aColumn - c).toNat
decreasing_by omega

/-- Model of `TextEditor::GetCharacterIndexL` (TextEditor.cpp:1816): `-1` for
an out-of-range line, else the left-rounding byte index for the column. -/
def GetCharacterIndexL (t : Nat) (lines : List Line) (aCoords : Coordinates) :
    Int :=
  if aCoords.mLine < 0 ∨ (lines.length : Int) ≤ aCoords.mLine then -1
  else getCharacterIndexLLoop t (lines.getD aCoords.mLine.toNat [])
    aCoords.mColumn 0 0 0

/-- First half of `TextEditor::SanitizeCoordinates` (TextEditor.cpp:1694-1716):
clamp the line into the document and the column into the line. -/
def sanitizeClamp (t : Nat) (lines : List Line) (aValue : Coordinates) :
    Coordinates :=
  if (lines.length : Int) ≤ max aValue.mLine 0 then
    if lines.length = 0 then ⟨0, 0⟩
    else ⟨(lines.length : Int) - 1,
          (GetLineMaxColumn t lines ((lines.length : Int) - 1) : Int)⟩
  else ⟨max aValue.mLine 0,
        if lines.length = 0 then 0
        else GetLineMaxColumnLimited t lines (max aValue.mLine 0)
          (max aValue.mColumn 0)⟩

/-- Second half of `TextEditor::SanitizeCoordinates` (TextEditor.cpp:1718-1728):
if the clamped column lands strictly inside a tab's visual span, snap to the
visually closer boundary (ties to the left). -/
def sanitizeSnap (t : Nat) (lines : List Line) (out : Coordinates) :
    Coordinates :=
  let charIndex := GetCharacterIndexL t lines out
  if -1 < charIndex ∧
      charIndex < ((lines.getD out.mLine.toNat []).length : Int) ∧
      (lines.getD out.mLine.toNat []).getD charIndex.toNat 0 = 9 then
    let columnToLeft := GetCharacterColumn t lines out.mLine charIndex
    let columnToRight := GetCharacterColumn t lines out.mLine
      (GetCharacterIndexR t lines out)
    if out.mColumn - columnToLeft ≤ columnToRight - out.mColumn then
      ⟨out.mLine, columnToLeft⟩
    else ⟨out.mLine, columnToRight⟩
  else out

/-- Model of `TextEditor::SanitizeCoordinates` (TextEditor.cpp:1692): clamps
the line into the document and the column into the line, then snaps a column
strictly inside a tab's visual span to its nearest boundary (ties to the
left). -/
def SanitizeCoordinates (t : Nat) (lines : List Line) (aValue : Coordinates) :
    Coordinates :=
  sanitizeSnap t lines (sanitizeClamp t lines aValue)

/-! ### Reachable states of the glyph walk
All the column/index loops above traverse the same chain of `(byte index,
display column)` states, produced by iterating `MoveCharIndexAndColumn` from
`(0, 0)`.  `ReachFrom` is that chain. -/

/-- `ReachFrom t line s s'`: the glyph walk started at state `s` (a byte index
paired with a display column) passes through state `s'`. -/
inductive ReachFrom (t : Nat) (line : Line) : Nat × Nat → Nat × Nat → Prop
  | refl (s) : ReachFrom t line s s
  | step {s s'} : s.1 < line.length →
      ReachFrom t line (MoveCharIndexAndColumn t line s.1 s.2) s' →
      ReachFrom t line s s'

theorem move_fst_lt (t : Nat) (line : Line) (i c : Nat) :
    i < (MoveCharIndexAndColumn t line i c).1 := by
  have := UTF8CharLength_pos (line.getD i 0)
  simp only [MoveCharIndexAndColumn]
  omega

theorem move_snd_lt (t : Nat) (line : Line) (i c : Nat) (ht : 1 ≤ t) :
    c < (MoveCharIndexAndColumn t line i c).2 := by
  simp only [MoveCharIndexAndColumn]
  split
  · have h1 : c % t < t := Nat.mod_lt _ ht
    have h2 : (c / t) * t + c % t = c := Nat.div_add_mod' c t
    omega
  · omega

theorem ReachFrom.fst_le {t : Nat} {line : Line} {s s' : Nat × Nat}
    (h : ReachFrom t line s s') : s.1 ≤ s'.1 := by
  induction h with
  | refl => exact le_refl _
  | step hlt _ ih => exact le_trans (le_of_lt (move_fst_lt _ _ _ _)) ih

theorem ReachFrom.snd_le {t : Nat} {line : Line} {s s' : Nat × Nat}
    (ht : 1 ≤ t) (h : ReachFrom t line s s') : s.2 ≤ s'.2 := by
  induction h with
  | refl => exact le_refl _
  | step hlt _ ih => exact le_trans (le_of_lt (move_snd_lt _ _ _ _ ht)) ih

theorem ReachFrom.trans {t : Nat} {line : Line} {a b c : Nat × Nat}
    (h1 : ReachFrom t line a b) (h2 : ReachFrom t line b c) :
    ReachFrom t line a c := by
  induction h1 with
  | refl => exact h2
  | step hlt _ ih => exact ReachFrom.step hlt (ih h2)

/-- If the walk passes from `s` through a strictly later index, the
intermediate columns stay strictly below the final column. -/
theorem ReachFrom.snd_lt {t : Nat} {line : Line} {s s' : Nat × Nat}
    (ht : 1 ≤ t) (h : ReachFrom t line s s') (hne : s.1 < s'.1) :
    s.2 < s'.2 := by
  cases h with
  | refl => omega
  | step hlt h' =>
    exact lt_of_lt_of_le (move_snd_lt _ _ _ _ ht) (h'.snd_le ht)

/-- The full-width loop absorbs walk steps. -/
theorem getLineMaxColumnLoop_absorb {t : Nat} {line : Line} {s s' : Nat × Nat}
    (h : ReachFrom t line s s') :
    getLineMaxColumnLoop t line s.1 s.2 = getLineMaxColumnLoop t line s'.1 s'.2 := by
  induction h with
  | refl => rfl
  | step hlt _ ih =>
    rw [getLineMaxColumnLoop]
    simp only [hlt, dite_true]
    exact ih

/-- The full-width loop runs the walk to its final state (index past the end). -/
theorem getLineMaxColumnLoop_final (t : Nat) (line : Line) (s : Nat × Nat) :
    ∃ e : Nat × Nat, ReachFrom t line s e ∧ line.length ≤ e.1 ∧
      getLineMaxColumnLoop t line s.1 s.2 = e.2 := by
  by_cases hlt : s.1 < line.length
  · obtain ⟨e, he, hlen, hval⟩ :=
      getLineMaxColumnLoop_final t line (MoveCharIndexAndColumn t line s.1 s.2)
    refine ⟨e, ReachFrom.step hlt he, hlen, ?_⟩
    rw [getLineMaxColumnLoop]
    simpa only [hlt, dite_true] using hval
  · exact ⟨s, ReachFrom.refl s, by omega, by rw [getLineMaxColumnLoop]; simp [hlt]⟩
termination_by line.length - s.1
decreasing_by
  have := move_fst_lt t line s.1 s.2
  omega

/-- Any reached column is bounded by the full line width. -/
theorem reach_le_maxCol {t : Nat} {line : Line} {s s' : Nat × Nat}
    (ht : 1 ≤ t) (h : ReachFrom t line s s') :
    s'.2 ≤ getLineMaxColumnLoop t line s.1 s.2 := by
  obtain ⟨e, he, hlen, hval⟩ := getLineMaxColumnLoop_final t line s'
  rw [getLineMaxColumnLoop_absorb h, hval]
  exact he.snd_le ht

/-- The limited-width loop computes `min` of the full width and the limit, for
a nonnegative limit at or above the current column. -/
theorem getLineMaxColumnLimitLoop_eq {t : Nat} {line : Line} (ht : 1 ≤ t)
    (aLimit : Int) (s : Nat × Nat) (hc : (s.2 : Int) ≤ aLimit) :
    getLineMaxColumnLimitLoop t line aLimit s.1 s.2 =
      if (getLineMaxColumnLoop t line s.1 s.2 : Int) ≤ aLimit
      then (getLineMaxColumnLoop t line s.1 s.2 : Int) else aLimit := by
  by_cases hlt : s.1 < line.length
  · rw [getLineMaxColumnLimitLoop, getLineMaxColumnLoop]
    simp only [hlt, dite_true]
    set p := MoveCharIndexAndColumn t line s.1 s.2 with hp
    by_cases hgt : (p.2 : Int) > aLimit
    · have hmc : p.2 ≤ getLineMaxColumnLoop t line p.1 p.2 :=
        reach_le_maxCol ht (ReachFrom.refl p)
      have : ¬ ((getLineMaxColumnLoop t line p.1 p.2 : Int) ≤ aLimit) := by
        omega
      simp [hgt, this]
    · have := @getLineMaxColumnLimitLoop_eq t line ht aLimit p
        (by omega)
      simp only [hgt, ite_false]
      exact this
  · rw [getLineMaxColumnLimitLoop, getLineMaxColumnLoop]
    simp only [hlt, dite_false]
    omega
termination_by line.length - s.1
decreasing_by
  have := move_fst_lt t line s.1 s.2
  omega

/-- Specialization of `getLineMaxColumnLimitLoop_eq` at the loop's entry
state. -/
theorem getLineMaxColumnLimitLoop_eq0 {t : Nat} {line : Line} (ht : 1 ≤ t)
    (aLimit : Int) (h0 : 0 ≤ aLimit) :
    getLineMaxColumnLimitLoop t line aLimit 0 0 =
      if (getLineMaxColumnLoop t line 0 0 : Int) ≤ aLimit
      then (getLineMaxColumnLoop t line 0 0 : Int) else aLimit := by
  have h := @getLineMaxColumnLimitLoop_eq t line ht aLimit
    (0, 0) (by simpa using h0)
  simpa using h

/-- The column loop evaluated at the byte index of a reached state returns
that state's column. -/
theorem getCharacterColumnLoop_reach {t : Nat} {line : Line} {s s' : Nat × Nat}
    (h : ReachFrom t line s s') :
    getCharacterColumnLoop t line (s'.1 : Int) s.1 s.2 = s'.2 := by
  induction h with
  | refl s =>
    rw [getCharacterColumnLoop]
    simp
  | step hlt h' ih =>
    rename_i s s'
    rw [getCharacterColumnLoop]
    have h1 : (s.1 : Int) < s'.1 := by
      have h2 := move_fst_lt t line s.1 s.2
      have h3 := h'.fst_le
      omega
    simp only [h1, hlt, and_true, true_and, dite_true]
    exact ih

/-- The right-rounding index loop evaluated at the column of a reached state
returns that state's byte index. -/
theorem getCharacterIndexRLoop_reach {t : Nat} {line : Line} {s s' : Nat × Nat}
    (ht : 1 ≤ t) (h : ReachFrom t line s s') :
    getCharacterIndexRLoop t line (s'.2 : Int) s.1 s.2 = s'.1 := by
  induction h with
  | refl s =>
    rw [getCharacterIndexRLoop]
    have hno : ¬ (s.1 < line.length ∧ (s.2 : Int) < (s.2 : Int)) := by omega
    simp only [hno, dite_false]
  | step hlt h' ih =>
    rename_i s s'
    rw [getCharacterIndexRLoop]
    have h1 : (s.2 : Int) < s'.2 := by
      have h2 := move_snd_lt t line s.1 s.2 ht
      have h3 := h'.snd_le ht
      omega
    simp only [h1, hlt, and_true, true_and, dite_true]
    exact ih

theorem utf8CharLength_tab : UTF8CharLength 9 = 1 := by decide

theorem lTabCoordsUpd_tab_pos {t : Nat} {line : Line} {i : Nat}
    (hch : line.getD i 0 = 9) (c k : Nat) :
    lTabCoordsUpd t line i c (k + 1) = k := by
  unfold lTabCoordsUpd
  rw [hch]
  simp

theorem lTabCoordsUpd_tab_zero {t : Nat} {line : Line} {i : Nat}
    (hch : line.getD i 0 = 9) (c : Nat) :
    lTabCoordsUpd t line i c 0 = TabSizeAtColumn t c - 1 := by
  unfold lTabCoordsUpd
  rw [hch]
  simp

theorem lTabCoordsUpd_other {t : Nat} {line : Line} {i : Nat}
    (hch : ¬ line.getD i 0 = 9) (c tcl : Nat) :
    lTabCoordsUpd t line i c tcl = tcl := by
  unfold lTabCoordsUpd
  rw [if_neg hch]

/-- Crossing the remaining visual span of a tab in the left-rounding index
loop: from a state strictly inside the tab the loop reaches the state right
after the tab with `tabCoordsLeft = 0`. -/
theorem getCharacterIndexLLoop_tab {t : Nat} {line : Line} (aColumn : Int)
    (i cb : Nat) (hch : line.getD i 0 = 9) (hlt : i < line.length)
    (m : Nat) :
    ∀ k : Nat, 1 ≤ k → k ≤ m - 1 → (cb + m : Int) ≤ aColumn →
    getCharacterIndexLLoop t line aColumn i (cb + (m - k)) k =
      getCharacterIndexLLoop t line aColumn (i + 1) (cb + m) 0 := by
  intro k
  induction k with
  | zero => omega
  | succ k ih =>
    intro _ hk hcol
    rw [getCharacterIndexLLoop]
    have hc1 : i < line.length ∧ ((cb + (m - (k + 1)) : Nat) : Int) < aColumn :=
      ⟨hlt, by omega⟩
    have hupd : lTabCoordsUpd t line i (cb + (m - (k + 1))) (k + 1) = k :=
      lTabCoordsUpd_tab_pos hch _ _
    simp only [dif_pos hc1, hupd]
    by_cases hk0 : k = 0
    · subst hk0
      have e1 : cb + (m - (0 + 1)) + 1 = cb + m := by omega
      simp only [if_pos rfl, hch, utf8CharLength_tab, e1, ite_true]
    · have e2 : cb + (m - (k + 1)) + 1 = cb + (m - k) := by omega
      simp only [if_neg hk0, e2]
      exact ih (by omega) (by omega) hcol

/-- The left-rounding index loop evaluated at the column of a reached state
returns that state's byte index. -/
theorem getCharacterIndexLLoop_reach {t : Nat} {line : Line} {s s' : Nat × Nat}
    (ht : 1 ≤ t) (h : ReachFrom t line s s') :
    getCharacterIndexLLoop t line (s'.2 : Int) s.1 s.2 0 = s'.1 := by
  induction h with
  | refl s =>
    rw [getCharacterIndexLLoop]
    have hno : ¬ (s.1 < line.length ∧ (s.2 : Int) < (s.2 : Int)) := by omega
    simp only [hno, dite_false]
  | step hlt h' ih =>
    rename_i s s'
    have h1 : (s.2 : Int) < s'.2 := by
      have h2 := move_snd_lt t line s.1 s.2 ht
      have h3 := h'.snd_le ht
      omega
    rw [getCharacterIndexLLoop]
    have hc1 : s.1 < line.length ∧ (s.2 : Int) < s'.2 := ⟨hlt, h1⟩
    simp only [dif_pos hc1]
    by_cases hch : line.getD s.1 0 = 9
    · -- a tab: cross its remaining span, then continue at the next glyph
      set m := TabSizeAtColumn t s.2 with hmdef
      have hm1 : 1 ≤ m := by
        have : s.2 % t < t := Nat.mod_lt _ ht
        simp only [hmdef, TabSizeAtColumn]
        omega
      have hmv1 : (MoveCharIndexAndColumn t line s.1 s.2).1 = s.1 + 1 := by
        simp only [MoveCharIndexAndColumn, hch, utf8CharLength_tab]
      have hmv2 : (MoveCharIndexAndColumn t line s.1 s.2).2 = s.2 + m := by
        simp only [MoveCharIndexAndColumn, hch, if_true, hmdef, TabSizeAtColumn]
        have h2 : (s.2 / t) * t + s.2 % t = s.2 := Nat.div_add_mod' s.2 t
        have : s.2 % t < t := Nat.mod_lt _ ht
        omega
      have hcolsle : (s.2 + m : Int) ≤ s'.2 := by
        have := h'.snd_le ht
        rw [hmv2] at this
        omega
      have hupd : lTabCoordsUpd t line s.1 s.2 0 = m - 1 := by
        rw [lTabCoordsUpd_tab_zero hch]
      simp only [hupd]
      by_cases hm1' : m - 1 = 0
      · -- tab spans a single column
        simp only [if_pos hm1', hch, utf8CharLength_tab, hm1']
        have he1 : s.2 + 1 = s.2 + m := by omega
        rw [he1, ← hmv1, ← hmv2]
        exact ih
      · simp only [if_neg hm1']
        have he1 : s.2 + 1 = s.2 + (m - (m - 1)) := by omega
        rw [he1,
          getCharacterIndexLLoop_tab (t := t) (s'.2 : Int) s.1 s.2 hch hlt m
            (m - 1) (by omega) (by omega) hcolsle,
          ← hmv1, ← hmv2]
        exact ih
    · have hmv1 : (MoveCharIndexAndColumn t line s.1 s.2).1 =
          s.1 + UTF8CharLength (line.getD s.1 0) := rfl
      have hmv2 : (MoveCharIndexAndColumn t line s.1 s.2).2 = s.2 + 1 := by
        simp only [MoveCharIndexAndColumn, hch, if_false, ite_false]
      have hupd : lTabCoordsUpd t line s.1 s.2 0 = 0 :=
        lTabCoordsUpd_other hch _ _
      simp only [hupd, if_pos rfl]
      rw [← hmv2, ← hmv1]
      exact ih

/-- The right-rounding index loop lands on a reached byte index. -/
theorem getCharacterIndexRLoop_mem (t : Nat) (line : Line) (aColumn : Int)
    (s : Nat × Nat) :
    ∃ c2, ReachFrom t line s (getCharacterIndexRLoop t line aColumn s.1 s.2, c2) := by
  by_cases hlt : s.1 < line.length ∧ (s.2 : Int) < aColumn
  · obtain ⟨c2, hc2⟩ := getCharacterIndexRLoop_mem t line aColumn
      (MoveCharIndexAndColumn t line s.1 s.2)
    rw [getCharacterIndexRLoop]
    simp only [hlt, dite_true]
    exact ⟨c2, ReachFrom.step hlt.1 hc2⟩
  · rw [getCharacterIndexRLoop]
    simp only [hlt, dite_false]
    exact ⟨s.2, ReachFrom.refl s⟩
termination_by line.length - s.1
decreasing_by
  have := move_fst_lt t line s.1 s.2
  omega

/-- The left-rounding index loop lands on a reached byte index. -/
theorem getCharacterIndexLLoop_mem (t : Nat) (line : Line) (aColumn : Int) :
    ∀ (fuel i c tcl : Nat), (aColumn - (c : Int)).toNat ≤ fuel →
    (∃ cb, ReachFrom t line (0, 0) (i, cb)) →
    ∃ cL, ReachFrom t line (0, 0)
      (getCharacterIndexLLoop t line aColumn i c tcl, cL) := by
  intro fuel
  induction fuel with
  | zero =>
    intro i c tcl hf hreach
    rw [getCharacterIndexLLoop]
    have : ¬ ((c : Int) < aColumn) := by omega
    simp only [this, and_false, dite_false]
    exact hreach
  | succ fuel ih =>
    intro i c tcl hf hreach
    rw [getCharacterIndexLLoop]
    by_cases hcond : i < line.length ∧ (c : Int) < aColumn
    · simp only [dif_pos hcond]
      by_cases hz : lTabCoordsUpd t line i c tcl = 0
      · simp only [if_pos hz]
        refine ih _ _ _ (by omega) ?_
        obtain ⟨cb, hcb⟩ := hreach
        exact ⟨(MoveCharIndexAndColumn t line i cb).2,
          hcb.trans (ReachFrom.step hcond.1 (ReachFrom.refl _))⟩
      · simp only [if_neg hz]
        exact ih _ _ _ (by omega) hreach
    · simp only [dif_neg hcond]
      exact hreach

/-! ### Sanitize: fixed points and idempotence -/

/-- Wrapper-level: the column loop at a reached state's byte index. -/
theorem GetCharacterColumn_reach {t : Nat} {lines : List Line} {ln : Int}
    (h0 : 0 ≤ ln) (hlt : ln < (lines.length : Int)) {p cp : Nat}
    (hr : ReachFrom t (lines.getD ln.toNat []) (0, 0) (p, cp)) :
    GetCharacterColumn t lines ln (p : Int) = cp := by
  unfold GetCharacterColumn
  rw [if_neg (by omega)]
  exact getCharacterColumnLoop_reach hr

/-- Wrapper-level: the right-rounding index at a reached state's column. -/
theorem GetCharacterIndexR_reach {t : Nat} {lines : List Line} {ln : Int}
    (ht : 1 ≤ t) (h0 : 0 ≤ ln) (hlt : ln < (lines.length : Int)) {p cp : Nat}
    (hr : ReachFrom t (lines.getD ln.toNat []) (0, 0) (p, cp)) :
    GetCharacterIndexR t lines ⟨ln, (cp : Int)⟩ = (p : Int) := by
  unfold GetCharacterIndexR
  rw [if_neg (by simp only []; omega)]
  exact_mod_cast congrArg (Nat.cast : Nat → Int)
    (getCharacterIndexRLoop_reach ht hr)

/-- Wrapper-level: the left-rounding index at a reached state's column. -/
theorem GetCharacterIndexL_reach {t : Nat} {lines : List Line} {ln : Int}
    (ht : 1 ≤ t) (h0 : 0 ≤ ln) (hlt : ln < (lines.length : Int)) {p cp : Nat}
    (hr : ReachFrom t (lines.getD ln.toNat []) (0, 0) (p, cp)) :
    GetCharacterIndexL t lines ⟨ln, (cp : Int)⟩ = (p : Int) := by
  unfold GetCharacterIndexL
  rw [if_neg (by simp only []; omega)]
  exact_mod_cast congrArg (Nat.cast : Nat → Int)
    (getCharacterIndexLLoop_reach ht hr)

/-- The tab-snap half of sanitize does not move a coordinate whose column is
the column of a reached state of the glyph walk. -/
theorem sanitizeSnap_fixed_reached {t : Nat} {lines : List Line} {ln : Int}
    (ht : 1 ≤ t) (h0 : 0 ≤ ln) (hlt : ln < (lines.length : Int)) {p cp : Nat}
    (hr : ReachFrom t (lines.getD ln.toNat []) (0, 0) (p, cp)) :
    sanitizeSnap t lines ⟨ln, (cp : Int)⟩ = ⟨ln, (cp : Int)⟩ := by
  unfold sanitizeSnap
  rw [GetCharacterIndexL_reach ht h0 hlt hr]
  dsimp only
  by_cases hcnd : -1 < (p : Int) ∧
      (p : Int) < ((lines.getD ln.toNat []).length : Int) ∧
      (lines.getD ln.toNat []).getD (p : Int).toNat 0 = 9
  · rw [if_pos hcnd]
    rw [GetCharacterIndexR_reach ht h0 hlt hr]
    rw [GetCharacterColumn_reach h0 hlt hr]
    rw [if_pos (by omega)]
  · rw [if_neg hcnd]

/-- The clamp half of sanitize does not move a coordinate whose column is the
column of a reached state of the glyph walk. -/
theorem sanitizeClamp_fixed_reached {t : Nat} {lines : List Line} {ln : Int}
    (ht : 1 ≤ t) (h0 : 0 ≤ ln) (hlt : ln < (lines.length : Int)) {p cp : Nat}
    (hr : ReachFrom t (lines.getD ln.toNat []) (0, 0) (p, cp)) :
    sanitizeClamp t lines ⟨ln, (cp : Int)⟩ = ⟨ln, (cp : Int)⟩ := by
  unfold sanitizeClamp
  dsimp only
  have hmaxl : max ln 0 = ln := by omega
  have hmaxc : max ((cp : Nat) : Int) 0 = ((cp : Nat) : Int) := by omega
  rw [hmaxl, hmaxc, if_neg (by omega), if_neg (by omega)]
  unfold GetLineMaxColumnLimited
  rw [if_neg (by omega)]
  rw [getLineMaxColumnLimitLoop_eq0 ht (cp : Int) (by omega)]
  have hle : cp ≤ getLineMaxColumnLoop t (lines.getD ln.toNat []) 0 0 :=
    reach_le_maxCol ht hr
  split
  · rename_i hc
    have hx : (getLineMaxColumnLoop t (lines.getD ln.toNat []) 0 0 : Int) = cp := by
      omega
    rw [hx]
  · rfl

/-- Full sanitize does not move a coordinate whose column is the column of a
reached state of the glyph walk. -/
theorem sanitize_fixed_reached {t : Nat} {lines : List Line} {ln : Int}
    (ht : 1 ≤ t) (h0 : 0 ≤ ln) (hlt : ln < (lines.length : Int)) {p cp : Nat}
    (hr : ReachFrom t (lines.getD ln.toNat []) (0, 0) (p, cp)) :
    SanitizeCoordinates t lines ⟨ln, (cp : Int)⟩ = ⟨ln, (cp : Int)⟩ := by
  unfold SanitizeCoordinates
  rw [sanitizeClamp_fixed_reached ht h0 hlt hr,
    sanitizeSnap_fixed_reached ht h0 hlt hr]

/-- On an empty document sanitize collapses to `(0,0)`. -/
theorem sanitize_empty {t : Nat} {lines : List Line}
    (h : lines.length = 0) (v : Coordinates) :
    SanitizeCoordinates t lines v = ⟨0, 0⟩ := by
  have hclamp : sanitizeClamp t lines v = ⟨0, 0⟩ := by
    unfold sanitizeClamp
    rw [if_pos (by omega), if_pos h]
  have hL : GetCharacterIndexL t lines ⟨0, 0⟩ = -1 := by
    unfold GetCharacterIndexL
    rw [if_pos (by dsimp only; omega)]
  unfold SanitizeCoordinates
  rw [hclamp]
  unfold sanitizeSnap
  rw [hL, if_neg (by simp)]

/-- The clamp half is idempotent on a nonempty document. -/
theorem sanitizeClamp_idem {t : Nat} {lines : List Line}
    (ht : 1 ≤ t) (hne : lines.length ≠ 0) (v : Coordinates) :
    sanitizeClamp t lines (sanitizeClamp t lines v) = sanitizeClamp t lines v := by
  unfold sanitizeClamp
  by_cases h1 : (lines.length : Int) ≤ max v.mLine 0
  · rw [if_pos h1, if_neg hne]
    dsimp only
    have hml : max ((lines.length : Int) - 1) 0 = (lines.length : Int) - 1 := by
      omega
    rw [hml, if_neg (by omega), if_neg hne]
    have hmc : max ((GetLineMaxColumn t lines ((lines.length : Int) - 1) : Nat) : Int) 0
        = ((GetLineMaxColumn t lines ((lines.length : Int) - 1) : Nat) : Int) := by
      omega
    rw [hmc]
    unfold GetLineMaxColumnLimited GetLineMaxColumn
    rw [if_neg (by omega), if_neg (by omega)]
    rw [getLineMaxColumnLimitLoop_eq0 ht _ (by omega)]
    rw [if_pos (le_refl _)]
  · rw [if_neg h1, if_neg hne]
    dsimp only
    set mc := GetLineMaxColumnLimited t lines (max v.mLine 0) (max v.mColumn 0)
      with hmc
    have hmceq : mc = if (getLineMaxColumnLoop t
          (lines.getD (max v.mLine 0).toNat []) 0 0 : Int) ≤ max v.mColumn 0
        then (getLineMaxColumnLoop t
          (lines.getD (max v.mLine 0).toNat []) 0 0 : Int)
        else max v.mColumn 0 := by
      rw [hmc]
      unfold GetLineMaxColumnLimited
      rw [if_neg (by omega)]
      exact getLineMaxColumnLimitLoop_eq0 ht _ (by omega)
    have hmc0 : 0 ≤ mc := by
      rw [hmceq]
      split
      · omega
      · omega
    have hmcle : mc ≤ (getLineMaxColumnLoop t
        (lines.getD (max v.mLine 0).toNat []) 0 0 : Int) := by
      rw [hmceq]
      split
      · omega
      · omega
    have hml : max (max v.mLine 0) 0 = max v.mLine 0 := by omega
    have hmx : max mc 0 = mc := by omega
    rw [hml, if_neg h1, if_neg hne, hmx]
    unfold GetLineMaxColumnLimited
    rw [if_neg (by omega)]
    rw [getLineMaxColumnLimitLoop_eq0 ht _ hmc0]
    congr 1
    split
    · rename_i hcnd
      omega
    · rfl

/-- Line bounds of the clamp half on a nonempty document. -/
theorem sanitizeClamp_line_bounds {t : Nat} {lines : List Line}
    (hne : lines.length ≠ 0) (v : Coordinates) :
    0 ≤ (sanitizeClamp t lines v).mLine ∧
      (sanitizeClamp t lines v).mLine < (lines.length : Int) := by
  unfold sanitizeClamp
  repeat' split
  all_goals dsimp only
  all_goals omega

/-- Sanitizing a coordinate twice gives the same result as sanitizing it once
(tab size at least 1, as `SetTabSize` guarantees). -/
theorem sanitize_idem {t : Nat} (ht : 1 ≤ t) (lines : List Line)
    (v : Coordinates) :
    SanitizeCoordinates t lines (SanitizeCoordinates t lines v) =
      SanitizeCoordinates t lines v := by
  by_cases hemp : lines.length = 0
  · rw [sanitize_empty hemp v]
    exact sanitize_empty hemp _
  · set r1 := sanitizeClamp t lines v with hr1
    have fl := sanitizeClamp_line_bounds (t := t) hemp v
    rw [← hr1] at fl
    set line0 := lines.getD r1.mLine.toNat [] with hline0
    by_cases hcond : -1 < GetCharacterIndexL t lines r1 ∧
        GetCharacterIndexL t lines r1 < (line0.length : Int) ∧
        line0.getD (GetCharacterIndexL t lines r1).toNat 0 = 9
    · -- the clamped column lies strictly inside a tab: it is snapped to a
      -- boundary column, which sanitize then leaves alone
      have hLwrap : GetCharacterIndexL t lines r1 =
          ((getCharacterIndexLLoop t line0 r1.mColumn 0 0 0 : Nat) : Int) := by
        unfold GetCharacterIndexL
        rw [if_neg (by omega), hline0]
      obtain ⟨cL, hcL⟩ := getCharacterIndexLLoop_mem t line0 r1.mColumn
        (r1.mColumn - 0).toNat 0 0 0 (le_refl _) ⟨0, ReachFrom.refl _⟩
      have hRwrap : GetCharacterIndexR t lines r1 =
          ((getCharacterIndexRLoop t line0 r1.mColumn 0 0 : Nat) : Int) := by
        unfold GetCharacterIndexR
        rw [if_neg (by omega), hline0]
      obtain ⟨cR, hcR⟩ := getCharacterIndexRLoop_mem t line0 r1.mColumn (0, 0)
      have hTL : GetCharacterColumn t lines r1.mLine
          ((getCharacterIndexLLoop t line0 r1.mColumn 0 0 0 : Nat) : Int) = cL :=
        GetCharacterColumn_reach fl.1 fl.2 hcL
      have hTR : GetCharacterColumn t lines r1.mLine
          ((getCharacterIndexRLoop t line0 r1.mColumn 0 0 : Nat) : Int) = cR :=
        GetCharacterColumn_reach fl.1 fl.2 hcR
      have hsnap : sanitizeSnap t lines r1 =
          if r1.mColumn - (cL : Int) ≤ (cR : Int) - r1.mColumn
          then ⟨r1.mLine, (cL : Int)⟩ else ⟨r1.mLine, (cR : Int)⟩ := by
        unfold sanitizeSnap
        rw [if_pos hcond, hLwrap, hRwrap, hTL, hTR]
      show SanitizeCoordinates t lines (sanitizeSnap t lines r1) =
        sanitizeSnap t lines r1
      rw [hsnap]
      split
      · exact sanitize_fixed_reached ht fl.1 fl.2 hcL
      · exact sanitize_fixed_reached ht fl.1 fl.2 hcR
    · -- the clamped column is not inside a tab: the snap is the identity and
      -- a second pass recomputes the very same clamp
      have hsnap : sanitizeSnap t lines r1 = r1 := by
        unfold sanitizeSnap
        rw [if_neg (by rw [hline0] at hcond; exact hcond)]
      show SanitizeCoordinates t lines (sanitizeSnap t lines r1) =
        sanitizeSnap t lines r1
      rw [hsnap]
      unfold SanitizeCoordinates
      rw [hr1, sanitizeClamp_idem ht hemp v, ← hr1, hsnap]

/-! ### Well-formed UTF-8 byte sequences -/

/-- A UTF-8 continuation byte (`10xxxxxx`). -/
def isUtf8ContByte (b : Byte) : Bool := decide (0x80 ≤ b ∧ b < 0xC0)

/-- A byte list that is a concatenation of complete UTF-8 sequences: each lead
byte announces a length that fits in the list and is followed by that many
continuation bytes.  The glyph walk of the editor never overshoots such a
line. -/
def wellFormedUtf8 : List Byte → Bool
  | [] => true
  | b :: rest =>
      decide (UTF8CharLength b ≤ rest.length + 1) &&
      (rest.take (UTF8CharLength b - 1)).all isUtf8ContByte &&
      wellFormedUtf8 (rest.drop (UTF8CharLength b - 1))
termination_by l => l.length
decreasing_by
  simp only [List.length_cons]
  have := List.length_drop (UTF8CharLength b - 1) rest
  omega

/-- On a well-formed suffix, the glyph walk stays inside the line and lands on
well-formed suffixes. -/
theorem wellFormed_reach {t : Nat} {line : Line} {s s' : Nat × Nat}
    (h : ReachFrom t line s s') (hle : s.1 ≤ line.length)
    (hwf : wellFormedUtf8 (line.drop s.1) = true) :
    s'.1 ≤ line.length ∧ wellFormedUtf8 (line.drop s'.1) = true := by
  induction h with
  | refl s => exact ⟨hle, hwf⟩
  | step hlt h' ih =>
    rename_i s s'
    have hcons : line.drop s.1 = line.getD s.1 0 :: line.drop (s.1 + 1) := by
      rw [List.getD_eq_getElem?_getD, List.getElem?_eq_getElem hlt]
      exact List.drop_eq_getElem_cons hlt
    rw [hcons] at hwf
    unfold wellFormedUtf8 at hwf
    simp only [Bool.and_eq_true, decide_eq_true_eq] at hwf
    have hlen : UTF8CharLength (line.getD s.1 0) ≤ (line.drop (s.1 + 1)).length + 1 :=
      hwf.1.1
    rw [List.length_drop] at hlen
    have hmv : (MoveCharIndexAndColumn t line s.1 s.2).1 =
        s.1 + UTF8CharLength (line.getD s.1 0) := rfl
    have hdd : (line.drop (s.1 + 1)).drop (UTF8CharLength (line.getD s.1 0) - 1) =
        line.drop (s.1 + UTF8CharLength (line.getD s.1 0)) := by
      rw [List.drop_drop]
      congr 1
      have := UTF8CharLength_pos (line.getD s.1 0)
      omega
    refine ih ?_ ?_
    · rw [hmv]
      omega
    · rw [hmv, ← hdd]
      exact hwf.2

/-- The right-rounding index loop's result, as a reached state. -/
theorem getCharacterColumnLoop_mem (t : Nat) (line : Line) (aIndex : Int)
    (s : Nat × Nat) :
    ∃ s', ReachFrom t line s s' ∧
      getCharacterColumnLoop t line aIndex s.1 s.2 = s'.2 := by
  by_cases hlt : (s.1 : Int) < aIndex ∧ s.1 < line.length
  · obtain ⟨s', hs', hval⟩ := getCharacterColumnLoop_mem t line aIndex
      (MoveCharIndexAndColumn t line s.1 s.2)
    rw [getCharacterColumnLoop]
    simp only [hlt, dite_true]
    exact ⟨s', ReachFrom.step hlt.2 hs', hval⟩
  · rw [getCharacterColumnLoop]
    simp only [hlt, dite_false]
    exact ⟨s, ReachFrom.refl s, rfl⟩
termination_by line.length - s.1
decreasing_by
  have := move_fst_lt t line s.1 s.2
  omega

/-! ### Claim theorems: coordinate mapper -/

/-- Claim C8: during column computation a tab glyph advances the display
column to the next multiple of the configured tab size (the least multiple of
`t` strictly greater than the current column), the configured tab size is
clamped into `[1, 8]` by `SetTabSize`, and every non-tab glyph advances the
column by exactly 1 regardless of how many UTF-8 bytes it occupies. -/
theorem claim_C8_tab_column_advance (t : Nat) (ht : 1 ≤ t) (line : Line)
    (i c : Nat) :
    (∀ v : Int, 1 ≤ SetTabSize v ∧ SetTabSize v ≤ 8) ∧
    (line.getD i 0 = 9 →
      (MoveCharIndexAndColumn t line i c).2 = t * (c / t + 1) ∧
      c < (MoveCharIndexAndColumn t line i c).2 ∧
      (MoveCharIndexAndColumn t line i c).2 % t = 0 ∧
      (∀ m : Nat, c < m → m % t = 0 →
        (MoveCharIndexAndColumn t line i c).2 ≤ m)) ∧
    (line.getD i 0 ≠ 9 →
      ∀ anyUtf8Len : Nat, anyUtf8Len = UTF8CharLength (line.getD i 0) →
        (MoveCharIndexAndColumn t line i c).2 = c + 1) := by
  refine ⟨?_, ?_, ?_⟩
  · intro v
    unfold SetTabSize
    constructor
    · exact le_max_left _ _
    · omega
  · intro hch
    have hv : (MoveCharIndexAndColumn t line i c).2 = (c / t) * t + t := by
      simp only [MoveCharIndexAndColumn, hch, if_true]
    have hdm := Nat.div_add_mod c t
    have hmlt : c % t < t := Nat.mod_lt _ ht
    have hcomm : (c / t) * t = t * (c / t) := Nat.mul_comm _ _
    refine ⟨by rw [hv]; ring, by omega, ?_, ?_⟩
    · rw [hv]
      have : (c / t) * t + t = (c / t + 1) * t := by ring
      rw [this]
      exact Nat.mul_mod_left _ _
    · intro m hcm hm0
      obtain ⟨q, hq⟩ : ∃ q, m = t * q :=
        ⟨m / t, by have := Nat.div_add_mod m t; omega⟩
      rw [hv, hq]
      have hq1 : c / t + 1 ≤ q := by
        by_contra hq2
        push_neg at hq2
        have : q ≤ c / t := by omega
        have : t * q ≤ t * (c / t) := Nat.mul_le_mul_left t this
        omega
      calc c / t * t + t = t * (c / t + 1) := by ring
        _ ≤ t * q := Nat.mul_le_mul_left t hq1
        _ = t * q := rfl
  · intro hch _ _
    simp only [MoveCharIndexAndColumn, hch, if_false, ite_false]

/-- Witness for C8 at tab size 4, line `"\ta"`, from column 2. -/
theorem claim_C8_witness :
    1 ≤ 4 ∧ ((∀ v : Int, 1 ≤ SetTabSize v ∧ SetTabSize v ≤ 8) ∧
    (([9, 97] : Line).getD 0 0 = 9 →
      (MoveCharIndexAndColumn 4 [9, 97] 0 2).2 = 4 * (2 / 4 + 1) ∧
      2 < (MoveCharIndexAndColumn 4 [9, 97] 0 2).2 ∧
      (MoveCharIndexAndColumn 4 [9, 97] 0 2).2 % 4 = 0 ∧
      (∀ m : Nat, 2 < m → m % 4 = 0 →
        (MoveCharIndexAndColumn 4 [9, 97] 0 2).2 ≤ m)) ∧
    (([9, 97] : Line).getD 0 0 ≠ 9 →
      ∀ anyUtf8Len : Nat, anyUtf8Len = UTF8CharLength (([9, 97] : Line).getD 0 0) →
        (MoveCharIndexAndColumn 4 [9, 97] 0 2).2 = 2 + 1)) :=
  ⟨by decide, claim_C8_tab_column_advance 4 (by decide) [9, 97] 0 2⟩

/-- Column bounds of the clamp half on a nonempty document. -/
theorem sanitizeClamp_col_bounds {t : Nat} {lines : List Line}
    (ht : 1 ≤ t) (hne : lines.length ≠ 0) (v : Coordinates) :
    0 ≤ (sanitizeClamp t lines v).mColumn ∧
      (sanitizeClamp t lines v).mColumn ≤
        (GetLineMaxColumn t lines (sanitizeClamp t lines v).mLine : Int) := by
  unfold sanitizeClamp
  by_cases h1 : (lines.length : Int) ≤ max v.mLine 0
  · rw [if_pos h1, if_neg hne]
    dsimp only
    exact ⟨by omega, le_refl _⟩
  · rw [if_neg h1, if_neg hne]
    dsimp only
    have hcnd : ¬ (max v.mLine 0 < 0 ∨ (lines.length : Int) ≤ max v.mLine 0) := by
      omega
    have hlim : GetLineMaxColumnLimited t lines (max v.mLine 0) (max v.mColumn 0)
        = if (getLineMaxColumnLoop t (lines.getD (max v.mLine 0).toNat []) 0 0 : Int)
            ≤ max v.mColumn 0
          then (getLineMaxColumnLoop t (lines.getD (max v.mLine 0).toNat []) 0 0 : Int)
          else max v.mColumn 0 := by
      unfold GetLineMaxColumnLimited
      rw [if_neg hcnd]
      exact getLineMaxColumnLimitLoop_eq0 ht _ (by omega)
    have hmax : GetLineMaxColumn t lines (max v.mLine 0)
        = getLineMaxColumnLoop t (lines.getD (max v.mLine 0).toNat []) 0 0 := by
      unfold GetLineMaxColumn
      rw [if_neg hcnd]
    rw [hlim, hmax]
    split
    · omega
    · omega

/-- The tab-snap half never changes the line. -/
theorem sanitizeSnap_mLine (t : Nat) (lines : List Line) (out : Coordinates) :
    (sanitizeSnap t lines out).mLine = out.mLine := by
  unfold sanitizeSnap
  by_cases h : -1 < GetCharacterIndexL t lines out ∧
      GetCharacterIndexL t lines out <
        ((lines.getD out.mLine.toNat []).length : Int) ∧
      (lines.getD out.mLine.toNat []).getD
        (GetCharacterIndexL t lines out).toNat 0 = 9
  · rw [if_pos h]
    dsimp only
    split
    · rfl
    · rfl
  · rw [if_neg h]

/-- Column bounds of full sanitize on a nonempty document. -/
theorem sanitize_col_bounds {t : Nat} {lines : List Line}
    (ht : 1 ≤ t) (hne : lines.length ≠ 0) (v : Coordinates) :
    0 ≤ (SanitizeCoordinates t lines v).mColumn ∧
      (SanitizeCoordinates t lines v).mColumn ≤
        (GetLineMaxColumn t lines (SanitizeCoordinates t lines v).mLine : Int) := by
  unfold SanitizeCoordinates
  set r1 := sanitizeClamp t lines v with hr1
  have fl := sanitizeClamp_line_bounds (t := t) hne v
  rw [← hr1] at fl
  set line0 := lines.getD r1.mLine.toNat [] with hline0
  by_cases hcond : -1 < GetCharacterIndexL t lines r1 ∧
      GetCharacterIndexL t lines r1 < (line0.length : Int) ∧
      line0.getD (GetCharacterIndexL t lines r1).toNat 0 = 9
  · have hLwrap : GetCharacterIndexL t lines r1 =
        ((getCharacterIndexLLoop t line0 r1.mColumn 0 0 0 : Nat) : Int) := by
      unfold GetCharacterIndexL
      rw [if_neg (by omega), hline0]
    obtain ⟨cL, hcL⟩ := getCharacterIndexLLoop_mem t line0 r1.mColumn
      (r1.mColumn - 0).toNat 0 0 0 (le_refl _) ⟨0, ReachFrom.refl _⟩
    have hRwrap : GetCharacterIndexR t lines r1 =
        ((getCharacterIndexRLoop t line0 r1.mColumn 0 0 : Nat) : Int) := by
      unfold GetCharacterIndexR
      rw [if_neg (by omega), hline0]
    obtain ⟨cR, hcR⟩ := getCharacterIndexRLoop_mem t line0 r1.mColumn (0, 0)
    have hTL : GetCharacterColumn t lines r1.mLine
        ((getCharacterIndexLLoop t line0 r1.mColumn 0 0 0 : Nat) : Int) = cL :=
      GetCharacterColumn_reach fl.1 fl.2 hcL
    have hTR : GetCharacterColumn t lines r1.mLine
        ((getCharacterIndexRLoop t line0 r1.mColumn 0 0 : Nat) : Int) = cR :=
      GetCharacterColumn_reach fl.1 fl.2 hcR
    have hsnap : sanitizeSnap t lines r1 =
        if r1.mColumn - (cL : Int) ≤ (cR : Int) - r1.mColumn
        then ⟨r1.mLine, (cL : Int)⟩ else ⟨r1.mLine, (cR : Int)⟩ := by
      unfold sanitizeSnap
      rw [if_pos hcond, hLwrap, hRwrap, hTL, hTR]
    have hmL : cL ≤ GetLineMaxColumn t lines r1.mLine := by
      unfold GetLineMaxColumn
      rw [if_neg (by omega), ← hline0]
      exact reach_le_maxCol ht hcL
    have hmR : cR ≤ GetLineMaxColumn t lines r1.mLine := by
      unfold GetLineMaxColumn
      rw [if_neg (by omega), ← hline0]
      exact reach_le_maxCol ht hcR
    rw [hsnap]
    split
    · dsimp only
      omega
    · dsimp only
      omega
  · have hsnap : sanitizeSnap t lines r1 = r1 := by
      unfold sanitizeSnap
      rw [if_neg (by rw [hline0] at hcond; exact hcond)]
    have hcb := sanitizeClamp_col_bounds (t := t) ht hne v
    rw [← hr1] at hcb
    rw [hsnap]
    exact hcb

/-- Claim C7: sanitizing any coordinate value (any line and column, including
out-of-range ones) twice gives the same result as sanitizing it once, for any
document and any tab size at least 1 (as `SetTabSize` guarantees). -/
theorem claim_C7_sanitize_idempotent (t : Nat) (ht : 1 ≤ t)
    (lines : List Line) (c : Coordinates) :
    SanitizeCoordinates t lines (SanitizeCoordinates t lines c) =
      SanitizeCoordinates t lines c :=
  sanitize_idem ht lines c

/-- Witness for C7 at tab size 4 on the document `["\tb"]`, column 2 (strictly
inside the tab). -/
theorem claim_C7_witness :
    1 ≤ 4 ∧ SanitizeCoordinates 4 [[9, 98]]
        (SanitizeCoordinates 4 [[9, 98]] ⟨0, 2⟩) =
      SanitizeCoordinates 4 [[9, 98]] ⟨0, 2⟩ :=
  ⟨by decide, claim_C7_sanitize_idempotent 4 (by decide) [[9, 98]] ⟨0, 2⟩⟩

/-- Claim C6, counterexample: the byte-index-for-column operations do reject an
out-of-range line with the error value `-1` instead of clamping it: on the
one-line document `["a"]`, asking for line 1 yields `-1` from both the
left-rounding and the right-rounding byte-index mappers, which is outside the
valid byte-index range `[0, 1]` of every line of the document. -/
theorem claim_C6_counterexample :
    GetCharacterIndexL 4 [[97]] ⟨1, 0⟩ = -1 ∧
    GetCharacterIndexR 4 [[97]] ⟨1, 0⟩ = -1 ∧
    ¬ (0 ≤ GetCharacterIndexL 4 [[97]] ⟨1, 0⟩) := by
  refine ⟨?_, ?_, ?_⟩
  · rfl
  · rfl
  · decide

/-- Claim C6 as amended: the coordinate-mapper operations are total (never
throw); `sanitize` always clamps into the valid line/column range; the
byte-index mappers clamp out-of-range columns into the line (for lines made of
complete UTF-8 sequences) but report an out-of-range line with the sentinel
`-1` rather than clamping it, and the column mapper reports `0` there. -/
theorem claim_C6_amended (t : Nat) (ht : 1 ≤ t) (lines : List Line)
    (coords : Coordinates) (aIndex : Int) :
    ((coords.mLine < 0 ∨ (lines.length : Int) ≤ coords.mLine) →
      GetCharacterIndexL t lines coords = -1 ∧
      GetCharacterIndexR t lines coords = -1 ∧
      GetCharacterColumn t lines coords.mLine aIndex = 0) ∧
    (0 ≤ coords.mLine → coords.mLine < (lines.length : Int) →
      wellFormedUtf8 (lines.getD coords.mLine.toNat []) = true →
      0 ≤ GetCharacterIndexL t lines coords ∧
      GetCharacterIndexL t lines coords ≤
        ((lines.getD coords.mLine.toNat []).length : Int) ∧
      0 ≤ GetCharacterIndexR t lines coords ∧
      GetCharacterIndexR t lines coords ≤
        ((lines.getD coords.mLine.toNat []).length : Int)) ∧
    (GetCharacterColumn t lines coords.mLine aIndex ≤
      GetLineMaxColumn t lines coords.mLine) ∧
    (lines.length ≠ 0 →
      0 ≤ (SanitizeCoordinates t lines coords).mLine ∧
      (SanitizeCoordinates t lines coords).mLine < (lines.length : Int) ∧
      0 ≤ (SanitizeCoordinates t lines coords).mColumn ∧
      (SanitizeCoordinates t lines coords).mColumn ≤
        (GetLineMaxColumn t lines (SanitizeCoordinates t lines coords).mLine : Int)) := by
  refine ⟨?_, ?_, ?_, ?_⟩
  · intro hout
    refine ⟨?_, ?_, ?_⟩
    · unfold GetCharacterIndexL
      rw [if_pos hout]
    · unfold GetCharacterIndexR
      rw [if_pos hout]
    · unfold GetCharacterColumn
      rw [if_pos hout]
  · intro h0 hlt hwf
    have hLwrap : GetCharacterIndexL t lines coords =
        ((getCharacterIndexLLoop t (lines.getD coords.mLine.toNat [])
          coords.mColumn 0 0 0 : Nat) : Int) := by
      unfold GetCharacterIndexL
      rw [if_neg (by omega)]
    have hRwrap : GetCharacterIndexR t lines coords =
        ((getCharacterIndexRLoop t (lines.getD coords.mLine.toNat [])
          coords.mColumn 0 0 : Nat) : Int) := by
      unfold GetCharacterIndexR
      rw [if_neg (by omega)]
    obtain ⟨cL, hcL⟩ := getCharacterIndexLLoop_mem t
      (lines.getD coords.mLine.toNat []) coords.mColumn
      (coords.mColumn - 0).toNat 0 0 0 (le_refl _) ⟨0, ReachFrom.refl _⟩
    obtain ⟨cR, hcR⟩ := getCharacterIndexRLoop_mem t
      (lines.getD coords.mLine.toNat []) coords.mColumn (0, 0)
    have hLle := (wellFormed_reach hcL (by omega) (by simpa using hwf)).1
    have hRle := (wellFormed_reach hcR (by omega) (by simpa using hwf)).1
    rw [hLwrap, hRwrap]
    refine ⟨by omega, by exact_mod_cast hLle, by omega, by exact_mod_cast hRle⟩
  · by_cases hin : coords.mLine < 0 ∨ (lines.length : Int) ≤ coords.mLine
    · unfold GetCharacterColumn GetLineMaxColumn
      rw [if_pos hin, if_pos hin]
    · unfold GetCharacterColumn GetLineMaxColumn
      rw [if_neg hin, if_neg hin]
      obtain ⟨s', hs', hval⟩ := getCharacterColumnLoop_mem t
        (lines.getD coords.mLine.toNat []) aIndex (0, 0)
      rw [hval]
      have := reach_le_maxCol ht hs'
      simpa using this
  · intro hne
    have h1 := sanitizeClamp_line_bounds (t := t) hne coords
    have h2 := sanitize_col_bounds (t := t) ht hne coords
    have hline : (SanitizeCoordinates t lines coords).mLine =
        (sanitizeClamp t lines coords).mLine := by
      unfold SanitizeCoordinates
      exact sanitizeSnap_mLine t lines (sanitizeClamp t lines coords)
    exact ⟨by rw [hline]; exact h1.1, by rw [hline]; exact h1.2, h2.1, h2.2⟩

/-- Witness for the amended C6 on the document `["a"]` at line 1 (out of
range). -/
theorem claim_C6_amended_witness :
    (1 ≤ 4 ∧
      GetCharacterIndexL 4 [[97]] ⟨1, 0⟩ = -1 ∧
      GetCharacterIndexR 4 [[97]] ⟨1, 0⟩ = -1 ∧
      GetCharacterColumn 4 [[97]] 1 0 = 0) := by
  have h := claim_C6_amended 4 (by decide) [[97]] ⟨1, 0⟩ 0
  exact ⟨by decide, h.1 (by decide)⟩

/-! ### Editor data model
`TextEditor`'s mutable state, restricted to the fields the editing engine
reads or writes.  Pure-rendering fields (scroll position, palette, highlight
cache, the float refresh timer) are omitted: no modelled operation reads
them. -/

/-- Model of `TextEditor::Cursor`: an (anchor, head) pair of coordinates.  The
struct lives in the editor's header, which is not part of `src/`; modelled from
the spec: "Cursor: an (interactive-start, interactive-end) Coordinates pair". -/
structure Cursor where
  mInteractiveStart : Coordinates
  mInteractiveEnd : Coordinates
deriving DecidableEq, Repr

instance : Inhabited Coordinates := ⟨⟨0, 0⟩⟩

instance : Inhabited Cursor := ⟨⟨⟨0, 0⟩, ⟨0, 0⟩⟩⟩

/-- Modelled from the spec: "selection-start = min(start,end)". -/
def Cursor.GetSelectionStart (c : Cursor) : Coordinates :=
  cmin c.mInteractiveStart c.mInteractiveEnd

/-- Modelled from the spec: "selection-end = max(start,end)". -/
def Cursor.GetSelectionEnd (c : Cursor) : Coordinates :=
  cmax c.mInteractiveStart c.mInteractiveEnd

/-- Modelled from the spec: "a cursor with start == end has no selection". -/
def Cursor.HasSelection (c : Cursor) : Bool :=
  decide (c.mInteractiveStart ≠ c.mInteractiveEnd)

/-- Model of `TextEditor::EditorState`: the cursor set.  `mCurrentCursor` is
the index of the last valid cursor (the set holds `mCurrentCursor + 1`
cursors). -/
structure EditorState where
  mCurrentCursor : Nat
  mLastAddedCursor : Nat
  mCursors : List Cursor
deriving DecidableEq, Repr

instance : Inhabited EditorState := ⟨⟨0, 0, [default]⟩⟩

/-- Model of `TextEditor::UndoOperationType`. -/
inductive UndoOperationType where
  | Add
  | Delete
deriving DecidableEq, Repr

/-- Model of `TextEditor::UndoOperation`. -/
structure UndoOperation where
  mText : List Byte
  mStart : Coordinates
  mEnd : Coordinates
  mType : UndoOperationType
deriving DecidableEq, Repr

/-- Model of `TextEditor::UndoRecord` (operations plus before/after cursor-set
snapshots). -/
structure UndoRecord where
  mOperations : List UndoOperation
  mBefore : EditorState
  mAfter : EditorState
deriving DecidableEq, Repr

instance : Inhabited UndoRecord := ⟨⟨[], default, default⟩⟩

/-- Model of `TextEditor::SearchResult`. -/
structure SearchResult where
  mStart : Coordinates
  mEnd : Coordinates
deriving DecidableEq, Repr

/-- The editing-engine state of a `TextEditor` instance. -/
structure Editor where
  mLines : List Line
  mState : EditorState
  mUndoBuffer : List UndoRecord
  mUndoIndex : Nat
  mTabSize : Nat
  mReadOnly : Bool
  mFindBuffer : List Byte
  mReplaceBuffer : List Byte
  mFindCaseSensitive : Bool
  mFindWholeWord : Bool
  mFindUseRegex : Bool
  mFindSelectionOnly : Bool
  mFindWrapAround : Bool
  mFindResults : List SearchResult
  mFindResultIndex : Int
  mFindResultsDirty : Bool
  mFindRefreshPending : Bool
  mFindLastUndoIndex : Nat
  mFindLastUndoBufferSize : Nat
  mFindSelectionRangeValid : Bool
  mFindSelectionRangeStart : Coordinates
  mFindSelectionRangeEnd : Coordinates
  mCursorPositionChanged : Bool
deriving DecidableEq, Repr

/-- Model of the constructor `TextEditor::TextEditor` (TextEditor.cpp:31): one
empty line, one default cursor, empty find/replace buffers, default tab size 4
(the header's initializer, consistent with `SetTabSize`'s 1..8 clamp). -/
def initialEditor : Editor where
  mLines := [[]]
  mState := ⟨0, 0, [default]⟩
  mUndoBuffer := []
  mUndoIndex := 0
  mTabSize := 4
  mReadOnly := false
  mFindBuffer := []
  mReplaceBuffer := []
  mFindCaseSensitive := false
  mFindWholeWord := false
  mFindUseRegex := false
  mFindSelectionOnly := false
  mFindWrapAround := true
  mFindResults := []
  mFindResultIndex := -1
  mFindResultsDirty := false
  mFindRefreshPending := false
  mFindLastUndoIndex := 0
  mFindLastUndoBufferSize := 0
  mFindSelectionRangeValid := false
  mFindSelectionRangeStart := ⟨0, 0⟩
  mFindSelectionRangeEnd := ⟨0, 0⟩
  mCursorPositionChanged := false

/-- Model of `TextEditor::MarkFindResultsDirty` (TextEditor.cpp:237); the
deferred-refresh float timer is not modelled. -/
def MarkFindResultsDirty (e : Editor) (deferRefresh : Bool) : Editor :=
  { e with mFindResultsDirty := true, mFindRefreshPending := deferRefresh }

/-- Model of `TextEditor::SetCursorPosition` (TextEditor.cpp:766); the
`EnsureCursorVisible` scroll request is not modelled. -/
def SetCursorPosition (e : Editor) (aPosition : Coordinates) (aCursor : Int)
    (aClearSelection : Bool) : Editor :=
  let c : Nat := if aCursor = -1 then e.mState.mCurrentCursor else aCursor.toNat
  let cur := e.mState.mCursors.getD c default
  let cur1 := if aClearSelection then
      { cur with mInteractiveStart := aPosition } else cur
  let cur2 := if cur1.mInteractiveEnd ≠ aPosition then
      { cur1 with mInteractiveEnd := aPosition } else cur1
  { e with
    mState := { e.mState with mCursors := e.mState.mCursors.set c cur2 },
    mCursorPositionChanged := true }

/-- The "before" pass of `TextEditor::OnLineChanged` (TextEditor.cpp:2734):
for every selection-less cursor on line `aLine` strictly right of `aColumn`,
remember its byte index shifted by the edit size. -/
def onLineChangedIndices (e : Editor) (aLine aColumn aCharCount : Int)
    (aDeleted : Bool) : List (Nat × Int) :=
  (List.range (e.mState.mCurrentCursor + 1)).filterMap fun c =>
    let cur := e.mState.mCursors.getD c default
    if cur.mInteractiveEnd.mLine = aLine ∧
        aColumn < cur.mInteractiveEnd.mColumn ∧
        cur.GetSelectionEnd = cur.GetSelectionStart then
      some (c, GetCharacterIndexR e.mTabSize e.mLines
          ⟨aLine, cur.mInteractiveEnd.mColumn⟩ +
        (if aDeleted then -aCharCount else aCharCount))
    else none

/-- The "after" pass of `TextEditor::OnLineChanged` (TextEditor.cpp:2751):
reposition each remembered cursor at the column of its shifted byte index. -/
def onLineChangedApply (e : Editor) (aLine : Int)
    (pairs : List (Nat × Int)) : Editor :=
  pairs.foldl (fun ed p =>
    SetCursorPosition ed
      ⟨aLine, (GetCharacterColumn ed.mTabSize ed.mLines aLine p.2 : Int)⟩
      (p.1 : Int) true) e

/-- Model of `TextEditor::RemoveGlyphsFromLine` (TextEditor.cpp:2030);
`aEndChar = -1` erases to the end of the line. -/
def RemoveGlyphsFromLine (e : Editor) (aLine aStartChar aEndChar : Int) :
    Editor :=
  let column := GetCharacterColumn e.mTabSize e.mLines aLine aStartChar
  let pairs := onLineChangedIndices e aLine (column : Int)
    (aEndChar - aStartChar) true
  let line := e.mLines.getD aLine.toNat []
  let newLine := if aEndChar = -1 then line.take aStartChar.toNat
    else line.take aStartChar.toNat ++ line.drop aEndChar.toNat
  let e1 := { e with mLines := e.mLines.set aLine.toNat newLine }
  onLineChangedApply e1 aLine pairs

/-- Model of `TextEditor::AddGlyphsToLine` (TextEditor.cpp:2039). -/
def AddGlyphsToLine (e : Editor) (aLine aTargetIndex : Int)
    (glyphs : List Byte) : Editor :=
  let targetColumn := GetCharacterColumn e.mTabSize e.mLines aLine aTargetIndex
  let pairs := onLineChangedIndices e aLine (targetColumn : Int)
    (glyphs.length : Int) false
  let line := e.mLines.getD aLine.toNat []
  let newLine := line.take aTargetIndex.toNat ++ glyphs ++
    line.drop aTargetIndex.toNat
  let e1 := { e with mLines := e.mLines.set aLine.toNat newLine }
  onLineChangedApply e1 aLine pairs

/-- Model of `TextEditor::AddGlyphToLine` (TextEditor.cpp:2049). -/
def AddGlyphToLine (e : Editor) (aLine aTargetIndex : Int) (aGlyph : Byte) :
    Editor :=
  let targetColumn := GetCharacterColumn e.mTabSize e.mLines aLine aTargetIndex
  let pairs := onLineChangedIndices e aLine (targetColumn : Int) 1 false
  let line := e.mLines.getD aLine.toNat []
  let newLine := line.take aTargetIndex.toNat ++ aGlyph ::
    line.drop aTargetIndex.toNat
  let e1 := { e with mLines := e.mLines.set aLine.toNat newLine }
  onLineChangedApply e1 aLine pairs

/-- Model of `TextEditor::InsertLine` (TextEditor.cpp:1901): insert an empty
line and push cursors at or below the insertion point one line down
(`SetCursorPosition`'s default clears the selection). -/
def InsertLine (e : Editor) (aIndex : Int) : Editor :=
  let e1 := { e with mLines := e.mLines.insertIdx aIndex.toNat [] }
  (List.range (e1.mState.mCurrentCursor + 1)).foldl (fun ed c =>
    let cur := ed.mState.mCursors.getD c default
    if aIndex ≤ cur.mInteractiveEnd.mLine then
      SetCursorPosition ed
        ⟨cur.mInteractiveEnd.mLine + 1, cur.mInteractiveEnd.mColumn⟩
        (c : Int) true
    else ed) e1

/-- Model of `TextEditor::RemoveLine` (TextEditor.cpp:1915) without the
handled-cursor set (no modelled caller passes one). -/
def RemoveLine (e : Editor) (aIndex : Int) : Editor :=
  let e1 := { e with mLines := e.mLines.eraseIdx aIndex.toNat }
  (List.range (e1.mState.mCurrentCursor + 1)).foldl (fun ed c =>
    let cur := ed.mState.mCursors.getD c default
    if aIndex ≤ cur.mInteractiveEnd.mLine then
      SetCursorPosition ed
        ⟨cur.mInteractiveEnd.mLine - 1, cur.mInteractiveEnd.mColumn⟩
        (c : Int) true
    else ed) e1

/-- Model of `TextEditor::RemoveLines` (TextEditor.cpp:1934): erase lines
`[aStart, aEnd)` and shift the line of every cursor at or below `aStart` up by
the removed count (field writes, clamped at 0, no `SetCursorPosition`). -/
def RemoveLines (e : Editor) (aStart aEnd : Int) : Editor :=
  let newLines := e.mLines.take aStart.toNat ++ e.mLines.drop aEnd.toNat
  let shift := fun (l : Int) => max (l - (aEnd - aStart)) 0
  let cursors := (List.range (e.mState.mCurrentCursor + 1)).foldl
    (fun (cs : List Cursor) c =>
      let cur := cs.getD c default
      let cur1 := if aStart ≤ cur.mInteractiveEnd.mLine then
          { cur with mInteractiveEnd :=
              ⟨shift cur.mInteractiveEnd.mLine, cur.mInteractiveEnd.mColumn⟩ }
        else cur
      let cur2 := if aStart ≤ cur1.mInteractiveStart.mLine then
          { cur1 with mInteractiveStart :=
              ⟨shift cur1.mInteractiveStart.mLine,
               cur1.mInteractiveStart.mColumn⟩ }
        else cur1
      cs.set c cur2) e.mState.mCursors
  { e with mLines := newLines,
           mState := { e.mState with mCursors := cursors } }

/-- The inner byte loop of the default case of `TextEditor::InsertTextAt`
(TextEditor.cpp:821): insert the bytes of one UTF-8 sequence one at a time at
consecutive indices. -/
def insertChunk (e : Editor) (aLine : Int) (cindex : Int) :
    List Byte → Editor × Int
  | [] => (e, cindex)
  | b :: bs => insertChunk (AddGlyphToLine e aLine cindex b) aLine (cindex + 1) bs

/-- Loop of `TextEditor::InsertTextAt` (TextEditor.cpp:789): `\r` dropped,
`\n` splits the current line, any other byte starts a UTF-8 sequence whose
`UTF8CharLength` bytes are inserted one by one. -/
def insertTextAtLoop (e : Editor) (aWhere : Coordinates) (cindex : Int)
    (totalLines : Nat) : List Byte → Editor × Coordinates × Nat
  | [] => (e, aWhere, totalLines)
  | b :: rest =>
    if b = 13 then insertTextAtLoop e aWhere cindex totalLines rest
    else if b = 10 then
      let lineLen := (e.mLines.getD aWhere.mLine.toNat []).length
      let e1 :=
        if cindex < (lineLen : Int) then
          let e' := InsertLine e (aWhere.mLine + 1)
          let gl := (e'.mLines.getD aWhere.mLine.toNat []).drop cindex.toNat
          let e'' := AddGlyphsToLine e' (aWhere.mLine + 1) 0 gl
          RemoveGlyphsFromLine e'' aWhere.mLine cindex (-1)
        else InsertLine e (aWhere.mLine + 1)
      insertTextAtLoop e1 ⟨aWhere.mLine + 1, 0⟩ 0 (totalLines + 1) rest
    else
      let d := UTF8CharLength b
      let p := insertChunk e aWhere.mLine cindex ((b :: rest).take d)
      let col := GetCharacterColumn p.1.mTabSize p.1.mLines aWhere.mLine p.2
      insertTextAtLoop p.1 ⟨aWhere.mLine, (col : Int)⟩ p.2 totalLines
        ((b :: rest).drop d)
termination_by text => text.length
decreasing_by
  · simp
  · simp
  · have := UTF8CharLength_pos b
    simp only [List.length_drop, List.length_cons]
    omega

/-- Model of `TextEditor::InsertTextAt` (TextEditor.cpp:781): returns the
updated editor, the end coordinate of the insertion (the inout `aWhere`) and
the number of lines inserted. -/
def InsertTextAt (e : Editor) (aWhere : Coordinates) (aValue : List Byte) :
    Editor × Coordinates × Nat :=
  let e0 := MarkFindResultsDirty e true
  insertTextAtLoop e0 aWhere
    (GetCharacterIndexR e0.mTabSize e0.mLines aWhere) 0 aValue

/-- The cursor move-up loop of the cross-line branch of
`TextEditor::DeleteRange` (TextEditor.cpp:1992): cursors sitting on the range's
end line are re-based onto the start line (with an early break past the end
line, and skipping a cursor that selects exactly the deleted range). -/
def deleteRangeCursorLoop (e : Editor) (aStart aEnd : Coordinates) (c : Nat) :
    Editor :=
  if h : c ≤ e.mState.mCurrentCursor then
    let cur := e.mState.mCursors.getD c default
    if cur.GetSelectionStart = aStart ∧ cur.GetSelectionEnd = aEnd then
      deleteRangeCursorLoop e aStart aEnd (c + 1)
    else if aEnd.mLine < cur.mInteractiveEnd.mLine then e
    else if cur.mInteractiveEnd.mLine ≠ aEnd.mLine then
      deleteRangeCursorLoop e aStart aEnd (c + 1)
    else
      let endIdx := GetCharacterIndexR e.mTabSize e.mLines cur.mInteractiveEnd
      let startIdx := GetCharacterIndexR e.mTabSize e.mLines
        cur.mInteractiveStart
      let base := GetCharacterIndexR e.mTabSize e.mLines aStart
      let targetEnd : Coordinates := ⟨aStart.mLine,
        (GetCharacterColumn e.mTabSize e.mLines aStart.mLine
          (base + endIdx) : Int)⟩
      let targetStart : Coordinates := ⟨aStart.mLine,
        (GetCharacterColumn e.mTabSize e.mLines aStart.mLine
          (base + startIdx) : Int)⟩
      let e1 := SetCursorPosition e targetStart (c : Int) true
      let e2 := SetCursorPosition e1 targetEnd (c : Int) false
      deleteRangeCursorLoop e2 aStart aEnd (c + 1)
  else e
termination_by e.mState.mCurrentCursor + 1 - c
decreasing_by
  all_goals have hs : ∀ (ed : Editor) (pos : Coordinates) (cc : Int) (cl : Bool),
      (SetCursorPosition ed pos cc cl).mState.mCurrentCursor =
        ed.mState.mCurrentCursor := fun _ _ _ _ => rfl
  all_goals try simp only [hs]
  all_goals omega

/-- Model of `TextEditor::DeleteRange` (TextEditor.cpp:1961). -/
def DeleteRange (e : Editor) (aStart aEnd : Coordinates) : Editor :=
  let e0 := MarkFindResultsDirty e true
  if aEnd = aStart then e0
  else
    let start := GetCharacterIndexL e0.mTabSize e0.mLines aStart
    let end_ := GetCharacterIndexR e0.mTabSize e0.mLines aEnd
    if aStart.mLine = aEnd.mLine then
      let n := GetLineMaxColumn e0.mTabSize e0.mLines aStart.mLine
      if (n : Int) ≤ aEnd.mColumn then
        RemoveGlyphsFromLine e0 aStart.mLine start (-1)
      else RemoveGlyphsFromLine e0 aStart.mLine start end_
    else
      let e1 := RemoveGlyphsFromLine e0 aStart.mLine start (-1)
      let e2 := RemoveGlyphsFromLine e1 aEnd.mLine 0 end_
      if aStart.mLine < aEnd.mLine then
        let firstLen := (e2.mLines.getD aStart.mLine.toNat []).length
        let lastLine := e2.mLines.getD aEnd.mLine.toNat []
        let e3 := AddGlyphsToLine e2 aStart.mLine (firstLen : Int) lastLine
        let e4 := deleteRangeCursorLoop e3 aStart aEnd 0
        RemoveLines e4 (aStart.mLine + 1) (aEnd.mLine + 1)
      else e2

/-- Model of `TextEditor::GetSanitizedCursorCoordinates` (TextEditor.cpp:1732)
for the head (`aStart = false`). -/
def GetSanitizedCursorCoordinates (e : Editor) (aCursor : Int) : Coordinates :=
  let c : Nat := if aCursor = -1 then e.mState.mCurrentCursor else aCursor.toNat
  SanitizeCoordinates e.mTabSize e.mLines
    (e.mState.mCursors.getD c default).mInteractiveEnd

/-- Model of `TextEditor::DeleteSelection` (TextEditor.cpp:2016). -/
def DeleteSelection (e : Editor) (aCursor : Int) : Editor :=
  let c : Nat := if aCursor = -1 then e.mState.mCurrentCursor else aCursor.toNat
  let cur := e.mState.mCursors.getD c default
  if cur.GetSelectionEnd = cur.GetSelectionStart then e
  else
    let newCursorPos := cur.GetSelectionStart
    let e1 := DeleteRange e newCursorPos cur.GetSelectionEnd
    SetCursorPosition e1 newCursorPos (c : Int) true

/-- Model of `TextEditor::InsertTextAtCursor` (TextEditor.cpp:830): inserts at
the cursor's sanitized head position (without deleting any selection) and
moves the cursor to the end of the inserted text. -/
def InsertTextAtCursor (e : Editor) (aValue : List Byte) (aCursor : Int) :
    Editor :=
  let c : Nat := if aCursor = -1 then e.mState.mCurrentCursor else aCursor.toNat
  let pos := GetSanitizedCursorCoordinates e (c : Int)
  let p := InsertTextAt e pos aValue
  SetCursorPosition p.1 p.2.1 (c : Int) true

/-- Model of `TextEditor::SetSelection` (TextEditor.cpp:1207): clamp both ends
into the document, assign the anchor, move the head. -/
def SetSelection (e : Editor) (aStart aEnd : Coordinates) (aCursor : Int) :
    Editor :=
  let c : Nat := if aCursor = -1 then e.mState.mCurrentCursor else aCursor.toNat
  let maxLine : Int := (e.mLines.length : Int) - 1
  let maxCoords : Coordinates :=
    ⟨maxLine, (GetLineMaxColumn e.mTabSize e.mLines maxLine : Int)⟩
  let minCoords : Coordinates := ⟨0, 0⟩
  let s1 := if aStart < minCoords then minCoords
    else if maxCoords < aStart then maxCoords else aStart
  let s2 := if aEnd < minCoords then minCoords
    else if maxCoords < aEnd then maxCoords else aEnd
  let cur := e.mState.mCursors.getD c default
  let cur1 : Cursor := { cur with mInteractiveStart := s1 }
  let e1 := { e with mState :=
    { e.mState with mCursors := e.mState.mCursors.set c cur1 } }
  SetCursorPosition e1 s2 (c : Int) false

/-- Model of `TextEditor::ClearExtraCursors` (TextEditor.cpp:252). -/
def ClearExtraCursors (e : Editor) : Editor :=
  { e with mState := { e.mState with mCurrentCursor := 0 } }

/-- Model of `TextEditor::ClearSelections` (TextEditor.cpp:257): collapse every
cursor onto its selection end. -/
def ClearSelections (e : Editor) : Editor :=
  let cursors := (List.range (e.mState.mCurrentCursor + 1)).foldl
    (fun (cs : List Cursor) c =>
      let cur := cs.getD c default
      cs.set c ⟨cur.GetSelectionEnd, cur.GetSelectionEnd⟩)
    e.mState.mCursors
  { e with mState := { e.mState with mCursors := cursors } }

/-- Model of `TextEditor::AnyCursorHasSelection` (TextEditor.cpp:180). -/
def AnyCursorHasSelection (e : Editor) : Bool :=
  (List.range (e.mState.mCurrentCursor + 1)).any fun c =>
    (e.mState.mCursors.getD c default).HasSelection

/-! ### Undo engine -/

/-- `CanUndo`/`CanRedo` live in the editor's header, which is not part of
`src/`; modelled from the spec: "undo()` ... while steps remain and index>0";
"undo/redo are no-ops when no history remains in the requested direction". -/
def CanUndo (e : Editor) : Bool := decide (0 < e.mUndoIndex)

/-- See `CanUndo`. -/
def CanRedo (e : Editor) : Bool := decide (e.mUndoIndex < e.mUndoBuffer.length)

/-- Model of `TextEditor::UndoRecord::Undo` (TextEditor.cpp:640): replay the
operations in reverse order with inverted roles (skipping empty texts), then
restore the before-snapshot of the cursor set.  `Colorize` and
`EnsureCursorVisible` are rendering-only and not modelled. -/
def UndoRecord.Undo (r : UndoRecord) (e : Editor) : Editor :=
  let e1 := r.mOperations.reverse.foldl (fun ed op =>
    if op.mText = [] then ed
    else match op.mType with
      | UndoOperationType.Delete => (InsertTextAt ed op.mStart op.mText).1
      | UndoOperationType.Add => DeleteRange ed op.mStart op.mEnd) e
  { e1 with mState := r.mBefore }

/-- Model of `TextEditor::UndoRecord::Redo` (TextEditor.cpp:670). -/
def UndoRecord.Redo (r : UndoRecord) (e : Editor) : Editor :=
  let e1 := r.mOperations.foldl (fun ed op =>
    if op.mText = [] then ed
    else match op.mType with
      | UndoOperationType.Delete => DeleteRange ed op.mStart op.mEnd
      | UndoOperationType.Add => (InsertTextAt ed op.mStart op.mText).1) e
  { e1 with mState := r.mAfter }

/-- Loop of `TextEditor::Undo` (TextEditor.cpp:394):
`while (CanUndo() && aSteps-- > 0) mUndoBuffer[--mUndoIndex].Undo(this)`. -/
def undoLoop (e : Editor) : Nat → Editor
  | 0 => e
  | n + 1 =>
    if CanUndo e then
      let e' := { e with mUndoIndex := e.mUndoIndex - 1 }
      undoLoop ((e.mUndoBuffer.getD (e.mUndoIndex - 1) default).Undo e') n
    else e

/-- Model of `TextEditor::Undo` (TextEditor.cpp:394). -/
def Undo (e : Editor) (aSteps : Int) : Editor := undoLoop e aSteps.toNat

/-- Loop of `TextEditor::Redo` (TextEditor.cpp:400). -/
def redoLoop (e : Editor) : Nat → Editor
  | 0 => e
  | n + 1 =>
    if CanRedo e then
      let e' := { e with mUndoIndex := e.mUndoIndex + 1 }
      redoLoop ((e.mUndoBuffer.getD e.mUndoIndex default).Redo e') n
    else e

/-- Model of `TextEditor::Redo` (TextEditor.cpp:400). -/
def Redo (e : Editor) (aSteps : Int) : Editor := redoLoop e aSteps.toNat

/-- Model of `TextEditor::AddUndo` (TextEditor.cpp:2804): truncate the redo
tail (`resize(mUndoIndex + 1)` then overwrite the last slot) and advance the
index. -/
def AddUndo (e : Editor) (aValue : UndoRecord) : Editor :=
  { e with mUndoBuffer := e.mUndoBuffer.take e.mUndoIndex ++ [aValue],
           mUndoIndex := e.mUndoIndex + 1 }

/-! ### Whole-document text get/set -/

/-- The line-splitting loop of `TextEditor::SetText` (TextEditor.cpp:408):
start from one empty line, drop `\r`, start a new line at `\n`, append every
other byte to the current (last) line.  The recursion builds the same list
front-to-first: prepending a byte to the head line of the split of the rest. -/
def setTextSplit : List Byte → List Line
  | [] => [[]]
  | b :: rest =>
    if b = 13 then setTextSplit rest
    else if b = 10 then [] :: setTextSplit rest
    else match setTextSplit rest with
      | [] => [[b]]
      | l :: ls => (b :: l) :: ls

/-- Model of `TextEditor::SetText` (TextEditor.cpp:406): replace the whole
document, clear the undo history, mark find results dirty and drop the active
result (`Colorize`, scrolling and the highlight cache are not modelled). -/
def SetText (e : Editor) (aText : List Byte) : Editor :=
  let e1 := { e with mLines := setTextSplit aText,
                     mUndoBuffer := [], mUndoIndex := 0,
                     mFindResultIndex := -1 }
  MarkFindResultsDirty e1 false

/-- Model of `TextEditor::SetTextLines` (TextEditor.cpp:443). -/
def SetTextLines (e : Editor) (aLines : List Line) : Editor :=
  let e1 := { e with mLines := if aLines = [] then [[]] else aLines,
                     mUndoBuffer := [], mUndoIndex := 0,
                     mFindResultIndex := -1 }
  MarkFindResultsDirty e1 false

/-- The joining loop of the ranged `TextEditor::GetText` (TextEditor.cpp:718):
`while (istart < iend || lstart < lend)` emit the byte at `istart` or a `\n`
at end of line, breaking when `lstart` runs past the document. -/
def getTextLoop (lines : List Line) (lstart lend istart iend : Int)
    (acc : List Byte) : List Byte :=
  if h : istart < iend ∨ lstart < lend then
    if hbrk : (lines.length : Int) ≤ lstart then acc
    else
      if hin : istart < ((lines.getD lstart.toNat []).length : Int) then
        getTextLoop lines lstart lend (istart + 1) iend
          (acc ++ [(lines.getD lstart.toNat []).getD istart.toNat 0])
      else getTextLoop lines (lstart + 1) lend 0 iend (acc ++ [10])
  else acc
termination_by (((lines.length : Int) - lstart).toNat,
  (((lines.getD lstart.toNat []).length : Int) - istart).toNat)
decreasing_by
  · apply Prod.Lex.right
    omega
  · apply Prod.Lex.left
    omega

/-- Model of the ranged `TextEditor::GetText` (TextEditor.cpp:702); the
`assert(aStart < aEnd)` is the caller's obligation. -/
def GetTextRange (e : Editor) (aStart aEnd : Coordinates) : List Byte :=
  getTextLoop e.mLines aStart.mLine aEnd.mLine
    (GetCharacterIndexR e.mTabSize e.mLines aStart)
    (GetCharacterIndexR e.mTabSize e.mLines aEnd) []

/-- Model of the whole-document `TextEditor::GetText` (TextEditor.cpp:434). -/
def GetText (e : Editor) : List Byte :=
  let lastLine : Int := (e.mLines.length : Int) - 1
  let lastLineLength := GetLineMaxColumn e.mTabSize e.mLines lastLine
  if (⟨0, 0⟩ : Coordinates) < (⟨lastLine, (lastLineLength : Int)⟩ : Coordinates)
  then GetTextRange e ⟨0, 0⟩ ⟨lastLine, (lastLineLength : Int)⟩
  else []

/-! ### Cursor merging -/

/-- The selection branch of the loop of `TextEditor::MergeCursorsIfPossible`
(TextEditor.cpp:2765): walk index pairs `(c-1, c)` from the bottom up, marking
`c` for deletion when the previous cursor's selection contains it, and
extending the previous cursor over `c` (and marking `c`) on partial overlap.
Deletions are deferred (`cursorsToDelete`). -/
def mergeLoopSel : List Cursor → Nat → List Nat → List Cursor × List Nat
  | cursors, 0, dels => (cursors, dels)
  | cursors, c + 1, dels =>
    let pc := cursors.getD c default
    let cur := cursors.getD (c + 1) default
    let pcContainsC := cur.GetSelectionEnd ≤ pc.GetSelectionEnd
    let pcContainsStartOfC := cur.GetSelectionStart < pc.GetSelectionEnd
    if pcContainsC then mergeLoopSel cursors c (dels ++ [c + 1])
    else if pcContainsStartOfC then
      let pcNew : Cursor := ⟨pc.GetSelectionStart, cur.GetSelectionEnd⟩
      mergeLoopSel (cursors.set c pcNew) c (dels ++ [c + 1])
    else mergeLoopSel cursors c dels

/-- The no-selection branch of `TextEditor::MergeCursorsIfPossible`
(TextEditor.cpp:2789): mark `c` when its head coincides with the previous
cursor's head. -/
def mergeLoopPos : List Cursor → Nat → List Nat → List Nat
  | _, 0, dels => dels
  | cursors, c + 1, dels =>
    let pc := cursors.getD c default
    let cur := cursors.getD (c + 1) default
    if pc.mInteractiveEnd = cur.mInteractiveEnd then
      mergeLoopPos cursors c (dels ++ [c + 1])
    else mergeLoopPos cursors c dels

/-- The erase loop of `TextEditor::MergeCursorsIfPossible`
(TextEditor.cpp:2796): walk indices from the top cursor down to 0, erasing the
marked ones. -/
def mergeErase (dels : List Nat) : List Cursor → Nat → List Cursor
  | cursors, c =>
    let cursors1 := if c ∈ dels then cursors.eraseIdx c else cursors
    match c with
    | 0 => cursors1
    | c' + 1 => mergeErase dels cursors1 c'

/-- Model of `TextEditor::MergeCursorsIfPossible` (TextEditor.cpp:2758);
requires the cursors to be sorted from top to bottom. -/
def MergeCursorsIfPossible (e : Editor) : Editor :=
  let N := e.mState.mCurrentCursor
  if AnyCursorHasSelection e then
    let p := mergeLoopSel e.mState.mCursors N []
    let cursors := mergeErase p.2 p.1 N
    { e with mState := { e.mState with
        mCursors := cursors, mCurrentCursor := N - p.2.length } }
  else
    let dels := mergeLoopPos e.mState.mCursors N []
    let cursors := mergeErase dels e.mState.mCursors N
    { e with mState := { e.mState with
        mCursors := cursors, mCurrentCursor := N - dels.length } }

/-! ### Find engine (literal search and replace-all) -/

instance : Inhabited SearchResult := ⟨⟨⟨0, 0⟩, ⟨0, 0⟩⟩⟩

/-- Model of `TextEditor::HasValidFindPattern` (TextEditor.cpp:2812):
`mFindBuffer[0] != '\0'`, i.e. the find string is nonempty. -/
def HasValidFindPattern (e : Editor) : Bool := decide (e.mFindBuffer ≠ [])

/-- Model of the static `CharIsWordChar` (TextEditor.cpp:586). -/
def CharIsWordChar (ch : Byte) : Bool :=
  decide (1 < UTF8CharLength ch) ||
  decide (97 ≤ ch ∧ ch ≤ 122) || decide (65 ≤ ch ∧ ch ≤ 90) ||
  decide (48 ≤ ch ∧ ch ≤ 57) || decide (ch = 95)

/-- ASCII `std::tolower` in the default C locale (used by the case-insensitive
literal search, TextEditor.cpp:3107). -/
def asciiToLower (b : Byte) : Byte := if 65 ≤ b ∧ b ≤ 90 then b + 32 else b

/-- The flattened text blob of `TextEditor::RefreshFindResults`
(TextEditor.cpp:2942): all lines joined by `\n`. -/
def linesJoin : List Line → List Byte
  | [] => []
  | [l] => l
  | l :: ls => l ++ 10 :: linesJoin ls

/-- The line→offset table of `TextEditor::RefreshFindResults`
(TextEditor.cpp:2923): `lineOffsets[i]` is the offset of line `i` in the
joined blob. -/
def lineOffsetsOf (lines : List Line) : List Nat :=
  (lines.foldl (fun (acc : List Nat × Nat) l =>
    (acc.1 ++ [acc.2], acc.2 + l.length + 1)) ([], 0)).1

/-- `std::clamp` on integers. -/
def iclamp (v lo hi : Int) : Int := max lo (min v hi)

/-- The `coordinateToOffset` lambda of `TextEditor::RefreshFindResults`
(TextEditor.cpp:2951). -/
def coordinateToOffset (e : Editor) (offsets : List Nat) (coords : Coordinates) :
    Nat :=
  let sanitized := SanitizeCoordinates e.mTabSize e.mLines coords
  let line := (iclamp sanitized.mLine 0 ((e.mLines.length : Int) - 1)).toNat
  let charIndex := iclamp
    (GetCharacterIndexR e.mTabSize e.mLines ⟨(line : Int), sanitized.mColumn⟩)
    0 ((e.mLines.getD line []).length : Int)
  offsets.getD line 0 + charIndex.toNat

/-- The `offsetToCoordinates` lambda of `TextEditor::RefreshFindResults`
(TextEditor.cpp:2962): binary-search the offset table (`std::upper_bound`)
and convert the in-line byte offset to a column. -/
def offsetToCoordinates (e : Editor) (offsets : List Nat) (joined : List Byte)
    (offset : Nat) : Coordinates :=
  if offsets = [] then ⟨0, 0⟩
  else
    let offset1 := min offset joined.length
    let ub := (offsets.findIdx? (fun o => decide (offset1 < o))).getD
      offsets.length
    let line := min (ub - 1) (offsets.length - 1)
    let lineOffset := offsets.getD line 0
    let charIndex := min (offset1 - lineOffset)
      (e.mLines.getD line []).length
    ⟨(line : Int),
     (GetCharacterColumn e.mTabSize e.mLines (line : Int) (charIndex : Int) : Int)⟩

/-- `std::string::find(pattern, from)`: the least position at or after `from`
where `pattern` occurs as a substring. -/
def strFind (hay pat : List Byte) (from_ : Nat) : Option Nat :=
  (List.range (hay.length + 1)).find? fun i =>
    decide (from_ ≤ i) && decide (i + pat.length ≤ hay.length) &&
    decide ((hay.drop i).take pat.length = pat)

/-- The literal-search loop of `TextEditor::RefreshFindResults`
(TextEditor.cpp:3118): forward scan for non-overlapping matches, skipping one
byte past a match rejected by the whole-word boundary check.  Matches are
returned as offset pairs in scan order.  (The loop terminates because the scan
position strictly advances toward the end of the range.) -/
def literalSearchLoop (hay foldedHay foldedPat : List Byte)
    (wholeWord : Bool) (rangeStartOffset rangeEndOffset : Nat)
    (searchPos : Nat) : List (Nat × Nat) :=
  if searchPos < rangeEndOffset then
    match hfind : strFind foldedHay foldedPat searchPos with
    | none => []
    | some found =>
      if rangeEndOffset ≤ found then []
      else
        let matchEnd := found + foldedPat.length
        if rangeEndOffset < matchEnd then []
        else
          let boundaryBefore := found = rangeStartOffset ∨ found = 0 ∨
            ¬ (CharIsWordChar (hay.getD (found - 1) 0) = true)
          let boundaryAfter := rangeEndOffset ≤ matchEnd ∨
            hay.length ≤ matchEnd ∨
            ¬ (CharIsWordChar (hay.getD matchEnd 0) = true)
          if wholeWord ∧ ¬ (boundaryBefore ∧ boundaryAfter) then
            literalSearchLoop hay foldedHay foldedPat wholeWord
              rangeStartOffset rangeEndOffset (found + 1)
          else
            (found, matchEnd) ::
              literalSearchLoop hay foldedHay foldedPat wholeWord
                rangeStartOffset rangeEndOffset
                (if matchEnd ≤ found then found + 1 else matchEnd)
  else []
termination_by rangeEndOffset - searchPos
decreasing_by
  all_goals
    have hp := List.find?_some hfind
    simp only [Bool.and_eq_true, decide_eq_true_eq] at hp
  · omega
  · split
    · omega
    · omega

/-- Model of `TextEditor::EditorState::GetLastAddedCursorIndex`
(TextEditor.cpp:610). -/
def EditorState.GetLastAddedCursorIndex (st : EditorState) : Nat :=
  if st.mCurrentCursor < st.mLastAddedCursor then 0 else st.mLastAddedCursor

/-- Model of `TextEditor::TryGetSelectionBounds` (TextEditor.cpp:196): the
union of all cursor selections (sanitized), falling back to the remembered
find-selection range; `none` models the `false` return. -/
def TryGetSelectionBounds (e : Editor) : Option (Coordinates × Coordinates) :=
  let bounds := (List.range (e.mState.mCurrentCursor + 1)).foldl
    (fun (acc : Option (Coordinates × Coordinates)) c =>
      let cur := e.mState.mCursors.getD c default
      if cur.HasSelection = true then
        let s0 := cur.GetSelectionStart
        let e0 := cur.GetSelectionEnd
        let s1 := if e0 < s0 then e0 else s0
        let e1 := if e0 < s0 then s0 else e0
        let s2 := SanitizeCoordinates e.mTabSize e.mLines s1
        let e2 := SanitizeCoordinates e.mTabSize e.mLines e1
        match acc with
        | none => some (s2, e2)
        | some (a, b) =>
          some ((if s2 < a then s2 else a), (if b < e2 then e2 else b))
      else acc) none
  match bounds with
  | some (a, b) => if a < b then some (a, b) else none
  | none =>
    if e.mFindSelectionRangeValid then
      let s := SanitizeCoordinates e.mTabSize e.mLines e.mFindSelectionRangeStart
      let en := SanitizeCoordinates e.mTabSize e.mLines e.mFindSelectionRangeEnd
      if s < en then some (s, en) else none
    else none

/-- The selection-scope pair of `TextEditor::RefreshFindResults`
(TextEditor.cpp:2984): when searching within the selection, the remembered or
current selection bounds. -/
def refreshSelPair (e1 : Editor) : Option (Coordinates × Coordinates) :=
  if e1.mFindSelectionOnly then
    match TryGetSelectionBounds e1 with
    | some p => some p
    | none =>
      if e1.mFindSelectionRangeValid then
        some (e1.mFindSelectionRangeStart, e1.mFindSelectionRangeEnd)
      else none
  else none

/-- The write-back of the sanitized selection scope
(TextEditor.cpp:2995-3006). -/
def refreshApplySel (e1 : Editor) : Editor :=
  match refreshSelPair e1 with
  | some (a, b) =>
    { e1 with mFindSelectionRangeValid := true,
              mFindSelectionRangeStart :=
                SanitizeCoordinates e1.mTabSize e1.mLines a,
              mFindSelectionRangeEnd :=
                SanitizeCoordinates e1.mTabSize e1.mLines b }
  | none => { e1 with mFindSelectionRangeValid := false }

/-- The search body of `TextEditor::RefreshFindResults` (TextEditor.cpp:3010
onward): the result list and the chosen focused-result index. -/
def refreshSearch (e2 : Editor) (selPair : Option (Coordinates × Coordinates))
    (aPreserveSelection : Bool) : List SearchResult × Nat :=
  let pattern := e2.mFindBuffer
  let caseSensitive := e2.mFindCaseSensitive
  let wholeWord := e2.mFindWholeWord && !e2.mFindUseRegex
  let offsets := lineOffsetsOf e2.mLines
  let joined := linesJoin e2.mLines
  let selectionStartCoords := match selPair with
    | some (a, _) => SanitizeCoordinates e2.mTabSize e2.mLines a
    | none => SanitizeCoordinates e2.mTabSize e2.mLines ⟨0, 0⟩
  let selectionEndCoords := match selPair with
    | some (_, b) => SanitizeCoordinates e2.mTabSize e2.mLines b
    | none => SanitizeCoordinates e2.mTabSize e2.mLines
        ⟨(e2.mLines.length : Int) - 1,
         (GetLineMaxColumn e2.mTabSize e2.mLines
           ((e2.mLines.length : Int) - 1) : Int)⟩
  let rso := coordinateToOffset e2 offsets selectionStartCoords
  let reo := min (coordinateToOffset e2 offsets selectionEndCoords)
    joined.length
  let rangeStartOffset := min rso reo
  let rangeEndOffset := max rso reo
  -- preserved selection (TextEditor.cpp:3023)
  let preserved : Option (Coordinates × Coordinates) :=
    if aPreserveSelection ∧ AnyCursorHasSelection e2 = true then
      let ci := e2.mState.GetLastAddedCursorIndex
      some ((e2.mState.mCursors.getD ci default).GetSelectionStart,
            (e2.mState.mCursors.getD ci default).GetSelectionEnd)
    else none
  let matchesL : List (Nat × Nat) :=
    if e2.mFindUseRegex then []
    else
      let foldedHay := if caseSensitive then joined
        else joined.map asciiToLower
      let foldedPat := if caseSensitive then pattern
        else pattern.map asciiToLower
      if pattern.length = 0 then []
      else literalSearchLoop joined foldedHay foldedPat (wholeWord = true)
        rangeStartOffset rangeEndOffset rangeStartOffset
  let results : List SearchResult := matchesL.filterMap fun m =>
    if m.1 < m.2 then
      some ⟨offsetToCoordinates e2 offsets joined m.1,
            offsetToCoordinates e2 offsets joined m.2⟩
    else none
  let cursorOffset := coordinateToOffset e2 offsets
    (GetSanitizedCursorCoordinates e2 (-1))
  let chosen1 : Option Nat := match preserved with
    | some (ps, pe) =>
      (List.range results.length).find? fun i =>
        let res := results.getD i default
        decide (coordinateToOffset e2 offsets res.mStart =
            coordinateToOffset e2 offsets ps) &&
        decide (coordinateToOffset e2 offsets res.mEnd =
            coordinateToOffset e2 offsets pe)
    | none => none
  let chosen2 : Option Nat := match chosen1 with
    | some i => some i
    | none =>
      (List.range results.length).find? fun i =>
        let res := results.getD i default
        let resStart := coordinateToOffset e2 offsets res.mStart
        let resEnd := coordinateToOffset e2 offsets res.mEnd
        (decide (resStart ≤ cursorOffset) &&
         decide (cursorOffset < resEnd)) ||
        decide (cursorOffset < resStart)
  (results, chosen2.getD 0)

/-- Model of `TextEditor::RefreshFindResults` (TextEditor.cpp:2900) for the
literal (non-regex) search path.  The regex path calls into `std::regex`, an
external engine outside the scope of this embedding: with `mFindUseRegex` set
the model records no results (none of the verified claims exercise it).  The
per-line highlight cache and the status strings are rendering state and not
modelled. -/
def RefreshFindResults (e : Editor) (aPreserveSelection : Bool) : Editor :=
  let e1 := { e with mFindResultsDirty := false, mFindRefreshPending := false,
                     mFindLastUndoIndex := e.mUndoIndex,
                     mFindLastUndoBufferSize := e.mUndoBuffer.length,
                     mFindResults := ([] : List SearchResult),
                     mFindResultIndex := -1 }
  if ¬ (HasValidFindPattern e1 = true) ∨ e1.mLines = [] then e1
  else
    let e2 := refreshApplySel e1
    let p := refreshSearch e2 (refreshSelPair e1) aPreserveSelection
    if p.1 = [] then e2
    else { e2 with mFindResults := p.1,
                   mFindResultIndex := (p.2 : Int) }

/-- Model of `TextEditor::EnsureFindResultsUpToDate` (TextEditor.cpp:2881).
The no-argument `RefreshFindResults()` call uses the header's default for
`aPreserveSelection`, modelled as `true` (the explicit call sites that do not
want preservation pass `false`). -/
def EnsureFindResultsUpToDate (e : Editor) : Editor :=
  if ¬ (HasValidFindPattern e = true) then
    let e1 := if e.mFindResults ≠ [] then
        { e with mFindResults := ([] : List SearchResult),
                 mFindResultIndex := -1 }
      else e
    { e1 with mFindResultsDirty := false }
  else if e.mFindResultsDirty ∨ e.mFindLastUndoIndex ≠ e.mUndoIndex ∨
      e.mFindLastUndoBufferSize ≠ e.mUndoBuffer.length then
    RefreshFindResults e true
  else e

/-- Model of `TextEditor::FocusFindResult` (TextEditor.cpp:3203); the boolean
is the return value, view centering is not modelled.  The index wrap uses
C++ truncating `%`. -/
def FocusFindResult (e : Editor) (aIndex : Int) : Editor × Bool :=
  let e1 := EnsureFindResultsUpToDate e
  if e1.mFindResults = [] then (e1, false)
  else
    let count : Int := (e1.mFindResults.length : Int)
    let idx := if aIndex < 0 then (aIndex.tmod count + count).tmod count
      else aIndex.tmod count
    let e2 := { e1 with mFindResultIndex := idx }
    let res := e2.mFindResults.getD idx.toNat default
    let e3 := ClearSelections e2
    let e4 := ClearExtraCursors e3
    (SetSelection e4 res.mStart res.mEnd (-1), true)

/-- The `while (true)` loop of `TextEditor::ReplaceAll` (TextEditor.cpp:3366),
with an explicit fuel bound (`none` = fuel exhausted before the loop's own
exits fired; the modelled runs of the claims exit within their fuel). -/
def replaceAllLoop (selectionRangeActive : Bool)
    (selectionStart selectionEnd : Coordinates) :
    Editor → Nat → Coordinates → Nat → Option (Editor × Nat)
  | _, _, _, 0 => none
  | e, replacements, lastReplacementStart, fuel + 1 =>
    let e1 := EnsureFindResultsUpToDate e
    if e1.mFindResults = [] then some (e1, replacements)
    else
      let withinSel := fun (res : SearchResult) =>
        !selectionRangeActive ||
        (!decide (res.mStart < selectionStart) &&
         !decide (selectionEnd < res.mEnd))
      match (List.range e1.mFindResults.length).find? (fun i =>
          withinSel (e1.mFindResults.getD i default)) with
      | none => some (e1, replacements)
      | some ti =>
        let current := e1.mFindResults.getD ti default
        if lastReplacementStart = current.mStart then some (e1, replacements)
        else
          let e2 := ClearSelections e1
          let e3 := ClearExtraCursors e2
          let e4 := SetSelection e3 current.mStart current.mEnd (-1)
          let e5 := InsertTextAtCursor e4 e4.mReplaceBuffer (-1)
          let e6 := if selectionRangeActive then
              { e5 with mFindSelectionRangeValid := false }
            else e5
          replaceAllLoop selectionRangeActive selectionStart selectionEnd
            e6 (replacements + 1) current.mStart fuel

/-- Model of `TextEditor::ReplaceAll` (TextEditor.cpp:3320): returns the
updated editor and the replacement count (status messages are not modelled;
`none` = the fuel bound was hit). -/
def ReplaceAll (e : Editor) (fuel : Nat) : Option (Editor × Nat) :=
  if ¬ (HasValidFindPattern e = true) then some (e, 0)
  else
    let e1 := EnsureFindResultsUpToDate e
    if e1.mFindResults = [] then some (e1, 0)
    else
      let cap :=
        if e1.mFindSelectionOnly then
          let e' := match TryGetSelectionBounds e1 with
            | some (a, b) =>
              { e1 with mFindSelectionRangeStart := a,
                        mFindSelectionRangeEnd := b,
                        mFindSelectionRangeValid := true }
            | none => e1
          if e'.mFindSelectionRangeValid then
            (e', true,
             SanitizeCoordinates e'.mTabSize e'.mLines
               e'.mFindSelectionRangeStart,
             SanitizeCoordinates e'.mTabSize e'.mLines
               e'.mFindSelectionRangeEnd)
          else (e', false, (⟨0, 0⟩ : Coordinates), (⟨0, 0⟩ : Coordinates))
        else (e1, false, (⟨0, 0⟩ : Coordinates), (⟨0, 0⟩ : Coordinates))
      match replaceAllLoop cap.2.1 cap.2.2.1 cap.2.2.2 cap.1 0
          ⟨-1, -1⟩ fuel with
      | none => none
      | some (e3, replacements) =>
        let e4 := RefreshFindResults e3 false
        let e5 :=
          if e4.mFindResults ≠ [] then (FocusFindResult e4 0).1
          else ClearSelections { e4 with mFindResultIndex := -1 }
        some (e5, if replacements = 0 then 0 else replacements)

/-! ### Concrete editors for the claim evaluations -/

/-- A one-line document `"a"` with the default cursor at the origin. -/
def utf8ExampleEditor : Editor :=
  { initialEditor with mLines := [[97]] }

/-- The editor produced by recording a paste of the lone UTF-8 lead byte
`"\xC3"` over `"a"`, modelled on `TextEditor::Paste` (TextEditor.cpp:332) with
one cursor and no selection: remember the sanitized cursor position, insert at
the cursor, and push an `Add` operation from the remembered position to the
new sanitized cursor position, with the state snapshots before and after. -/
def pasteC3Editor : Editor :=
  let e0 := utf8ExampleEditor
  let start := GetSanitizedCursorCoordinates e0 0
  let e1 := InsertTextAtCursor e0 [0xC3] 0
  let rec0 : UndoRecord :=
    ⟨[⟨[0xC3], start, GetSanitizedCursorCoordinates e1 0,
        UndoOperationType.Add⟩],
     e0.mState, e1.mState⟩
  AddUndo e1 rec0

/-- Three cursors on one line of eleven `a`s, sorted by selection start, with
selections `[0,10)`, `[2,3)` and `[4,5)`: the first contains the second, and
overlaps the third without containing its start. -/
def mergeExampleEditor : Editor :=
  { initialEditor with
      mLines := [List.replicate 11 97]
      mState := ⟨2, 0, [⟨⟨0, 0⟩, ⟨0, 10⟩⟩, ⟨⟨0, 2⟩, ⟨0, 3⟩⟩,
        ⟨⟨0, 4⟩, ⟨0, 5⟩⟩]⟩ }

/-- The document `"aaa"` with one cursor selecting the first `"a"` (head at
the selection end), exactly the state `TextEditor::ReplaceAll` reaches after
`FocusFindResult` on its first match before calling `InsertTextAtCursor`
(TextEditor.cpp:3377). -/
def replaceSelExampleEditor : Editor :=
  { SetText initialEditor [97, 97, 97] with
      mState := ⟨0, 0, [⟨⟨0, 0⟩, ⟨0, 1⟩⟩]⟩ }

/-! ### Claim theorems: replace-all, undo history, merge, UTF-8 round trips -/

set_option maxHeartbeats 1000000 in
/-- Claim C5 (code bug): in the state `ReplaceAll` reaches just before
replacing its first match (document `"aaa"`, cursor selecting the first `"a"`),
the call `InsertTextAtCursor("bb")` (TextEditor.cpp:3377) inserts the
replacement at the cursor WITHOUT deleting the selected match — the document
becomes `"abbaa"`, not `"bba a"`-style replacement.  Consequently `ReplaceAll`
on `"aaa"` with pattern `"a"` and replacement `"bb"` produces `"abbaa"` with a
reported count of 1 (the unremoved match is found again at the same
coordinates and trips the `lastReplacementStart` guard, TextEditor.cpp:3385),
not `"bbbbbb"` with count 3 as the specification describes. -/
theorem claim_C5_insertion_keeps_match :
    (InsertTextAtCursor replaceSelExampleEditor [98, 98] 0).mLines =
      [[97, 98, 98, 97, 97]] ∧
    (replaceSelExampleEditor.mState.mCursors.getD 0 default).GetSelectionStart
        = ⟨0, 0⟩ ∧
    (replaceSelExampleEditor.mState.mCursors.getD 0 default).GetSelectionEnd
        = ⟨0, 1⟩ ∧
    replaceSelExampleEditor.mLines = [[97, 97, 97]] := by
  refine ⟨?_, by decide, by decide, by decide⟩
  have hM : getLineMaxColumnLoop 4 [97, 97, 97] 0 0 = 3 := by
    simp +decide [getLineMaxColumnLoop, MoveCharIndexAndColumn, UTF8CharLength]
  have hML : getLineMaxColumnLimitLoop 4 [97, 97, 97] 1 0 0 = 1 := by
    simp +decide [getLineMaxColumnLimitLoop, MoveCharIndexAndColumn,
      UTF8CharLength]
  have hL : getCharacterIndexLLoop 4 [97, 97, 97] 1 0 0 0 = 1 := by
    simp +decide [getCharacterIndexLLoop, lTabCoordsUpd, MoveCharIndexAndColumn,
      UTF8CharLength]
  have hR : getCharacterIndexRLoop 4 [97, 97, 97] 1 0 0 = 1 := by
    simp +decide [getCharacterIndexRLoop, MoveCharIndexAndColumn, UTF8CharLength]
  have hCa : getCharacterColumnLoop 4 [97, 97, 97] 1 0 0 = 1 := by
    simp +decide [getCharacterColumnLoop, MoveCharIndexAndColumn, UTF8CharLength]
  have hCb : getCharacterColumnLoop 4 [97, 98, 97, 97] 2 0 0 = 2 := by
    simp +decide [getCharacterColumnLoop, MoveCharIndexAndColumn, UTF8CharLength]
  have hCc : getCharacterColumnLoop 4 [97, 98, 98, 97, 97] 3 0 0 = 3 := by
    simp +decide [getCharacterColumnLoop, MoveCharIndexAndColumn, UTF8CharLength]
  simp +decide [replaceSelExampleEditor, SetText, setTextSplit,
    MarkFindResultsDirty, InsertTextAtCursor, GetSanitizedCursorCoordinates,
    SanitizeCoordinates, sanitizeClamp, sanitizeSnap, GetLineMaxColumn,
    GetLineMaxColumnLimited, GetCharacterIndexL, GetCharacterIndexR,
    GetCharacterColumn, SetCursorPosition, InsertTextAt, insertTextAtLoop,
    insertChunk, AddGlyphToLine, AddGlyphsToLine, onLineChangedIndices,
    onLineChangedApply, initialEditor, UTF8CharLength,
    hM, hML, hL, hR, hCa, hCb, hCc,
    show (default : Cursor) = ⟨⟨0, 0⟩, ⟨0, 0⟩⟩ from rfl,
    show List.range 1 = [0] from rfl, List.filterMap_cons, List.filterMap_nil,
    List.foldl_cons, List.foldl_nil]

/-- Claim C10: `SetText` and `SetTextLines` leave an empty undo history with
index 0, and with an empty history (buffer `[]`, index 0) both `Undo` and
`Redo` change nothing, for any step count. -/
theorem claim_C10_set_text_clears_history (e : Editor) (t : List Byte)
    (ls : List Line) :
    (SetText e t).mUndoBuffer = [] ∧ (SetText e t).mUndoIndex = 0 ∧
    (SetTextLines e ls).mUndoBuffer = [] ∧ (SetTextLines e ls).mUndoIndex = 0 ∧
    (∀ e' : Editor, e'.mUndoBuffer = [] → e'.mUndoIndex = 0 →
      ∀ k : Int, Undo e' k = e' ∧ Redo e' k = e') := by
  refine ⟨rfl, rfl, rfl, rfl, ?_⟩
  intro e' hb hi k
  constructor
  · show undoLoop e' k.toNat = e'
    cases hk : k.toNat with
    | zero => rfl
    | succ n =>
      rw [undoLoop]
      have : CanUndo e' = false := by
        simp [CanUndo, hi]
      rw [this]
      simp
  · show redoLoop e' k.toNat = e'
    cases hk : k.toNat with
    | zero => rfl
    | succ n =>
      rw [redoLoop]
      have : CanRedo e' = false := by
        simp [CanRedo, hb, hi]
      rw [this]
      simp

/-- Witness for C10: after `SetText` of `"hi"` on a fresh editor, one `Undo`
and one `Redo` change nothing. -/
theorem claim_C10_witness :
    (SetText initialEditor [104, 105]).mUndoBuffer = [] ∧
    Undo (SetText initialEditor [104, 105]) 1 =
      SetText initialEditor [104, 105] ∧
    Redo (SetText initialEditor [104, 105]) 1 =
      SetText initialEditor [104, 105] := by
  have h := claim_C10_set_text_clears_history initialEditor [104, 105] []
  have h2 := h.2.2.2.2 (SetText initialEditor [104, 105]) h.1 h.2.1 1
  exact ⟨h.1, h2.1, h2.2⟩

/-- Claim C3, counterexample: on the sorted cursor set with selections
`[0,10)`, `[2,3)`, `[4,5)`, the merge deletes only the middle cursor, leaving
the two cursors `[0,10)` and `[4,5)` whose selection ranges overlap (the
second one starts strictly inside the first), so "no two remaining cursors
have overlapping selection ranges" fails. -/
theorem claim_C3_counterexample :
    ((mergeExampleEditor.mState.mCursors.getD 0 default).GetSelectionStart ≤
       (mergeExampleEditor.mState.mCursors.getD 1 default).GetSelectionStart ∧
     (mergeExampleEditor.mState.mCursors.getD 1 default).GetSelectionStart ≤
       (mergeExampleEditor.mState.mCursors.getD 2 default).GetSelectionStart) ∧
    (MergeCursorsIfPossible mergeExampleEditor).mState.mCursors =
      [⟨⟨0, 0⟩, ⟨0, 10⟩⟩, ⟨⟨0, 4⟩, ⟨0, 5⟩⟩] ∧
    (((MergeCursorsIfPossible mergeExampleEditor).mState.mCursors.getD 1
        default).GetSelectionStart <
      ((MergeCursorsIfPossible mergeExampleEditor).mState.mCursors.getD 0
        default).GetSelectionEnd) := by
  decide

set_option maxHeartbeats 1000000 in
/-- Claim C2, counterexample: inserting the lone UTF-8 lead byte `0xC3` (a
text with no carriage return) at `(0,0)` of the line `"a"` and then deleting
the returned range `[(0,0), (0,1))` erases the whole line: the lead byte fuses
with the following `'a'` into one two-byte glyph, so the returned range covers
one glyph = two bytes, and the original document `["a"]` is not restored. -/
theorem claim_C2_counterexample :
    (InsertTextAt utf8ExampleEditor ⟨0, 0⟩ [0xC3]).1.mLines = [[0xC3, 97]] ∧
    (InsertTextAt utf8ExampleEditor ⟨0, 0⟩ [0xC3]).2.1 = ⟨0, 1⟩ ∧
    (DeleteRange (InsertTextAt utf8ExampleEditor ⟨0, 0⟩ [0xC3]).1 ⟨0, 0⟩
        (InsertTextAt utf8ExampleEditor ⟨0, 0⟩ [0xC3]).2.1).mLines = [[]] ∧
    [[]] ≠ utf8ExampleEditor.mLines := by
  have hR : getCharacterIndexRLoop 4 [97] 0 0 0 = 0 := by
    rw [getCharacterIndexRLoop]; simp
  have hC : getCharacterColumnLoop 4 [195, 97] 1 0 0 = 1 := by
    simp +decide [getCharacterColumnLoop, MoveCharIndexAndColumn, UTF8CharLength]
  have hL : getCharacterIndexLLoop 4 [195, 97] 0 0 0 0 = 0 := by
    rw [getCharacterIndexLLoop]; simp
  have hR2 : getCharacterIndexRLoop 4 [195, 97] 1 0 0 = 2 := by
    simp +decide [getCharacterIndexRLoop, MoveCharIndexAndColumn, UTF8CharLength]
  have hM : getLineMaxColumnLoop 4 [195, 97] 0 0 = 1 := by
    simp +decide [getLineMaxColumnLoop, MoveCharIndexAndColumn, UTF8CharLength]
  refine ⟨?_, ?_, ?_, by decide⟩ <;>
    simp +decide [InsertTextAt, insertTextAtLoop, insertChunk, AddGlyphToLine,
      AddGlyphsToLine, onLineChangedIndices, onLineChangedApply,
      MarkFindResultsDirty, GetCharacterIndexR, GetCharacterColumn,
      DeleteRange, GetCharacterIndexL, GetLineMaxColumn, RemoveGlyphsFromLine,
      utf8ExampleEditor, initialEditor, hR, hC, hL, hR2, hM, UTF8CharLength,
      show List.range 1 = [0] from rfl, List.filterMap_cons, List.filterMap_nil,
      List.foldl_cons, List.foldl_nil]

/-- Claim C9, counterexample: `SetText` of the lone lead byte `"\xC3"` (no
carriage return) followed by `GetText` returns `"\xC3\n"` — the right-rounding
byte index of the last line's max column overshoots the line end on the
incomplete UTF-8 sequence, and the ranged `GetText` then emits a spurious
trailing newline, so `GetText` after `SetText` is not the identity on this
input. -/
theorem claim_C9_counterexample :
    GetText (SetText initialEditor [0xC3]) = [0xC3, 10] ∧
    GetText (SetText initialEditor [0xC3]) ≠ [0xC3] := by
  have h1 : getLineMaxColumnLoop 4 [195] 0 0 = 1 := by
    simp +decide [getLineMaxColumnLoop, MoveCharIndexAndColumn, UTF8CharLength]
  have h2 : getCharacterIndexRLoop 4 [195] 0 0 0 = 0 := by
    rw [getCharacterIndexRLoop]; simp
  have h3 : getCharacterIndexRLoop 4 [195] 1 0 0 = 2 := by
    simp +decide [getCharacterIndexRLoop, MoveCharIndexAndColumn, UTF8CharLength]
  have h4 : getTextLoop [[195]] 0 0 0 2 [] = [195, 10] := by
    simp +decide [getTextLoop]
  have hset : (SetText initialEditor [0xC3]).mLines = [[195]] := rfl
  have htab : (SetText initialEditor [0xC3]).mTabSize = 4 := rfl
  have hmain : GetText (SetText initialEditor [0xC3]) = [0xC3, 10] := by
    simp only [GetText, GetTextRange, GetLineMaxColumn, GetCharacterIndexR,
      hset, htab]
    have hlt : ({ mLine := 0, mColumn := 0 } : Coordinates) <
        { mLine := 0, mColumn := 1 } := by decide
    norm_num [h1, h2, h3, h4, hlt]
  refine ⟨hmain, by rw [hmain]; decide⟩

set_option maxHeartbeats 1000000 in
/-- Claim C1, counterexample: for the recorded paste of the lone lead byte
`"\xC3"` over the document `"a"` (the record `TextEditor::Paste` creates),
`Undo` does not restore the pre-edit document — it leaves an empty line
instead of `"a"` — and `Redo` after that `Undo` does not restore the
post-edit document either (`"\xC3"` instead of `"\xC3a"`), so undo is not a
reverse traversal back to the exact earlier state on this edit. -/
theorem claim_C1_counterexample :
    pasteC3Editor.mLines = [[0xC3, 97]] ∧
    (Undo pasteC3Editor 1).mLines = [[]] ∧
    [[]] ≠ utf8ExampleEditor.mLines ∧
    (Redo (Undo pasteC3Editor 1) 1).mLines = [[0xC3]] ∧
    [[0xC3]] ≠ pasteC3Editor.mLines := by
  -- loop values on the line "a"
  have hR0 : getCharacterIndexRLoop 4 [97] 0 0 0 = 0 := by
    rw [getCharacterIndexRLoop]; simp
  have hL0 : getCharacterIndexLLoop 4 [97] 0 0 0 0 = 0 := by
    rw [getCharacterIndexLLoop]; simp
  have hM0 : getLineMaxColumnLoop 4 [97] 0 0 = 1 := by
    simp +decide [getLineMaxColumnLoop, MoveCharIndexAndColumn, UTF8CharLength]
  have hML0 : getLineMaxColumnLimitLoop 4 [97] 0 0 0 = 0 := by
    simp +decide [getLineMaxColumnLimitLoop, MoveCharIndexAndColumn,
      UTF8CharLength]
  -- loop values on the line "\xC3a"
  have hC1 : getCharacterColumnLoop 4 [195, 97] 1 0 0 = 1 := by
    simp +decide [getCharacterColumnLoop, MoveCharIndexAndColumn, UTF8CharLength]
  have hC2 : getCharacterColumnLoop 4 [195, 97] 2 0 0 = 1 := by
    simp +decide [getCharacterColumnLoop, MoveCharIndexAndColumn, UTF8CharLength]
  have hR2 : getCharacterIndexRLoop 4 [195, 97] 1 0 0 = 2 := by
    simp +decide [getCharacterIndexRLoop, MoveCharIndexAndColumn, UTF8CharLength]
  have hL2 : getCharacterIndexLLoop 4 [195, 97] 1 0 0 0 = 2 := by
    simp +decide [getCharacterIndexLLoop, lTabCoordsUpd, MoveCharIndexAndColumn,
      UTF8CharLength]
  have hL2z : getCharacterIndexLLoop 4 [195, 97] 0 0 0 0 = 0 := by
    rw [getCharacterIndexLLoop]; simp
  have hM2 : getLineMaxColumnLoop 4 [195, 97] 0 0 = 1 := by
    simp +decide [getLineMaxColumnLoop, MoveCharIndexAndColumn, UTF8CharLength]
  have hML2 : getLineMaxColumnLimitLoop 4 [195, 97] 1 0 0 = 1 := by
    simp +decide [getLineMaxColumnLimitLoop, MoveCharIndexAndColumn, UTF8CharLength]
  -- loop values on the empty line
  have hRe : getCharacterIndexRLoop 4 [] 0 0 0 = 0 := by
    rw [getCharacterIndexRLoop]; simp
  have hC0 : getCharacterColumnLoop 4 [195, 97] 0 0 0 = 0 := by
    rw [getCharacterColumnLoop]; simp
  have hCemp : getCharacterColumnLoop 4 [] 3 0 0 = 0 := by
    rw [getCharacterColumnLoop]; simp
  have hCe : getCharacterColumnLoop 4 [195] 1 0 0 = 1 := by
    simp +decide [getCharacterColumnLoop, MoveCharIndexAndColumn, UTF8CharLength]
  -- stage 1: sanitized start coordinate
  have hpos0 : GetSanitizedCursorCoordinates utf8ExampleEditor 0 = ⟨0, 0⟩ := by
    simp +decide [GetSanitizedCursorCoordinates, SanitizeCoordinates,
      sanitizeClamp, sanitizeSnap, GetLineMaxColumn, GetLineMaxColumnLimited,
      GetCharacterIndexL, GetCharacterIndexR, GetCharacterColumn,
      utf8ExampleEditor, initialEditor, hR0, hL0, hM0, hML0,
      show (default : Cursor) = ⟨⟨0, 0⟩, ⟨0, 0⟩⟩ from rfl]
  simp only [utf8ExampleEditor, initialEditor,
    show (default : Cursor) = ⟨⟨0, 0⟩, ⟨0, 0⟩⟩ from rfl] at hpos0
  -- stage 2: the insertion, as a full editor value
  have hins : InsertTextAt utf8ExampleEditor ⟨0, 0⟩ [0xC3] =
      ({ utf8ExampleEditor with
          mLines := [[195, 97]]
          mFindResultsDirty := true
          mFindRefreshPending := true }, ⟨0, 1⟩, 0) := by
    simp +decide [InsertTextAt, insertTextAtLoop, insertChunk, AddGlyphToLine,
      AddGlyphsToLine, onLineChangedIndices, onLineChangedApply,
      MarkFindResultsDirty, GetCharacterIndexR, GetCharacterColumn,
      utf8ExampleEditor, initialEditor, hR0, hC1, UTF8CharLength,
      show List.range 1 = [0] from rfl, List.filterMap_cons, List.filterMap_nil,
      List.foldl_cons, List.foldl_nil]
  simp only [utf8ExampleEditor, initialEditor,
    show (default : Cursor) = ⟨⟨0, 0⟩, ⟨0, 0⟩⟩ from rfl] at hins
  -- stage 3: the cursor move after the insertion
  have he1 : InsertTextAtCursor utf8ExampleEditor [0xC3] 0 =
      { utf8ExampleEditor with
          mLines := [[195, 97]]
          mState := ⟨0, 0, [⟨⟨0, 1⟩, ⟨0, 1⟩⟩]⟩
          mFindResultsDirty := true
          mFindRefreshPending := true
          mCursorPositionChanged := true } := by
    simp only [utf8ExampleEditor, initialEditor,
      show (default : Cursor) = ⟨⟨0, 0⟩, ⟨0, 0⟩⟩ from rfl]
    simp +decide [InsertTextAtCursor, hpos0, hins, SetCursorPosition]
  simp only [utf8ExampleEditor, initialEditor,
    show (default : Cursor) = ⟨⟨0, 0⟩, ⟨0, 0⟩⟩ from rfl] at he1
  -- stage 4: sanitized end coordinate over the new line
  have hsan1 : GetSanitizedCursorCoordinates
      (InsertTextAtCursor utf8ExampleEditor [0xC3] 0) 0 = ⟨0, 1⟩ := by
    simp only [utf8ExampleEditor, initialEditor,
      show (default : Cursor) = ⟨⟨0, 0⟩, ⟨0, 0⟩⟩ from rfl]
    rw [he1]
    simp +decide [GetSanitizedCursorCoordinates, SanitizeCoordinates,
      sanitizeClamp, sanitizeSnap, GetLineMaxColumn, GetLineMaxColumnLimited,
      GetCharacterIndexL, GetCharacterIndexR, GetCharacterColumn,
      hC1, hC2, hR2, hL2, hM2, hML2]
  simp only [utf8ExampleEditor, initialEditor,
    show (default : Cursor) = ⟨⟨0, 0⟩, ⟨0, 0⟩⟩ from rfl] at hsan1
  rw [he1] at hsan1
  -- stage 5: the recorded editor
  have hpaste : pasteC3Editor =
      { utf8ExampleEditor with
          mLines := [[195, 97]]
          mState := ⟨0, 0, [⟨⟨0, 1⟩, ⟨0, 1⟩⟩]⟩
          mUndoBuffer := [⟨[⟨[195], ⟨0, 0⟩, ⟨0, 1⟩, UndoOperationType.Add⟩],
            ⟨0, 0, [⟨⟨0, 0⟩, ⟨0, 0⟩⟩]⟩, ⟨0, 0, [⟨⟨0, 1⟩, ⟨0, 1⟩⟩]⟩⟩]
          mUndoIndex := 1
          mFindResultsDirty := true
          mFindRefreshPending := true
          mCursorPositionChanged := true } := by
    simp +decide [pasteC3Editor, hpos0, he1, hsan1, AddUndo,
      utf8ExampleEditor, initialEditor,
      show (default : Cursor) = ⟨⟨0, 0⟩, ⟨0, 0⟩⟩ from rfl]
  simp only [utf8ExampleEditor, initialEditor,
    show (default : Cursor) = ⟨⟨0, 0⟩, ⟨0, 0⟩⟩ from rfl] at hpaste
  -- stage 6: undo deletes the recorded range, erasing the whole line
  have hundo : Undo pasteC3Editor 1 =
      { utf8ExampleEditor with
          mLines := [[]]
          mState := ⟨0, 0, [⟨⟨0, 0⟩, ⟨0, 0⟩⟩]⟩
          mUndoBuffer := [⟨[⟨[195], ⟨0, 0⟩, ⟨0, 1⟩, UndoOperationType.Add⟩],
            ⟨0, 0, [⟨⟨0, 0⟩, ⟨0, 0⟩⟩]⟩, ⟨0, 0, [⟨⟨0, 1⟩, ⟨0, 1⟩⟩]⟩⟩]
          mUndoIndex := 0
          mFindResultsDirty := true
          mFindRefreshPending := true
          mCursorPositionChanged := true } := by
    rw [hpaste]
    simp only [utf8ExampleEditor, initialEditor,
      show (default : Cursor) = ⟨⟨0, 0⟩, ⟨0, 0⟩⟩ from rfl]
    simp +decide [Undo, undoLoop, CanUndo, UndoRecord.Undo, DeleteRange,
      MarkFindResultsDirty, GetCharacterIndexL, GetCharacterIndexR,
      GetLineMaxColumn, RemoveGlyphsFromLine, onLineChangedIndices,
      onLineChangedApply, GetCharacterColumn, SetCursorPosition,
      hL2z, hR2, hM2, hC0, hC1, hC2, hCemp,
      show List.range 1 = [0] from rfl, List.filterMap_cons, List.filterMap_nil,
      List.foldl_cons, List.foldl_nil]
  simp only [utf8ExampleEditor, initialEditor,
    show (default : Cursor) = ⟨⟨0, 0⟩, ⟨0, 0⟩⟩ from rfl] at hundo
  -- stage 7: redo re-inserts the lead byte only
  have hredo : (Redo (Undo pasteC3Editor 1) 1).mLines = [[195]] := by
    rw [hundo]
    simp +decide [Redo, redoLoop, CanRedo, UndoRecord.Redo, InsertTextAt,
      insertTextAtLoop, insertChunk, AddGlyphToLine, AddGlyphsToLine,
      onLineChangedIndices, onLineChangedApply, MarkFindResultsDirty,
      GetCharacterIndexR, GetCharacterColumn, hRe, hCe, UTF8CharLength,
      show List.range 1 = [0] from rfl, List.filterMap_cons, List.filterMap_nil,
      List.foldl_cons, List.foldl_nil]
  refine ⟨?_, ?_, by decide, hredo, ?_⟩
  · rw [hpaste]
  · rw [hundo]
  · rw [hpaste]; decide


/-! ### Coordinate order and cursor-merge lemmas -/

theorem coord_not_lt {a b : Coordinates} : ¬ (a < b) ↔ b ≤ a := by
  obtain ⟨al, ac⟩ := a; obtain ⟨bl, bc⟩ := b
  show ¬ (Coordinates.lt _ _) ↔ Coordinates.le _ _
  simp only [Coordinates.le, Coordinates.lt]
  show _ ↔ (Coordinates.lt _ _ ∨ _)
  simp only [Coordinates.lt, Coordinates.mk.injEq]
  constructor
  · intro h
    omega
  · intro h
    omega

theorem coord_le_refl (a : Coordinates) : a ≤ a := Or.inr rfl

theorem coord_le_trans {a b c : Coordinates} (h1 : a ≤ b) (h2 : b ≤ c) :
    a ≤ c := by
  obtain ⟨al, ac⟩ := a; obtain ⟨bl, bc⟩ := b; obtain ⟨cl, cc⟩ := c
  simp only [show ∀ x y : Coordinates, (x ≤ y) = Coordinates.le x y
      from fun _ _ => rfl,
    show ∀ x y : Coordinates, (x < y) = Coordinates.lt x y
      from fun _ _ => rfl,
    Coordinates.le, Coordinates.lt, Coordinates.mk.injEq] at h1 h2 ⊢
  omega

theorem coord_le_antisymm {a b : Coordinates} (h1 : a ≤ b) (h2 : b ≤ a) :
    a = b := by
  obtain ⟨al, ac⟩ := a; obtain ⟨bl, bc⟩ := b
  simp only [show ∀ x y : Coordinates, (x ≤ y) = Coordinates.le x y
      from fun _ _ => rfl,
    show ∀ x y : Coordinates, (x < y) = Coordinates.lt x y
      from fun _ _ => rfl,
    Coordinates.le, Coordinates.lt, Coordinates.mk.injEq] at h1 h2 ⊢
  omega

theorem coord_not_le {a b : Coordinates} : ¬ (a ≤ b) ↔ b < a := by
  obtain ⟨al, ac⟩ := a; obtain ⟨bl, bc⟩ := b
  simp only [show ∀ x y : Coordinates, (x ≤ y) = Coordinates.le x y
      from fun _ _ => rfl,
    show ∀ x y : Coordinates, (x < y) = Coordinates.lt x y
      from fun _ _ => rfl,
    Coordinates.le, Coordinates.lt, Coordinates.mk.injEq]
  omega

/-- The deletion marks of the selection merge pass only grow. -/
theorem mergeLoopSel_dels_mono {j : Nat} :
    ∀ (c : Nat) (cs : List Cursor) (dels : List Nat), j ∈ dels →
      j ∈ (mergeLoopSel cs c dels).2
  | 0, cs, dels, h => h
  | c + 1, cs, dels, h => by
    rw [mergeLoopSel]
    dsimp only
    split
    · exact mergeLoopSel_dels_mono c cs (dels ++ [c + 1])
        (List.mem_append_left _ h)
    · split
      · exact mergeLoopSel_dels_mono c _ (dels ++ [c + 1])
          (List.mem_append_left _ h)
      · exact mergeLoopSel_dels_mono c cs dels h

/-- The selection merge pass does not touch cursors at or above the loop
counter. -/
theorem mergeLoopSel_preserve_ge {j : Nat} :
    ∀ (c : Nat) (cs : List Cursor) (dels : List Nat), c ≤ j →
      (mergeLoopSel cs c dels).1.getD j default = cs.getD j default
  | 0, cs, dels, _ => rfl
  | c + 1, cs, dels, h => by
    rw [mergeLoopSel]
    dsimp only
    split
    · exact mergeLoopSel_preserve_ge c cs _ (by omega)
    · split
      · rw [mergeLoopSel_preserve_ge c _ _ (by omega)]
        simp only [List.getD]
        rw [List.get?_set_ne _ _ (by omega)]
      · exact mergeLoopSel_preserve_ge c cs dels (by omega)

/-- Adjacent survivors of the selection merge pass do not overlap: if cursor
`i+1` was not marked for deletion, the final cursor `i`'s selection ends at or
before the final cursor `i+1`'s selection starts. -/
theorem mergeLoopSel_adjacent :
    ∀ (c : Nat) (cs : List Cursor) (dels : List Nat) (i : Nat), i < c →
      (i + 1) ∉ (mergeLoopSel cs c dels).2 →
      ((mergeLoopSel cs c dels).1.getD i default).GetSelectionEnd ≤
        ((mergeLoopSel cs c dels).1.getD (i + 1) default).GetSelectionStart
  | 0, _, _, _, hi, _ => absurd hi (by omega)
  | c + 1, cs, dels, i, hi, hnm => by
    rw [mergeLoopSel] at hnm ⊢
    dsimp only at hnm ⊢
    by_cases h1 : (cs.getD (c + 1) default).GetSelectionEnd ≤
        (cs.getD c default).GetSelectionEnd
    · rw [if_pos h1] at hnm ⊢
      rcases Nat.lt_succ_iff_lt_or_eq.mp hi with hi' | hi'
      · exact mergeLoopSel_adjacent c cs _ i hi' hnm
      · rw [hi'] at hnm
        exact absurd (mergeLoopSel_dels_mono c cs _
          (List.mem_append_right _ (List.mem_singleton.mpr rfl))) hnm
    · rw [if_neg h1] at hnm ⊢
      by_cases h2 : (cs.getD (c + 1) default).GetSelectionStart <
          (cs.getD c default).GetSelectionEnd
      · rw [if_pos h2] at hnm ⊢
        rcases Nat.lt_succ_iff_lt_or_eq.mp hi with hi' | hi'
        · exact mergeLoopSel_adjacent c _ _ i hi' hnm
        · rw [hi'] at hnm
          exact absurd (mergeLoopSel_dels_mono c _ _
            (List.mem_append_right _ (List.mem_singleton.mpr rfl))) hnm
      · rw [if_neg h2] at hnm ⊢
        rcases Nat.lt_succ_iff_lt_or_eq.mp hi with hi' | hi'
        · exact mergeLoopSel_adjacent c cs dels i hi' hnm
        · rw [hi']
          rw [mergeLoopSel_preserve_ge c cs dels (Nat.le_refl c),
            mergeLoopSel_preserve_ge c cs dels (by omega)]
          exact coord_not_lt.mp h2

/-- The descending index list `[c, c-1, ..., 1]`. -/
def downFrom : Nat → List Nat
  | 0 => []
  | c + 1 => (c + 1) :: downFrom c

theorem downFrom_mem {j : Nat} : ∀ c, j ∈ downFrom c ↔ 1 ≤ j ∧ j ≤ c
  | 0 => by
    simp only [downFrom, List.not_mem_nil, false_iff]
    omega
  | c + 1 => by
    simp [downFrom, downFrom_mem c]
    omega

theorem downFrom_length : ∀ c, (downFrom c).length = c
  | 0 => rfl
  | c + 1 => by simp [downFrom, downFrom_length c]

/-- When every cursor's selection end is at or below its predecessor's, the
selection merge pass keeps the cursors untouched and marks every index from
`c` down to 1. -/
theorem mergeLoopSel_all_marked :
    ∀ (c : Nat) (cs : List Cursor) (dels : List Nat),
      (∀ i, i < c → (cs.getD (i + 1) default).GetSelectionEnd ≤
        (cs.getD i default).GetSelectionEnd) →
      mergeLoopSel cs c dels = (cs, dels ++ downFrom c)
  | 0, cs, dels, _ => by simp [mergeLoopSel, downFrom]
  | c + 1, cs, dels, h => by
    rw [mergeLoopSel]
    dsimp only
    rw [if_pos (h c (by omega))]
    rw [mergeLoopSel_all_marked c cs _ (fun i hi => h i (by omega))]
    simp [downFrom]

/-- Same statement for the no-selection pass: equal heads everywhere mark
every index from `c` down to 1. -/
theorem mergeLoopPos_all_marked :
    ∀ (c : Nat) (cs : List Cursor) (dels : List Nat),
      (∀ i, i < c → (cs.getD i default).mInteractiveEnd =
        (cs.getD (i + 1) default).mInteractiveEnd) →
      mergeLoopPos cs c dels = dels ++ downFrom c
  | 0, _, dels, _ => by simp [mergeLoopPos, downFrom]
  | c + 1, cs, dels, h => by
    rw [mergeLoopPos]
    rw [if_pos (h c (by omega))]
    rw [mergeLoopPos_all_marked c cs _ (fun i hi => h i (by omega))]
    simp [downFrom]

/-- Erasing all of `[c, ..., 1]` from a cursor list of length at most `c + 1`
leaves only the head. -/
theorem mergeErase_head :
    ∀ (c : Nat) (cs : List Cursor) (dels : List Nat), 0 ∉ dels →
      (∀ j, 1 ≤ j → j ≤ c → j ∈ dels) → cs.length ≤ c + 1 →
      mergeErase dels cs c = cs.take 1
  | 0, cs, dels, h0, _, hlen => by
    rw [mergeErase]
    rw [if_neg h0]
    exact (List.take_of_length_le hlen).symm
  | c + 1, cs, dels, h0, hmem, hlen => by
    rw [mergeErase]
    rw [if_pos (hmem (c + 1) (by omega) (by omega))]
    rw [mergeErase_head c _ dels h0
      (fun j a b => hmem j a (by omega))
      (by
        rw [List.length_eraseIdx]
        split
        · omega
        · omega)]
    rcases cs with _ | ⟨a, tl⟩
    · rfl
    · show ((a :: tl).eraseIdx (c + 1)).take 1 = [a]
      rw [List.eraseIdx_cons_succ]
      rfl

/-- Exact characterization of the marks of the no-selection merge pass. -/
theorem mergeLoopPos_mem {j : Nat} :
    ∀ (c : Nat) (cs : List Cursor) (dels : List Nat),
      j ∈ mergeLoopPos cs c dels ↔ j ∈ dels ∨
        (1 ≤ j ∧ j ≤ c ∧ (cs.getD (j - 1) default).mInteractiveEnd =
          (cs.getD j default).mInteractiveEnd)
  | 0, cs, dels => by
    rw [mergeLoopPos]
    constructor
    · exact fun h => Or.inl h
    · rintro (h | h)
      · exact h
      · omega
  | c + 1, cs, dels => by
    rw [mergeLoopPos]
    by_cases h : (cs.getD c default).mInteractiveEnd =
        (cs.getD (c + 1) default).mInteractiveEnd
    · rw [if_pos h, mergeLoopPos_mem c cs _]
      simp only [List.mem_append, List.mem_singleton]
      constructor
      · rintro ((h1 | h1) | h1)
        · exact Or.inl h1
        · refine Or.inr ⟨by omega, by omega, ?_⟩
          rw [h1]
          simpa using h
        · exact Or.inr ⟨h1.1, by omega, h1.2.2⟩
      · rintro (h1 | ⟨h1, h2, h3⟩)
        · exact Or.inl (Or.inl h1)
        · rcases Nat.eq_or_lt_of_le h2 with hj | hj
          · exact Or.inl (Or.inr hj)
          · exact Or.inr ⟨h1, by omega, h3⟩
    · rw [if_neg h, mergeLoopPos_mem c cs dels]
      constructor
      · rintro (h1 | ⟨h1, h2, h3⟩)
        · exact Or.inl h1
        · exact Or.inr ⟨h1, by omega, h3⟩
      · rintro (h1 | ⟨h1, h2, h3⟩)
        · exact Or.inl h1
        · refine Or.inr ⟨h1, ?_, h3⟩
          rcases Nat.eq_or_lt_of_le h2 with hj | hj
          · exfalso
            apply h
            have hjc : j - 1 = c := by omega
            rw [hjc] at h3
            rw [hj] at h3
            exact h3
          · omega

theorem cmin_self (a : Coordinates) : cmin a a = a := by
  unfold cmin; split <;> rfl

theorem cmax_self (a : Coordinates) : cmax a a = a := by
  unfold cmax; split <;> rfl

theorem eq_of_cmin_eq_cmax {a b : Coordinates} (h : cmin a b = cmax a b) :
    a = b := by
  unfold cmin cmax at h
  by_cases h1 : b < a
  · by_cases h2 : a < b
    · exact absurd h2 (coord_not_lt.mpr (Or.inl h1))
    · rw [if_pos h1, if_neg h2] at h
      exact h.symm
  · by_cases h2 : a < b
    · rw [if_neg h1, if_pos h2] at h
      exact h
    · exact coord_le_antisymm (coord_not_lt.mp h1) (coord_not_lt.mp h2)

/-- Claim C3, amended behaviour of the one-pass merge. -/
theorem claim_C3_amended (e : Editor)
    (hlen : e.mState.mCursors.length = e.mState.mCurrentCursor + 1)
    (hsorted : ∀ i j, i ≤ j → j ≤ e.mState.mCurrentCursor →
      (e.mState.mCursors.getD i default).GetSelectionStart ≤
      (e.mState.mCursors.getD j default).GetSelectionStart) :
    (∀ i, i < e.mState.mCurrentCursor →
      (i + 1) ∉ (mergeLoopSel e.mState.mCursors e.mState.mCurrentCursor []).2 →
      ((mergeLoopSel e.mState.mCursors e.mState.mCurrentCursor []).1.getD i
          default).GetSelectionEnd ≤
      ((mergeLoopSel e.mState.mCursors e.mState.mCurrentCursor []).1.getD
          (i + 1) default).GetSelectionStart) ∧
    (∀ s en, (∀ i, i ≤ e.mState.mCurrentCursor →
        (e.mState.mCursors.getD i default).GetSelectionStart = s ∧
        (e.mState.mCursors.getD i default).GetSelectionEnd = en) →
      (MergeCursorsIfPossible e).mState.mCursors.length = 1 ∧
      (MergeCursorsIfPossible e).mState.mCurrentCursor = 0) ∧
    (AnyCursorHasSelection e = false →
      ∀ i j, i < j → j ≤ e.mState.mCurrentCursor →
        i ∉ mergeLoopPos e.mState.mCursors e.mState.mCurrentCursor [] →
        j ∉ mergeLoopPos e.mState.mCursors e.mState.mCurrentCursor [] →
        (e.mState.mCursors.getD i default).mInteractiveEnd ≠
        (e.mState.mCursors.getD j default).mInteractiveEnd) := by
  set N := e.mState.mCurrentCursor with hN
  set cs := e.mState.mCursors with hcs
  refine ⟨fun i hi hnm => mergeLoopSel_adjacent N cs [] i hi hnm, ?_, ?_⟩
  · -- (b) identical ranges collapse to one cursor
    intro s en hall
    by_cases hse : s = en
    · -- no cursor has a selection: the position pass runs
      have hpoint : ∀ i, i ≤ N → (cs.getD i default).mInteractiveStart =
          (cs.getD i default).mInteractiveEnd := by
        intro i hi
        obtain ⟨h1, h2⟩ := hall i hi
        exact eq_of_cmin_eq_cmax (h1.trans (hse.trans h2.symm))
      have hnosel : AnyCursorHasSelection e = false := by
        rw [AnyCursorHasSelection]
        rw [List.any_eq_false]
        intro x hx
        rw [List.mem_range] at hx
        simp only [Cursor.HasSelection, ← hcs, decide_eq_true_eq, ne_eq,
          not_not]
        exact hpoint x (by omega)
      have hheads : ∀ i, i < N → (cs.getD i default).mInteractiveEnd =
          (cs.getD (i + 1) default).mInteractiveEnd := by
        intro i hi
        have e1 := (hall i (by omega)).1
        have e2 := (hall (i + 1) (by omega)).1
        have p1 := hpoint i (by omega)
        have p2 := hpoint (i + 1) (by omega)
        rw [Cursor.GetSelectionStart, p1, cmin_self] at e1
        rw [Cursor.GetSelectionStart, p2, cmin_self] at e2
        rw [e1, e2]
      rw [MergeCursorsIfPossible]
      rw [hnosel]
      simp only [Bool.false_eq_true, if_false]
      rw [mergeLoopPos_all_marked N cs [] hheads]
      rw [mergeErase_head N cs _
        (by
          rw [List.nil_append, downFrom_mem]
          omega)
        (fun j a b => by
          rw [List.nil_append, downFrom_mem]
          omega)
        (by omega)]
      constructor
      · rw [List.length_take]
        omega
      · rw [List.nil_append, downFrom_length]
        omega
    · -- the first cursor has a selection: the selection pass runs
      have hsel : AnyCursorHasSelection e = true := by
        rw [AnyCursorHasSelection, List.any_eq_true]
        refine ⟨0, List.mem_range.mpr (by omega), ?_⟩
        simp only [Cursor.HasSelection, ← hcs, decide_eq_true_eq, ne_eq]
        intro heq
        obtain ⟨h1, h2⟩ := hall 0 (by omega)
        apply hse
        rw [← h1, ← h2, Cursor.GetSelectionStart, Cursor.GetSelectionEnd,
          heq, cmin_self, cmax_self]
      have hends : ∀ i, i < N → (cs.getD (i + 1) default).GetSelectionEnd ≤
          (cs.getD i default).GetSelectionEnd := by
        intro i hi
        rw [(hall (i + 1) (by omega)).2, (hall i (by omega)).2]
        exact coord_le_refl en
      rw [MergeCursorsIfPossible]
      rw [hsel]
      simp only [if_true]
      rw [mergeLoopSel_all_marked N cs [] hends]
      rw [mergeErase_head N cs _
        (by
          rw [List.nil_append, downFrom_mem]
          omega)
        (fun j a b => by
          rw [List.nil_append, downFrom_mem]
          omega)
        (by omega)]
      constructor
      · rw [List.length_take]
        omega
      · rw [List.nil_append, downFrom_length]
        omega
  · -- (c) no selections: surviving cursors sit at distinct positions
    intro hnosel i j hij hj hinm hjnm heq
    have hpoint : ∀ k, k ≤ N → (cs.getD k default).mInteractiveStart =
        (cs.getD k default).mInteractiveEnd := by
      intro k hk
      rw [AnyCursorHasSelection, List.any_eq_false] at hnosel
      have := hnosel k (List.mem_range.mpr (by omega))
      simpa only [Cursor.HasSelection, ← hcs, decide_eq_true_eq, ne_eq,
        not_not] using this
    have hhead : ∀ a b, a ≤ b → b ≤ N →
        (cs.getD a default).mInteractiveEnd ≤
        (cs.getD b default).mInteractiveEnd := by
      intro a b hab hb
      have := hsorted a b hab hb
      rw [Cursor.GetSelectionStart, Cursor.GetSelectionStart,
        hpoint a (by omega), hpoint b (by omega), cmin_self, cmin_self]
        at this
      exact this
    have hstep : (cs.getD (j - 1) default).mInteractiveEnd =
        (cs.getD j default).mInteractiveEnd := by
      refine coord_le_antisymm (hhead (j - 1) j (by omega) hj) ?_
      calc (cs.getD j default).mInteractiveEnd
          = (cs.getD i default).mInteractiveEnd := heq.symm
        _ ≤ (cs.getD (j - 1) default).mInteractiveEnd :=
            hhead i (j - 1) (by omega) (by omega)
    exact hjnm ((mergeLoopPos_mem N cs []).mpr
      (Or.inr ⟨by omega, hj, hstep⟩))

def mergeSameExampleEditor : Editor :=
  { initialEditor with
      mLines := [[97, 97]]
      mState := ⟨2, 0, [⟨⟨0, 0⟩, ⟨0, 2⟩⟩, ⟨⟨0, 0⟩, ⟨0, 2⟩⟩,
        ⟨⟨0, 0⟩, ⟨0, 2⟩⟩]⟩ }

theorem claim_C3_witness :
    mergeSameExampleEditor.mState.mCursors.length =
      mergeSameExampleEditor.mState.mCurrentCursor + 1 ∧
    (MergeCursorsIfPossible mergeSameExampleEditor).mState.mCursors.length
      = 1 :=
  ⟨by decide,
    ((claim_C3_amended mergeSameExampleEditor (by decide)
        (by
          intro i j hij hj
          have hi2 : i ≤ 2 := by
            show i ≤ mergeSameExampleEditor.mState.mCurrentCursor
            omega
          have hj2 : j ≤ 2 := hj
          interval_cases j <;> interval_cases i <;> decide)).2.1
      ⟨0, 0⟩ ⟨0, 2⟩ (by decide)).1⟩


/-! ### UTF-8 split/join lemmas and the text round trip -/

/-- The split of SetText never produces an empty line list. -/
theorem setTextSplit_ne_nil : ∀ t, setTextSplit t ≠ []
  | [] => by simp [setTextSplit]
  | b :: rest => by
    rw [setTextSplit]
    split
    · exact setTextSplit_ne_nil rest
    · split
      · simp
      · split <;> simp

/-- Joining for a multi-line list. -/
theorem linesJoin_cons_ne {l : Line} {ls : List Line} (h : ls ≠ []) :
    linesJoin (l :: ls) = l ++ 10 :: linesJoin ls := by
  cases ls with
  | nil => exact absurd rfl h
  | cons a as => rfl

/-- Splitting then joining restores a carriage-return-free text. -/
theorem linesJoin_setTextSplit : ∀ t : List Byte, 13 ∉ t →
    linesJoin (setTextSplit t) = t
  | [], _ => rfl
  | b :: rest, hcr => by
    have hb13 : b ≠ 13 := fun h => hcr (h ▸ List.mem_cons_self b rest)
    have hrest : 13 ∉ rest := fun h => hcr (List.mem_cons_of_mem b h)
    rw [setTextSplit]
    rw [if_neg hb13]
    by_cases hb10 : b = 10
    · rw [if_pos hb10]
      rw [linesJoin_cons_ne (setTextSplit_ne_nil rest)]
      rw [linesJoin_setTextSplit rest hrest, hb10]
      rfl
    · rw [if_neg hb10]
      rcases hsp : setTextSplit rest with _ | ⟨l, ls⟩
      · exact absurd hsp (setTextSplit_ne_nil rest)
      · have hj : linesJoin (l :: ls) = rest := by
          rw [← hsp]
          exact linesJoin_setTextSplit rest hrest
        cases ls with
        | nil =>
          simp only [linesJoin] at hj ⊢
          rw [hj]
        | cons a as =>
          rw [linesJoin_cons_ne (by simp)] at hj ⊢
          rw [List.cons_append, hj]

/-- A nonempty list is its head prepended to its tail. -/
theorem headD_cons_tail {α : Type} [Inhabited α] {l : List α} (h : l ≠ []) :
    l = l.headD default :: l.tail := by
  cases l with
  | nil => exact absurd rfl h
  | cons a as => rfl

/-- Prepending bytes that are neither newline nor carriage return extends the
head line of the split. -/
theorem setTextSplit_prepend :
    ∀ (p q : List Byte), (∀ x ∈ p, x ≠ 10 ∧ x ≠ 13) →
      setTextSplit (p ++ q) =
        (p ++ (setTextSplit q).headD []) :: (setTextSplit q).tail
  | [], q, _ => by
    simpa using headD_cons_tail (setTextSplit_ne_nil q)
  | a :: p', q, h => by
    have ha := h a (List.mem_cons_self a p')
    rw [List.cons_append, setTextSplit]
    rw [if_neg ha.2, if_neg ha.1]
    rw [setTextSplit_prepend p' q (fun x hx => h x (List.mem_cons_of_mem a hx))]
    simp

/-- A UTF-8 continuation byte is a single-byte lead, and is neither newline
nor carriage return. -/
theorem contByte_facts {b : Byte} (h : isUtf8ContByte b = true) :
    UTF8CharLength b = 1 ∧ b ≠ 10 ∧ b ≠ 13 := by
  rw [isUtf8ContByte, decide_eq_true_eq] at h
  obtain ⟨h1, h2⟩ := h
  have hb10 : b ≠ 10 := by
    intro hh
    rw [hh] at h1
    exact absurd h1 (by norm_num)
  have hb13 : b ≠ 13 := by
    intro hh
    rw [hh] at h1
    exact absurd h1 (by norm_num)
  refine ⟨?_, hb10, hb13⟩
  interval_cases b <;> decide

/-- Every line of the split of a carriage-return-free well-formed text is
itself well formed: newlines only ever sit at UTF-8 sequence boundaries. -/
theorem wellFormed_split : ∀ (t : List Byte), 13 ∉ t →
    wellFormedUtf8 t = true → ∀ l ∈ setTextSplit t, wellFormedUtf8 l = true
  | [], _, _ => by
    intro l hl
    rw [setTextSplit] at hl
    simp at hl
    rw [hl, wellFormedUtf8]
  | b :: rest, hcr, hwf => by
    intro l hl
    have hb13 : b ≠ 13 := fun h => hcr (h ▸ List.mem_cons_self b rest)
    have hrest13 : 13 ∉ rest := fun h => hcr (List.mem_cons_of_mem b h)
    rw [wellFormedUtf8] at hwf
    simp only [Bool.and_eq_true, decide_eq_true_eq] at hwf
    obtain ⟨⟨hdlen, hcont⟩, hwfrest⟩ := hwf
    by_cases hb10 : b = 10
    · rw [setTextSplit, if_neg hb13, if_pos hb10] at hl
      have hd : UTF8CharLength b = 1 := by rw [hb10]; rfl
      rw [hd] at hwfrest
      simp only [Nat.sub_self, List.drop_zero] at hwfrest
      rcases List.mem_cons.mp hl with h | h
      · rw [h, wellFormedUtf8]
      · exact wellFormed_split rest hrest13 hwfrest l h
    · have hq13 : 13 ∉ rest.drop (UTF8CharLength b - 1) := fun h =>
        hrest13 (List.mem_of_mem_drop h)
      have htlen : (rest.take (UTF8CharLength b - 1)).length =
          UTF8CharLength b - 1 := by
        rw [List.length_take]
        omega
      have hp : ∀ x ∈ b :: rest.take (UTF8CharLength b - 1),
          x ≠ 10 ∧ x ≠ 13 := by
        intro x hx
        rcases List.mem_cons.mp hx with h | h
        · rw [h]; exact ⟨hb10, hb13⟩
        · have := List.all_eq_true.mp hcont x h
          exact (contByte_facts this).2
      have heq : setTextSplit (b :: rest) =
          ((b :: rest.take (UTF8CharLength b - 1)) ++
            (setTextSplit (rest.drop (UTF8CharLength b - 1))).headD []) ::
          (setTextSplit (rest.drop (UTF8CharLength b - 1))).tail := by
        conv_lhs =>
          rw [show b :: rest = (b :: rest.take (UTF8CharLength b - 1)) ++
            rest.drop (UTF8CharLength b - 1) by
              rw [List.cons_append, List.take_append_drop]]
        exact setTextSplit_prepend _ _ hp
      rw [heq] at hl
      have hmemq : ∀ m ∈ (setTextSplit (rest.drop (UTF8CharLength b - 1))),
          wellFormedUtf8 m = true :=
        wellFormed_split (rest.drop (UTF8CharLength b - 1)) hq13 hwfrest
      rcases List.mem_cons.mp hl with h | h
      · rw [h, List.cons_append, wellFormedUtf8]
        simp only [Bool.and_eq_true, decide_eq_true_eq]
        refine ⟨⟨?_, ?_⟩, ?_⟩
        · rw [List.length_append, htlen]
          omega
        · rw [List.take_append_of_le_length (by omega), List.take_take]
          rw [show min (UTF8CharLength b - 1) (UTF8CharLength b - 1) =
            UTF8CharLength b - 1 from Nat.min_self _]
          exact hcont
        · rw [List.drop_left' htlen]
          refine hmemq _ ?_
          rw [headD_cons_tail (setTextSplit_ne_nil _)]
          exact List.mem_cons_self _ _
      · refine hmemq _ ?_
        rw [headD_cons_tail (setTextSplit_ne_nil
          (rest.drop (UTF8CharLength b - 1)))]
        exact List.mem_cons_of_mem _ h
termination_by t => t.length
decreasing_by
  · simp
  · have := List.length_drop (UTF8CharLength b - 1) rest
    simp only [List.length_cons]
    omega

/-- On a well-formed line the walk from the origin ends exactly at the line
length, with the full-width column. -/
theorem reach_final_wellFormed {t : Nat} {line : Line}
    (hwf : wellFormedUtf8 line = true) :
    ReachFrom t line (0, 0) (line.length, getLineMaxColumnLoop t line 0 0) := by
  obtain ⟨e, he, hlen, hval⟩ := getLineMaxColumnLoop_final t line (0, 0)
  have hin : e.1 ≤ line.length ∧ _ :=
    wellFormed_reach he (by omega) (by simpa using hwf)
  have h1 : e.1 = line.length := by omega
  have hval' : getLineMaxColumnLoop t line 0 0 = e.2 := hval
  have heq : e = (line.length, getLineMaxColumnLoop t line 0 0) := by
    rw [hval', ← h1]
  rw [← heq]
  exact he

/-- The right-rounding index loop aimed at the column of a walk endpoint at
the line end runs to the end of the line, from any walk state below it. -/
theorem getCharacterIndexRLoop_full {t : Nat} {line : Line} (ht : 1 ≤ t) :
    ∀ (s s' : Nat × Nat), ReachFrom t line s s' → s'.1 = line.length →
      getCharacterIndexRLoop t line (s'.2 : Int) s.1 s.2 = line.length := by
  intro s s' h
  induction h with
  | refl s =>
    intro hend
    rw [getCharacterIndexRLoop]
    rw [dif_neg (by omega)]
    exact hend
  | step hlt hrest ih =>
    intro hend
    rename_i s s2
    have hcol : s.2 < s2.2 := by
      refine ReachFrom.snd_lt ht (ReachFrom.step hlt hrest) (by omega)
    rw [getCharacterIndexRLoop]
    rw [dif_pos ⟨hlt, by exact_mod_cast hcol⟩]
    exact ih hend

/-- Peeling one line off the join of a document suffix. -/
theorem linesJoin_drop_expand (lines : List Line) (K : Nat)
    (hK : K < lines.length) :
    linesJoin (lines.drop K) = lines.getD K [] ++
      (if K < lines.length - 1 then 10 :: linesJoin (lines.drop (K + 1))
       else []) := by
  have hgd : lines.getD K [] = lines[K] := by
    simp [List.getD_eq_getElem?_getD, List.getElem?_eq_getElem hK]
  rw [List.drop_eq_getElem_cons hK, hgd]
  by_cases h2 : K < lines.length - 1
  · rw [if_pos h2]
    rw [linesJoin_cons_ne]
    intro hnil
    rw [List.drop_eq_nil_iff] at hnil
    omega
  · rw [if_neg h2]
    have : lines.drop (K + 1) = [] := List.drop_eq_nil_of_le (by omega)
    rw [this]
    simp [linesJoin]

/-- The byte-emitting loop of the ranged `GetText`, started at byte `istart`
of line `L` with the loop bounds the whole-document `GetText` passes, returns
the accumulator followed by the join of the document from that point on. -/
theorem getTextLoop_join : ∀ (lines : List Line) (L istart : Nat)
    (acc : List Byte), L < lines.length →
    istart ≤ (lines.getD L []).length →
    getTextLoop lines (L : Int) ((lines.length : Int) - 1) (istart : Int)
        ((lines.getD (lines.length - 1) []).length : Int) acc =
      acc ++ (lines.getD L []).drop istart ++
        (if L < lines.length - 1 then 10 :: linesJoin (lines.drop (L + 1))
         else [])
  | lines, L, istart, acc, hL, hist => by
    rw [getTextLoop]
    by_cases hmid : L < lines.length - 1
    · rw [dif_pos (by
        right
        push_cast
        omega)]
      rw [dif_neg (by push_cast; omega)]
      by_cases hin : istart < (lines.getD L []).length
      · rw [dif_pos (by
          simp only [Int.toNat_natCast]
          push_cast
          omega)]
        have hrec := getTextLoop_join lines L (istart + 1)
          (acc ++ [(lines.getD L []).getD istart 0]) hL (by omega)
        simp only [Int.toNat_natCast]
        push_cast at hrec ⊢
        rw [hrec]
        have hin2 : istart < (lines[L]?.getD []).length := by
          simpa [List.getD_eq_getElem?_getD] using hin
        have hb : (lines.getD L []).getD istart 0 =
            (lines.getD L [])[istart] := by
          simp [List.getD_eq_getElem?_getD, List.getElem?_eq_getElem hin2]
        rw [hb]
        rw [List.drop_eq_getElem_cons hin]
        simp
      · rw [dif_neg (by
          simp only [Int.toNat_natCast]
          push_cast
          omega)]
        have hL1 : L + 1 < lines.length := by omega
        have hrec := getTextLoop_join lines (L + 1) 0 (acc ++ [10]) hL1
          (by omega)
        push_cast at hrec ⊢
        rw [hrec]
        have hde : (lines.getD L []).drop istart = [] :=
          List.drop_eq_nil_of_le (by omega)
        rw [if_pos hmid, hde]
        rw [linesJoin_drop_expand lines (L + 1) hL1]
        simp
    · -- last line
      have hlast : L = lines.length - 1 := by omega
      by_cases hin : istart < (lines.getD L []).length
      · rw [dif_pos (by
          left
          rw [← hlast]
          push_cast
          omega)]
        rw [dif_neg (by push_cast; omega)]
        rw [dif_pos (by
          simp only [Int.toNat_natCast]
          push_cast
          omega)]
        have hrec := getTextLoop_join lines L (istart + 1)
          (acc ++ [(lines.getD L []).getD istart 0]) hL (by omega)
        simp only [Int.toNat_natCast]
        push_cast at hrec ⊢
        rw [hrec]
        have hin2 : istart < (lines[L]?.getD []).length := by
          simpa [List.getD_eq_getElem?_getD] using hin
        have hb : (lines.getD L []).getD istart 0 =
            (lines.getD L [])[istart] := by
          simp [List.getD_eq_getElem?_getD, List.getElem?_eq_getElem hin2]
        rw [hb]
        rw [List.drop_eq_getElem_cons hin]
        simp
      · rw [dif_neg (by
          rw [← hlast]
          push_cast
          omega)]
        have hde : (lines.getD L []).drop istart = [] :=
          List.drop_eq_nil_of_le (by omega)
        rw [if_neg hmid, hde]
        simp
termination_by lines L istart => (lines.length - 1 - L,
  (lines.getD L []).length - istart)
decreasing_by
  all_goals first
    | (apply Prod.Lex.right; omega)
    | (apply Prod.Lex.left; omega)

/-- Claim C9 as amended: `GetText` after `SetText` restores the text exactly,
for every carriage-return-free text made of complete UTF-8 sequences. -/
theorem claim_C9_amended (e : Editor) (t : List Byte)
    (htab : 1 ≤ e.mTabSize) (hcr : 13 ∉ t)
    (hwf : wellFormedUtf8 t = true) :
    GetText (SetText e t) = t := by
  have hne : setTextSplit t ≠ [] := setTextSplit_ne_nil t
  have hlen1 : 1 ≤ (setTextSplit t).length := List.length_pos.mpr hne
  have hjoin : linesJoin (setTextSplit t) = t := linesJoin_setTextSplit t hcr
  have hwfl := wellFormed_split t hcr hwf
  have hlastmem : (setTextSplit t).getD ((setTextSplit t).length - 1) [] ∈
      setTextSplit t := by
    have hid : (setTextSplit t).length - 1 < (setTextSplit t).length := by
      omega
    rw [List.getD_eq_getElem?_getD, List.getElem?_eq_getElem hid]
    exact List.getElem_mem _
  have hlastwf := hwfl _ hlastmem
  have hreach := reach_final_wellFormed (t := e.mTabSize) hlastwf
  have hiend := @getCharacterIndexRLoop_full e.mTabSize
    ((setTextSplit t).getD ((setTextSplit t).length - 1) []) htab
    (0, 0) _ hreach rfl
  dsimp only at hiend
  have htoNat : (((setTextSplit t).length : Int) - 1).toNat =
      (setTextSplit t).length - 1 := by omega
  have hMeq : GetLineMaxColumn e.mTabSize (setTextSplit t)
      (((setTextSplit t).length : Int) - 1) =
      getLineMaxColumnLoop e.mTabSize
        ((setTextSplit t).getD ((setTextSplit t).length - 1) []) 0 0 := by
    rw [GetLineMaxColumn]
    rw [if_neg (by push_cast; omega)]
    rw [htoNat]
  rw [GetText]
  show (if _ < _ then GetTextRange (SetText e t) _ _ else []) = t
  rw [show (SetText e t).mLines = setTextSplit t from rfl,
    show (SetText e t).mTabSize = e.mTabSize from rfl]
  rw [hMeq]
  by_cases hcond : (⟨0, 0⟩ : Coordinates) <
      ⟨((setTextSplit t).length : Int) - 1,
       (getLineMaxColumnLoop e.mTabSize
         ((setTextSplit t).getD ((setTextSplit t).length - 1) []) 0 0 : Int)⟩
  · rw [if_pos hcond]
    rw [GetTextRange]
    rw [show (SetText e t).mLines = setTextSplit t from rfl,
      show (SetText e t).mTabSize = e.mTabSize from rfl]
    rw [GetCharacterIndexR, GetCharacterIndexR]
    rw [if_neg (by
      dsimp only
      push_cast
      simp only [false_or, not_le]
      omega)]
    rw [if_neg (by
      dsimp only
      push_cast
      simp only [false_or, not_le, not_or]
      constructor
      · omega
      · omega)]
    dsimp only
    rw [show ((0 : Int)).toNat = 0 from rfl, htoNat]
    have h0 : getCharacterIndexRLoop e.mTabSize ((setTextSplit t).getD 0 [])
        0 0 0 = 0 := by
      rw [getCharacterIndexRLoop]
      simp
    rw [h0, hiend]
    have hjl := getTextLoop_join (setTextSplit t) 0 0 [] (by omega)
      (by omega)
    push_cast at hjl ⊢
    rw [hjl]
    have hexp := linesJoin_drop_expand (setTextSplit t) 0 (by omega)
    rw [List.drop_zero] at hexp
    rw [hexp] at hjoin
    simpa using hjoin
  · rw [if_neg hcond]
    -- the document is the single empty line: the original text was empty
    have hsingle : (setTextSplit t).length = 1 ∧
        getLineMaxColumnLoop e.mTabSize
          ((setTextSplit t).getD ((setTextSplit t).length - 1) []) 0 0 = 0 := by
      by_contra hcon
      apply hcond
      show Coordinates.lt _ _
      rw [Coordinates.lt]
      dsimp only
      push_cast
      omega
    obtain ⟨hone, hzero⟩ := hsingle
    have hlast0 : (setTextSplit t).getD ((setTextSplit t).length - 1) []
        = [] := by
      by_contra hcon
      have hlp : 0 < ((setTextSplit t).getD
          ((setTextSplit t).length - 1) []).length :=
        List.length_pos.mpr hcon
      have h2 := ReachFrom.snd_lt htab hreach (by simpa using hlp)
      dsimp only at h2
      omega
    rcases hsp : setTextSplit t with _ | ⟨l0, ls⟩
    · exact absurd hsp hne
    · have : ls = [] := by
        have := hone
        rw [hsp] at this
        simpa using this
      rw [this] at hsp
      rw [hsp] at hlast0 hjoin
      simp at hlast0
      rw [← hjoin, hlast0]
      rfl

/-- Witness for C9: the round trip holds on the two-line text `"hé\ni"`,
whose `é` is a complete two-byte UTF-8 sequence. -/
theorem claim_C9_witness :
    1 ≤ initialEditor.mTabSize ∧
    13 ∉ ([104, 195, 169, 10, 105] : List Byte) ∧
    wellFormedUtf8 [104, 195, 169, 10, 105] = true ∧
    GetText (SetText initialEditor [104, 195, 169, 10, 105]) =
      [104, 195, 169, 10, 105] := by
  have hwf : wellFormedUtf8 ([104, 195, 169, 10, 105] : List Byte) = true := by
    simp +decide [wellFormedUtf8, UTF8CharLength, isUtf8ContByte]
  exact ⟨by decide, by decide, hwf,
    claim_C9_amended initialEditor [104, 195, 169, 10, 105] (by decide)
      (by decide) hwf⟩


/-! ### Frame and preservation lemmas: the document is never empty -/

/-- A fold whose step never touches a component preserves it. -/
theorem foldl_preserves {α β : Type} (g : Editor → β) (f : Editor → α → Editor)
    (hf : ∀ ed a, g (f ed a) = g ed) :
    ∀ (l : List α) (e : Editor), g (l.foldl f e) = g e
  | [], _ => rfl
  | a :: l, e => by
    rw [List.foldl_cons, foldl_preserves g f hf l (f e a), hf]

theorem onLineChangedApply_mLines (e : Editor) (aLine : Int)
    (ps : List (Nat × Int)) : (onLineChangedApply e aLine ps).mLines =
      e.mLines := by
  rw [onLineChangedApply]
  apply foldl_preserves
  intro ed a
  rfl

theorem onLineChangedApply_mUndoBuffer (e : Editor) (aLine : Int)
    (ps : List (Nat × Int)) : (onLineChangedApply e aLine ps).mUndoBuffer =
      e.mUndoBuffer := by
  rw [onLineChangedApply]
  apply foldl_preserves
  intro ed a
  rfl

theorem set_ne_nil {α : Type} {l : List α} (h : l ≠ []) (i : Nat) (a : α) :
    l.set i a ≠ [] := by
  intro hc
  apply h
  have := List.length_set l i a
  rw [hc] at this
  simpa using (List.length_eq_zero.mp this.symm)

theorem RemoveGlyphsFromLine_mLines_ne (e : Editor) (a b c : Int)
    (h : e.mLines ≠ []) : (RemoveGlyphsFromLine e a b c).mLines ≠ [] := by
  rw [RemoveGlyphsFromLine]
  rw [onLineChangedApply_mLines]
  exact set_ne_nil h _ _

theorem AddGlyphsToLine_mLines_ne (e : Editor) (a b : Int) (g : List Byte)
    (h : e.mLines ≠ []) : (AddGlyphsToLine e a b g).mLines ≠ [] := by
  rw [AddGlyphsToLine]
  rw [onLineChangedApply_mLines]
  exact set_ne_nil h _ _

theorem AddGlyphToLine_mLines_ne (e : Editor) (a b : Int) (g : Byte)
    (h : e.mLines ≠ []) : (AddGlyphToLine e a b g).mLines ≠ [] := by
  rw [AddGlyphToLine]
  rw [onLineChangedApply_mLines]
  exact set_ne_nil h _ _

theorem insertIdx_ne_nil {α : Type} {l : List α} (h : l ≠ []) (n : Nat)
    (a : α) : l.insertIdx n a ≠ [] := by
  cases l with
  | nil => exact absurd rfl h
  | cons x xs =>
    cases n with
    | zero => simp [List.insertIdx]
    | succ m => simp [List.insertIdx]

theorem InsertLine_mLines_ne (e : Editor) (i : Int) (h : e.mLines ≠ []) :
    (InsertLine e i).mLines ≠ [] := by
  rw [InsertLine]
  have hfold := foldl_preserves Editor.mLines
    (fun ed c =>
      let cur := ed.mState.mCursors.getD c default
      if i ≤ cur.mInteractiveEnd.mLine then
        SetCursorPosition ed
          ⟨cur.mInteractiveEnd.mLine + 1, cur.mInteractiveEnd.mColumn⟩
          (c : Int) true
      else ed)
    (fun ed a => by
      dsimp only
      split
      · rfl
      · rfl)
  rw [hfold]
  exact insertIdx_ne_nil h _ _

theorem RemoveLine_mLines_ne (e : Editor) (i : Int)
    (h : 1 < e.mLines.length) : (RemoveLine e i).mLines ≠ [] := by
  have hval : (RemoveLine e i).mLines = e.mLines.eraseIdx i.toNat := by
    rw [RemoveLine]
    apply foldl_preserves
    intro ed a
    dsimp only
    split <;> rfl
  rw [hval]
  intro hc
  have := List.length_eraseIdx e.mLines i.toNat
  rw [hc] at this
  simp at this
  split at this <;> omega

theorem RemoveLines_mLines_ne_pos (e : Editor) (a b : Int)
    (hne : e.mLines ≠ []) (h0 : 0 < a) :
    (RemoveLines e a b).mLines ≠ [] := by
  rw [RemoveLines]
  intro hc
  rw [List.append_eq_nil] at hc
  obtain ⟨h1, h2⟩ := hc
  have hlp : 0 < e.mLines.length := List.length_pos.mpr hne
  have := List.length_take a.toNat e.mLines
  rw [h1] at this
  simp at this
  omega

theorem RemoveLines_mLines_ne (e : Editor) (a b : Int)
    (hne : e.mLines ≠ []) (h0 : 0 ≤ a) (hab : a ≤ b)
    (hcnt : b - a < (e.mLines.length : Int)) :
    (RemoveLines e a b).mLines ≠ [] := by
  rw [RemoveLines]
  intro hc
  rw [List.append_eq_nil] at hc
  obtain ⟨h1, h2⟩ := hc
  have hlp : 0 < e.mLines.length := List.length_pos.mpr hne
  have hd : e.mLines.length ≤ b.toNat := by
    by_contra hcon
    exact absurd h2 (List.ne_nil_of_length_pos (by
      rw [List.length_drop]
      omega))
  have ht : min a.toNat e.mLines.length = 0 := by
    have := List.length_take a.toNat e.mLines
    rw [h1] at this
    simpa using this.symm
  omega

theorem insertChunk_mLines_ne :
    ∀ (bs : List Byte) (e : Editor) (l ci : Int), e.mLines ≠ [] →
      (insertChunk e l ci bs).1.mLines ≠ []
  | [], _, _, _, h => h
  | b :: bs, e, l, ci, h => by
    rw [insertChunk]
    exact insertChunk_mLines_ne bs _ l (ci + 1)
      (AddGlyphToLine_mLines_ne e l ci b h)

theorem insertTextAtLoop_mLines_ne :
    ∀ (text : List Byte) (e : Editor) (w : Coordinates) (ci : Int) (tl : Nat),
      e.mLines ≠ [] → (insertTextAtLoop e w ci tl text).1.mLines ≠ []
  | [], e, w, ci, tl, h => by
    rw [insertTextAtLoop]
    exact h
  | b :: rest, e, w, ci, tl, h => by
    rw [insertTextAtLoop]
    by_cases h13 : b = 13
    · rw [if_pos h13]
      exact insertTextAtLoop_mLines_ne rest e w ci tl h
    · rw [if_neg h13]
      by_cases h10 : b = 10
      · rw [if_pos h10]
        dsimp only
        split
        · exact insertTextAtLoop_mLines_ne rest _ _ 0 (tl + 1)
            (RemoveGlyphsFromLine_mLines_ne _ _ _ _
              (AddGlyphsToLine_mLines_ne _ _ _ _
                (InsertLine_mLines_ne _ _ h)))
        · exact insertTextAtLoop_mLines_ne rest _ _ 0 (tl + 1)
            (InsertLine_mLines_ne _ _ h)
      · rw [if_neg h10]
        exact insertTextAtLoop_mLines_ne _ _ _ _ _
          (insertChunk_mLines_ne _ e w.mLine ci h)
termination_by text => text.length
decreasing_by
  · simp
  · simp
  · simp
  · have := UTF8CharLength_pos b
    simp only [List.length_drop, List.length_cons]
    omega

theorem InsertTextAt_mLines_ne (e : Editor) (w : Coordinates)
    (v : List Byte) (h : e.mLines ≠ []) :
    (InsertTextAt e w v).1.mLines ≠ [] := by
  rw [InsertTextAt]
  exact insertTextAtLoop_mLines_ne v _ w _ 0 h

theorem deleteRangeCursorLoop_mLines :
    ∀ (e : Editor) (a b : Coordinates) (c : Nat),
      (deleteRangeCursorLoop e a b c).mLines = e.mLines
  | e, a, b, c => by
    rw [deleteRangeCursorLoop]
    split
    · dsimp only
      split
      · exact deleteRangeCursorLoop_mLines e a b (c + 1)
      · split
        · rfl
        · split
          · exact deleteRangeCursorLoop_mLines e a b (c + 1)
          · exact deleteRangeCursorLoop_mLines _ a b (c + 1)
    · rfl
termination_by e a b c => e.mState.mCurrentCursor + 1 - c
decreasing_by
  all_goals have hs : ∀ (ed : Editor) (pos : Coordinates) (cc : Int)
      (cl : Bool), (SetCursorPosition ed pos cc cl).mState.mCurrentCursor =
        ed.mState.mCurrentCursor := fun _ _ _ _ => rfl
  all_goals try simp only [hs]
  all_goals omega

theorem DeleteRange_mLines_ne (e : Editor) (a b : Coordinates)
    (h : e.mLines ≠ []) (h0 : 0 ≤ a.mLine) :
    (DeleteRange e a b).mLines ≠ [] := by
  rw [DeleteRange]
  split
  · exact h
  · dsimp only
    split
    · split
      · exact RemoveGlyphsFromLine_mLines_ne _ _ _ _ h
      · exact RemoveGlyphsFromLine_mLines_ne _ _ _ _ h
    · split
      · apply RemoveLines_mLines_ne_pos
        · rw [deleteRangeCursorLoop_mLines]
          exact AddGlyphsToLine_mLines_ne _ _ _ _
            (RemoveGlyphsFromLine_mLines_ne _ _ _ _
              (RemoveGlyphsFromLine_mLines_ne _ _ _ _ h))
        · omega
      · exact RemoveGlyphsFromLine_mLines_ne _ _ _ _
          (RemoveGlyphsFromLine_mLines_ne _ _ _ _ h)

theorem RemoveGlyphsFromLine_mUndoBuffer (e : Editor) (a b c : Int) :
    (RemoveGlyphsFromLine e a b c).mUndoBuffer = e.mUndoBuffer := by
  rw [RemoveGlyphsFromLine]
  rw [onLineChangedApply_mUndoBuffer]

theorem AddGlyphsToLine_mUndoBuffer (e : Editor) (a b : Int)
    (g : List Byte) : (AddGlyphsToLine e a b g).mUndoBuffer = e.mUndoBuffer := by
  rw [AddGlyphsToLine]
  rw [onLineChangedApply_mUndoBuffer]

theorem AddGlyphToLine_mUndoBuffer (e : Editor) (a b : Int) (g : Byte) :
    (AddGlyphToLine e a b g).mUndoBuffer = e.mUndoBuffer := by
  rw [AddGlyphToLine]
  rw [onLineChangedApply_mUndoBuffer]

theorem InsertLine_mUndoBuffer (e : Editor) (i : Int) :
    (InsertLine e i).mUndoBuffer = e.mUndoBuffer := by
  rw [InsertLine]
  apply foldl_preserves
  intro ed a
  dsimp only
  split <;> rfl

theorem RemoveLines_mUndoBuffer (e : Editor) (a b : Int) :
    (RemoveLines e a b).mUndoBuffer = e.mUndoBuffer := rfl

theorem insertChunk_mUndoBuffer :
    ∀ (bs : List Byte) (e : Editor) (l ci : Int),
      (insertChunk e l ci bs).1.mUndoBuffer = e.mUndoBuffer
  | [], _, _, _ => rfl
  | b :: bs, e, l, ci => by
    rw [insertChunk]
    rw [insertChunk_mUndoBuffer bs _ l (ci + 1), AddGlyphToLine_mUndoBuffer]

theorem insertTextAtLoop_mUndoBuffer :
    ∀ (text : List Byte) (e : Editor) (w : Coordinates) (ci : Int) (tl : Nat),
      (insertTextAtLoop e w ci tl text).1.mUndoBuffer = e.mUndoBuffer
  | [], e, w, ci, tl => by
    rw [insertTextAtLoop]
  | b :: rest, e, w, ci, tl => by
    rw [insertTextAtLoop]
    by_cases h13 : b = 13
    · rw [if_pos h13]
      rw [insertTextAtLoop_mUndoBuffer rest e w ci tl]
    · rw [if_neg h13]
      by_cases h10 : b = 10
      · rw [if_pos h10]
        dsimp only
        split
        · rw [insertTextAtLoop_mUndoBuffer rest _ _ 0 (tl + 1)]
          rw [RemoveGlyphsFromLine_mUndoBuffer, AddGlyphsToLine_mUndoBuffer,
            InsertLine_mUndoBuffer]
        · rw [insertTextAtLoop_mUndoBuffer rest _ _ 0 (tl + 1)]
          rw [InsertLine_mUndoBuffer]
      · rw [if_neg h10]
        rw [insertTextAtLoop_mUndoBuffer _ _ _ _ _]
        rw [insertChunk_mUndoBuffer]
termination_by text => text.length
decreasing_by
  · simp
  · simp
  · simp
  · have := UTF8CharLength_pos b
    simp only [List.length_drop, List.length_cons]
    omega

theorem InsertTextAt_mUndoBuffer (e : Editor) (w : Coordinates)
    (v : List Byte) : (InsertTextAt e w v).1.mUndoBuffer = e.mUndoBuffer := by
  rw [InsertTextAt]
  rw [insertTextAtLoop_mUndoBuffer]
  rfl

theorem deleteRangeCursorLoop_mUndoBuffer :
    ∀ (e : Editor) (a b : Coordinates) (c : Nat),
      (deleteRangeCursorLoop e a b c).mUndoBuffer = e.mUndoBuffer
  | e, a, b, c => by
    rw [deleteRangeCursorLoop]
    split
    · dsimp only
      split
      · exact deleteRangeCursorLoop_mUndoBuffer e a b (c + 1)
      · split
        · rfl
        · split
          · exact deleteRangeCursorLoop_mUndoBuffer e a b (c + 1)
          · exact deleteRangeCursorLoop_mUndoBuffer _ a b (c + 1)
    · rfl
termination_by e a b c => e.mState.mCurrentCursor + 1 - c
decreasing_by
  all_goals have hs : ∀ (ed : Editor) (pos : Coordinates) (cc : Int)
      (cl : Bool), (SetCursorPosition ed pos cc cl).mState.mCurrentCursor =
        ed.mState.mCurrentCursor := fun _ _ _ _ => rfl
  all_goals try simp only [hs]
  all_goals omega

theorem DeleteRange_mUndoBuffer (e : Editor) (a b : Coordinates) :
    (DeleteRange e a b).mUndoBuffer = e.mUndoBuffer := by
  rw [DeleteRange]
  split
  · rfl
  · dsimp only
    split
    · split
      · rw [RemoveGlyphsFromLine_mUndoBuffer]
        rfl
      · rw [RemoveGlyphsFromLine_mUndoBuffer]
        rfl
    · split
      · rw [RemoveLines_mUndoBuffer, deleteRangeCursorLoop_mUndoBuffer,
          AddGlyphsToLine_mUndoBuffer, RemoveGlyphsFromLine_mUndoBuffer,
          RemoveGlyphsFromLine_mUndoBuffer]
        rfl
      · rw [RemoveGlyphsFromLine_mUndoBuffer, RemoveGlyphsFromLine_mUndoBuffer]
        rfl

theorem refreshApplySel_mLines (e1 : Editor) :
    (refreshApplySel e1).mLines = e1.mLines := by
  rw [refreshApplySel]
  split <;> rfl

theorem RefreshFindResults_mLines (e : Editor) (b : Bool) :
    (RefreshFindResults e b).mLines = e.mLines := by
  rw [RefreshFindResults]
  split
  · rfl
  · dsimp only
    split
    · rw [refreshApplySel_mLines]
    · show ({ refreshApplySel _ with
          mFindResults := _, mFindResultIndex := _ } : Editor).mLines = _
      rw [show ∀ (x : Editor) (r : List SearchResult) (i : Int),
          ({ x with mFindResults := r, mFindResultIndex := i } : Editor).mLines
            = x.mLines from fun _ _ _ => rfl]
      rw [refreshApplySel_mLines]

theorem EnsureFindResultsUpToDate_mLines (e : Editor) :
    (EnsureFindResultsUpToDate e).mLines = e.mLines := by
  rw [EnsureFindResultsUpToDate]
  split
  · split <;> rfl
  · split
    · exact RefreshFindResults_mLines e true
    · rfl

theorem InsertTextAtCursor_mLines_ne (e : Editor) (v : List Byte)
    (c : Int) (h : e.mLines ≠ []) :
    (InsertTextAtCursor e v c).mLines ≠ [] := by
  rw [InsertTextAtCursor]
  show (InsertTextAt e _ v).1.mLines ≠ []
  exact InsertTextAt_mLines_ne e _ v h

theorem FocusFindResult_mLines (e : Editor) (i : Int) :
    (FocusFindResult e i).1.mLines = e.mLines := by
  rw [FocusFindResult]
  dsimp only
  split
  · exact EnsureFindResultsUpToDate_mLines e
  · show (SetCursorPosition _ _ _ _).mLines = _
    show (EnsureFindResultsUpToDate e).mLines = e.mLines
    exact EnsureFindResultsUpToDate_mLines e

theorem replaceAllLoop_mLines_ne (sa : Bool) (ss se : Coordinates) :
    ∀ (fuel : Nat) (e : Editor) (reps : Nat) (ls : Coordinates)
      (p : Editor × Nat),
      replaceAllLoop sa ss se e reps ls fuel = some p →
      e.mLines ≠ [] → p.1.mLines ≠ []
  | 0, e, reps, ls, p, hp, h => by
    rw [replaceAllLoop] at hp
    exact absurd hp (by simp)
  | fuel + 1, e, reps, ls, p, hp, h => by
    rw [replaceAllLoop] at hp
    dsimp only at hp
    have hens : (EnsureFindResultsUpToDate e).mLines ≠ [] := by
      rw [EnsureFindResultsUpToDate_mLines]
      exact h
    split at hp
    · obtain rfl := Option.some.inj hp
      exact hens
    · split at hp
      · obtain rfl := Option.some.inj hp
        exact hens
      · split at hp
        · obtain rfl := Option.some.inj hp
          exact hens
        · refine replaceAllLoop_mLines_ne sa ss se fuel _ _ _ p hp ?_
          dsimp only
          split
          · show (InsertTextAtCursor _ _ _).mLines ≠ []
            apply InsertTextAtCursor_mLines_ne
            show (EnsureFindResultsUpToDate e).mLines ≠ []
            exact hens
          · apply InsertTextAtCursor_mLines_ne
            show (EnsureFindResultsUpToDate e).mLines ≠ []
            exact hens

theorem undoStepFold_mLines_ne :
    ∀ (ops : List UndoOperation) (e : Editor)
      (f : Editor → UndoOperation → Editor),
      (∀ ed op, op ∈ ops → ed.mLines ≠ [] → 0 ≤ op.mStart.mLine →
        (f ed op).mLines ≠ []) →
      (∀ op ∈ ops, 0 ≤ op.mStart.mLine) → e.mLines ≠ [] →
      (ops.foldl f e).mLines ≠ []
  | [], e, f, hf, hops, h => h
  | op :: ops, e, f, hf, hops, h => by
    rw [List.foldl_cons]
    exact undoStepFold_mLines_ne ops (f e op) f
      (fun ed o ho => hf ed o (List.mem_cons_of_mem op ho))
      (fun o ho => hops o (List.mem_cons_of_mem op ho))
      (hf e op (List.mem_cons_self op ops) h
        (hops op (List.mem_cons_self op ops)))

theorem UndoRecord_Undo_mLines_ne (r : UndoRecord) (e : Editor)
    (hops : ∀ op ∈ r.mOperations, 0 ≤ op.mStart.mLine)
    (h : e.mLines ≠ []) : (r.Undo e).mLines ≠ [] := by
  rw [UndoRecord.Undo]
  show (List.foldl _ e r.mOperations.reverse).mLines ≠ []
  apply undoStepFold_mLines_ne
  · intro ed op hop hed hopv
    dsimp only
    split
    · exact hed
    · split
      · exact InsertTextAt_mLines_ne ed op.mStart op.mText hed
      · exact DeleteRange_mLines_ne ed op.mStart op.mEnd hed hopv
  · intro op hop
    exact hops op (List.mem_reverse.mp hop)
  · exact h

theorem UndoRecord_Redo_mLines_ne (r : UndoRecord) (e : Editor)
    (hops : ∀ op ∈ r.mOperations, 0 ≤ op.mStart.mLine)
    (h : e.mLines ≠ []) : (r.Redo e).mLines ≠ [] := by
  rw [UndoRecord.Redo]
  show (List.foldl _ e r.mOperations).mLines ≠ []
  apply undoStepFold_mLines_ne
  · intro ed op hop hed hopv
    dsimp only
    split
    · exact hed
    · split
      · exact DeleteRange_mLines_ne ed op.mStart op.mEnd hed hopv
      · exact InsertTextAt_mLines_ne ed op.mStart op.mText hed
  · exact hops
  · exact h

theorem UndoRecord_Undo_mUndoBuffer (r : UndoRecord) (e : Editor) :
    (r.Undo e).mUndoBuffer = e.mUndoBuffer := by
  rw [UndoRecord.Undo]
  show (List.foldl _ e r.mOperations.reverse).mUndoBuffer = e.mUndoBuffer
  apply foldl_preserves
  intro ed op
  dsimp only
  split
  · rfl
  · split
    · exact InsertTextAt_mUndoBuffer ed op.mStart op.mText
    · exact DeleteRange_mUndoBuffer ed op.mStart op.mEnd

theorem UndoRecord_Redo_mUndoBuffer (r : UndoRecord) (e : Editor) :
    (r.Redo e).mUndoBuffer = e.mUndoBuffer := by
  rw [UndoRecord.Redo]
  show (List.foldl _ e r.mOperations).mUndoBuffer = e.mUndoBuffer
  apply foldl_preserves
  intro ed op
  dsimp only
  split
  · rfl
  · split
    · exact DeleteRange_mUndoBuffer ed op.mStart op.mEnd
    · exact InsertTextAt_mUndoBuffer ed op.mStart op.mText

theorem getD_record_valid {buf : List UndoRecord} {i : Nat}
    (hbuf : ∀ r ∈ buf, ∀ op ∈ r.mOperations, 0 ≤ op.mStart.mLine) :
    ∀ op ∈ (buf.getD i default).mOperations, 0 ≤ op.mStart.mLine := by
  rw [List.getD_eq_getElem?_getD]
  rcases h : buf[i]? with _ | r
  · intro op hop
    exact absurd hop (List.not_mem_nil op)
  · exact hbuf r (List.getElem?_mem h)

theorem undoLoop_mLines_ne :
    ∀ (n : Nat) (e : Editor),
      (∀ r ∈ e.mUndoBuffer, ∀ op ∈ r.mOperations, 0 ≤ op.mStart.mLine) →
      e.mLines ≠ [] → (undoLoop e n).mLines ≠ []
  | 0, e, _, h => h
  | n + 1, e, hbuf, h => by
    rw [undoLoop]
    split
    · apply undoLoop_mLines_ne n
      · rw [UndoRecord_Undo_mUndoBuffer]
        exact hbuf
      · exact UndoRecord_Undo_mLines_ne _ _ (getD_record_valid hbuf) h
    · exact h

theorem redoLoop_mLines_ne :
    ∀ (n : Nat) (e : Editor),
      (∀ r ∈ e.mUndoBuffer, ∀ op ∈ r.mOperations, 0 ≤ op.mStart.mLine) →
      e.mLines ≠ [] → (redoLoop e n).mLines ≠ []
  | 0, e, _, h => h
  | n + 1, e, hbuf, h => by
    rw [redoLoop]
    split
    · apply redoLoop_mLines_ne n
      · rw [UndoRecord_Redo_mUndoBuffer]
        exact hbuf
      · exact UndoRecord_Redo_mLines_ne _ _ (getD_record_valid hbuf) h
    · exact h

theorem ReplaceAll_mLines_ne (e : Editor) (fuel : Nat) (p : Editor × Nat)
    (hp : ReplaceAll e fuel = some p) (h : e.mLines ≠ []) :
    p.1.mLines ≠ [] := by
  rw [ReplaceAll] at hp
  split at hp
  · obtain rfl := Option.some.inj hp
    exact h
  · dsimp only at hp
    split at hp
    · obtain rfl := Option.some.inj hp
      show (EnsureFindResultsUpToDate e).mLines ≠ []
      rw [EnsureFindResultsUpToDate_mLines]
      exact h
    · split at hp
      · exact absurd hp (by simp)
      · rename_i e3r hloop
        obtain rfl := Option.some.inj hp
        dsimp only
        split
        · rw [FocusFindResult_mLines, RefreshFindResults_mLines]
          refine replaceAllLoop_mLines_ne _ _ _ fuel _ _ _ _ hloop ?_
          dsimp only
          repeat' split
          all_goals
            first
            | (rw [EnsureFindResultsUpToDate_mLines]; exact h)
            | (show (EnsureFindResultsUpToDate e).mLines ≠ [];
               rw [EnsureFindResultsUpToDate_mLines]; exact h)
        · show (ClearSelections _).mLines ≠ []
          show (RefreshFindResults _ _).mLines ≠ []
          rw [RefreshFindResults_mLines]
          refine replaceAllLoop_mLines_ne _ _ _ fuel _ _ _ _ hloop ?_
          dsimp only
          repeat' split
          all_goals
            first
            | (rw [EnsureFindResultsUpToDate_mLines]; exact h)
            | (show (EnsureFindResultsUpToDate e).mLines ≠ [];
               rw [EnsureFindResultsUpToDate_mLines]; exact h)

/-- Claim C4: the document never becomes empty.  The fresh editor starts with
one line; `SetText`/`SetTextLines` always install at least one line;
insertion, range deletion (at a nonnegative start line, as every caller
passes sanitized coordinates), line removal under its assert
(`mLines.size > 1`, resp. `size > aEnd - aStart`), undo and redo over a
history of recorded operations (whose coordinates are nonnegative, as
recorded), and a terminating `ReplaceAll` all preserve a nonempty line
list. -/
theorem claim_C4_document_never_empty :
    initialEditor.mLines ≠ [] ∧
    (∀ (e : Editor) (t : List Byte), (SetText e t).mLines ≠ []) ∧
    (∀ (e : Editor) (ls : List Line), (SetTextLines e ls).mLines ≠ []) ∧
    (∀ (e : Editor) (w : Coordinates) (v : List Byte), e.mLines ≠ [] →
      (InsertTextAt e w v).1.mLines ≠ []) ∧
    (∀ (e : Editor) (a b : Coordinates), e.mLines ≠ [] → 0 ≤ a.mLine →
      (DeleteRange e a b).mLines ≠ []) ∧
    (∀ (e : Editor) (i : Int), 1 < e.mLines.length →
      (RemoveLine e i).mLines ≠ []) ∧
    (∀ (e : Editor) (a b : Int), e.mLines ≠ [] → 0 ≤ a → a ≤ b →
      b - a < (e.mLines.length : Int) → (RemoveLines e a b).mLines ≠ []) ∧
    (∀ (e : Editor) (k : Int), e.mLines ≠ [] →
      (∀ r ∈ e.mUndoBuffer, ∀ op ∈ r.mOperations, 0 ≤ op.mStart.mLine) →
      (Undo e k).mLines ≠ [] ∧ (Redo e k).mLines ≠ []) ∧
    (∀ (e : Editor) (fuel : Nat) (p : Editor × Nat),
      ReplaceAll e fuel = some p → e.mLines ≠ [] → p.1.mLines ≠ []) := by
  refine ⟨by decide, ?_, ?_, ?_, ?_, ?_, ?_, ?_, ?_⟩
  · intro e t
    exact setTextSplit_ne_nil t
  · intro e ls
    show (if ls = [] then [[]] else ls) ≠ []
    split
    · simp
    · assumption
  · exact InsertTextAt_mLines_ne
  · exact DeleteRange_mLines_ne
  · exact RemoveLine_mLines_ne
  · exact RemoveLines_mLines_ne
  · intro e k h hbuf
    exact ⟨undoLoop_mLines_ne k.toNat e hbuf h,
      redoLoop_mLines_ne k.toNat e hbuf h⟩
  · exact ReplaceAll_mLines_ne

/-- Witness for C4: deleting a whole concrete one-line document keeps one
(empty) line. -/
theorem claim_C4_witness :
    utf8ExampleEditor.mLines ≠ [] ∧
    (0 : Int) ≤ ({ mLine := 0, mColumn := 0 } : Coordinates).mLine ∧
    (DeleteRange utf8ExampleEditor ⟨0, 0⟩ ⟨0, 5⟩).mLines ≠ [] :=
  ⟨by decide, by decide,
    claim_C4_document_never_empty.2.2.2.2.1 utf8ExampleEditor ⟨0, 0⟩ ⟨0, 5⟩
      (by decide) (by decide)⟩


/-- The glyph walk transfers between lines that agree up to the reached
index. -/
theorem reach_transfer {t : Nat} {l1 l2 : Line} :
    ∀ {s s' : Nat × Nat}, ReachFrom t l1 s s' → l1.take s'.1 = l2.take s'.1 →
      s'.1 ≤ l2.length → ReachFrom t l2 s s' := by
  intro s s' h
  induction h with
  | refl s => exact fun _ _ => ReachFrom.refl s
  | step hlt hrest ih =>
    intro hpre hlen
    rename_i s s2
    have hfst : (MoveCharIndexAndColumn t l1 s.1 s.2).1 ≤ s2.1 :=
      hrest.fst_le
    have hmv : s.1 < s2.1 := by
      have := move_fst_lt t l1 s.1 s.2
      omega
    have hgd : l2.getD s.1 0 = l1.getD s.1 0 := by
      have h1 : (l1.take s2.1)[s.1]? = l1[s.1]? :=
        List.getElem?_take_of_lt hmv
      have h2 : (l2.take s2.1)[s.1]? = l2[s.1]? :=
        List.getElem?_take_of_lt hmv
      rw [List.getD_eq_getElem?_getD, List.getD_eq_getElem?_getD,
        ← h1, ← h2, hpre]
    have hmeq : MoveCharIndexAndColumn t l2 s.1 s.2 =
        MoveCharIndexAndColumn t l1 s.1 s.2 := by
      simp only [MoveCharIndexAndColumn, hgd]
    refine ReachFrom.step (by omega) ?_
    rw [hmeq]
    exact ih hpre hlen

/-- Concatenating two well-formed byte sequences stays well formed. -/
theorem wellFormed_append :
    ∀ (a b : List Byte), wellFormedUtf8 a = true → wellFormedUtf8 b = true →
      wellFormedUtf8 (a ++ b) = true
  | [], b, _, hb => hb
  | x :: rest, b, ha, hb => by
    rw [wellFormedUtf8] at ha
    simp only [Bool.and_eq_true, decide_eq_true_eq] at ha
    obtain ⟨⟨hlen, hcont⟩, hwr⟩ := ha
    rw [List.cons_append, wellFormedUtf8]
    simp only [Bool.and_eq_true, decide_eq_true_eq]
    refine ⟨⟨?_, ?_⟩, ?_⟩
    · rw [List.length_append]
      omega
    · rw [List.take_append_of_le_length (by omega)]
      exact hcont
    · rw [List.drop_append_of_le_length (by omega)]
      exact wellFormed_append _ b hwr hb
termination_by a => a.length
decreasing_by
  have := List.length_drop (UTF8CharLength x - 1) rest
  simp only [List.length_cons]
  omega

/-- The first UTF-8 sequence of a well-formed byte list is itself well
formed, and so is the remainder. -/
theorem wellFormed_head_seq {x : Byte} {rest : List Byte}
    (h : wellFormedUtf8 (x :: rest) = true) :
    UTF8CharLength x ≤ rest.length + 1 ∧
    wellFormedUtf8 (x :: rest.take (UTF8CharLength x - 1)) = true ∧
    wellFormedUtf8 (rest.drop (UTF8CharLength x - 1)) = true := by
  rw [wellFormedUtf8] at h
  simp only [Bool.and_eq_true, decide_eq_true_eq] at h
  obtain ⟨⟨hlen, hcont⟩, hwr⟩ := h
  refine ⟨hlen, ?_, hwr⟩
  rw [wellFormedUtf8]
  simp only [Bool.and_eq_true, decide_eq_true_eq]
  refine ⟨⟨?_, ?_⟩, ?_⟩
  · rw [List.length_take]
    omega
  · rw [List.take_take, Nat.min_self]
    exact hcont
  · rw [List.drop_take, Nat.sub_self]
    simp [wellFormedUtf8]

/-- Up to a reached byte index, a well-formed line is a concatenation of
complete sequences. -/
theorem wellFormed_take_reach {t : Nat} {line : Line} :
    ∀ {s s' : Nat × Nat}, ReachFrom t line s s' → s.1 ≤ line.length →
      wellFormedUtf8 (line.drop s.1) = true →
      wellFormedUtf8 (line.take s.1) = true →
      wellFormedUtf8 (line.take s'.1) = true := by
  intro s s' h
  induction h with
  | refl s => exact fun _ _ h => h
  | step hlt hrest ih =>
    intro hle hdrop htake
    rename_i s s2
    have hdropeq : line.drop s.1 = line.getD s.1 0 :: line.drop (s.1 + 1) := by
      rw [List.getD_eq_getElem?_getD, List.getElem?_eq_getElem hlt]
      exact List.drop_eq_getElem_cons hlt
    rw [hdropeq] at hdrop
    obtain ⟨hdl, hseq, hrest'⟩ := wellFormed_head_seq hdrop
    have hlendrop : (line.drop (s.1 + 1)).length = line.length - s.1 - 1 := by
      rw [List.length_drop]
      omega
    have hfst : (MoveCharIndexAndColumn t line s.1 s.2).1 =
        s.1 + UTF8CharLength (line.getD s.1 0) := rfl
    have hdle : UTF8CharLength (line.getD s.1 0) ≤ line.length - s.1 := by
      rw [List.length_drop] at hdl
      omega
    refine ih ?_ ?_ ?_
    · rw [hfst]
      omega
    · rw [hfst]
      have : line.drop (s.1 + UTF8CharLength (line.getD s.1 0)) =
          (line.drop (s.1 + 1)).drop (UTF8CharLength (line.getD s.1 0) - 1) := by
        rw [List.drop_drop]
        congr 1
        have := UTF8CharLength_pos (line.getD s.1 0)
        omega
      rw [this]
      exact hrest'
    · rw [hfst]
      have hsplit : line.take (s.1 + UTF8CharLength (line.getD s.1 0)) =
          line.take s.1 ++ (line.getD s.1 0 ::
            (line.drop (s.1 + 1)).take (UTF8CharLength (line.getD s.1 0) - 1)) := by
        have h1 : line.take (s.1 + UTF8CharLength (line.getD s.1 0)) =
            line.take s.1 ++ ((line.drop s.1).take (UTF8CharLength (line.getD s.1 0))) := by
          rw [← List.take_append_drop s.1 (line.take (s.1 + UTF8CharLength (line.getD s.1 0)))]
          congr 1
          · rw [List.take_take]
            congr 1
            omega
          · rw [List.drop_take]
            congr 1
            omega
        rw [h1, hdropeq]
        congr 1
        rw [List.take_cons (by
          have := UTF8CharLength_pos (line.getD s.1 0)
          omega : 0 < UTF8CharLength (line.getD s.1 0))]
      rw [hsplit]
      exact wellFormed_append _ _ htake hseq

/-- The glyph walk crosses a well-formed slice of the line, landing exactly at
its end. -/
theorem reach_segment {t : Nat} :
    ∀ (n : Nat) (line : Line) (i c : Nat),
      wellFormedUtf8 ((line.drop i).take n) = true → i + n ≤ line.length →
      ∃ c2, ReachFrom t line (i, c) (i + n, c2)
  | 0, line, i, c, _, _ => ⟨c, by simpa using ReachFrom.refl (i, c)⟩
  | n + 1, line, i, c, hwf, hlen => by
    have hi : i < line.length := by omega
    have hdropeq : line.drop i = line.getD i 0 :: line.drop (i + 1) := by
      rw [List.getD_eq_getElem?_getD, List.getElem?_eq_getElem hi]
      exact List.drop_eq_getElem_cons hi
    rw [hdropeq, List.take_cons (by omega : 0 < n + 1)] at hwf
    obtain ⟨hdl, hseq, hrest⟩ := wellFormed_head_seq hwf
    have hpos := UTF8CharLength_pos (line.getD i 0)
    have hdn : UTF8CharLength (line.getD i 0) ≤ n + 1 := by
      rw [List.length_take, List.length_drop] at hdl
      omega
    have hrest2 : wellFormedUtf8 ((line.drop
        (i + UTF8CharLength (line.getD i 0))).take
        (n + 1 - UTF8CharLength (line.getD i 0))) = true := by
      have he : ((line.drop (i + 1)).take n).drop
          (UTF8CharLength (line.getD i 0) - 1) =
          (line.drop (i + UTF8CharLength (line.getD i 0))).take
            (n + 1 - UTF8CharLength (line.getD i 0)) := by
        rw [List.drop_take, List.drop_drop]
        congr 1
        · omega
        · congr 1
          omega
      rw [← he]
      exact hrest
    obtain ⟨c2, hc2⟩ := reach_segment
      (n + 1 - UTF8CharLength (line.getD i 0)) line
      (i + UTF8CharLength (line.getD i 0))
      ((MoveCharIndexAndColumn t line i c).2) hrest2 (by omega)
    refine ⟨c2, ?_⟩
    have hiend : i + UTF8CharLength (line.getD i 0) +
        (n + 1 - UTF8CharLength (line.getD i 0)) = i + (n + 1) := by
      omega
    rw [hiend] at hc2
    refine ReachFrom.step hi ?_
    have hmv : MoveCharIndexAndColumn t line i c =
        (i + UTF8CharLength (line.getD i 0),
         (MoveCharIndexAndColumn t line i c).2) := rfl
    rw [hmv]
    exact hc2
termination_by n => n
decreasing_by
  omega

theorem set_getD_self {α : Type} : ∀ (l : List α) (i : Nat) (d : α),
    i < l.length → l.set i (l.getD i d) = l
  | a :: l, 0, d, _ => by simp [List.getD]
  | a :: l, i + 1, d, h => by
    simp only [List.getD_cons_succ, List.set_cons_succ, List.cons.injEq, true_and]
    exact set_getD_self l i d (by simpa using Nat.lt_of_succ_lt_succ h)

theorem InsertLine_mLines_val (e : Editor) (i : Int) :
    (InsertLine e i).mLines = e.mLines.insertIdx i.toNat [] := by
  rw [InsertLine]
  apply foldl_preserves
  intro ed a
  dsimp only
  split <;> rfl

theorem AddGlyphsToLine_mLines_val (e : Editor) (a b : Int) (g : List Byte) :
    (AddGlyphsToLine e a b g).mLines = e.mLines.set a.toNat
      ((e.mLines.getD a.toNat []).take b.toNat ++ g ++
        (e.mLines.getD a.toNat []).drop b.toNat) := by
  rw [AddGlyphsToLine]
  rw [onLineChangedApply_mLines]

theorem AddGlyphToLine_mLines_val (e : Editor) (a b : Int) (g : Byte) :
    (AddGlyphToLine e a b g).mLines = e.mLines.set a.toNat
      ((e.mLines.getD a.toNat []).take b.toNat ++ g ::
        (e.mLines.getD a.toNat []).drop b.toNat) := by
  rw [AddGlyphToLine]
  rw [onLineChangedApply_mLines]

theorem RemoveGlyphsFromLine_mLines_val (e : Editor) (a b c : Int) :
    (RemoveGlyphsFromLine e a b c).mLines = e.mLines.set a.toNat
      (if c = -1 then (e.mLines.getD a.toNat []).take b.toNat
       else (e.mLines.getD a.toNat []).take b.toNat ++
         (e.mLines.getD a.toNat []).drop c.toNat) := by
  rw [RemoveGlyphsFromLine]
  rw [onLineChangedApply_mLines]

theorem onLineChangedApply_mTabSize (e : Editor) (aLine : Int)
    (ps : List (Nat × Int)) : (onLineChangedApply e aLine ps).mTabSize =
      e.mTabSize := by
  rw [onLineChangedApply]
  apply foldl_preserves
  intro ed a
  rfl

theorem AddGlyphToLine_mTabSize (e : Editor) (a b : Int) (g : Byte) :
    (AddGlyphToLine e a b g).mTabSize = e.mTabSize := by
  rw [AddGlyphToLine]
  rw [onLineChangedApply_mTabSize]

theorem AddGlyphsToLine_mTabSize (e : Editor) (a b : Int) (g : List Byte) :
    (AddGlyphsToLine e a b g).mTabSize = e.mTabSize := by
  rw [AddGlyphsToLine]
  rw [onLineChangedApply_mTabSize]

theorem RemoveGlyphsFromLine_mTabSize (e : Editor) (a b c : Int) :
    (RemoveGlyphsFromLine e a b c).mTabSize = e.mTabSize := by
  rw [RemoveGlyphsFromLine]
  rw [onLineChangedApply_mTabSize]

theorem InsertLine_mTabSize (e : Editor) (i : Int) :
    (InsertLine e i).mTabSize = e.mTabSize := by
  rw [InsertLine]
  apply foldl_preserves
  intro ed a
  dsimp only
  split <;> rfl

theorem insertChunk_shape :
    ∀ (bs : List Byte) (e : Editor) (L ci : Nat), L < e.mLines.length →
      ci ≤ (e.mLines.getD L []).length →
      (insertChunk e (L : Int) (ci : Int) bs).1.mLines =
        e.mLines.set L ((e.mLines.getD L []).take ci ++ bs ++
          (e.mLines.getD L []).drop ci) ∧
      (insertChunk e (L : Int) (ci : Int) bs).2 = ((ci + bs.length : Nat) : Int) ∧
      (insertChunk e (L : Int) (ci : Int) bs).1.mTabSize = e.mTabSize
  | [], e, L, ci, hL, hci => by
    rw [insertChunk]
    refine ⟨?_, by simp, rfl⟩
    rw [List.append_nil, List.take_append_drop]
    exact (set_getD_self e.mLines L [] hL).symm
  | b :: bs, e, L, ci, hL, hci => by
    rw [insertChunk]
    have hval := AddGlyphToLine_mLines_val e L ci b
    have htab := AddGlyphToLine_mTabSize e L ci b
    simp only [Int.toNat_natCast] at hval
    have hlen2 : L < (AddGlyphToLine e (L : Int) (ci : Int) b).mLines.length := by
      rw [hval]
      simpa using hL
    have hgd2 : (AddGlyphToLine e (L : Int) (ci : Int) b).mLines.getD L [] =
        (e.mLines.getD L []).take ci ++ b ::
          (e.mLines.getD L []).drop ci := by
      rw [hval]
      rw [List.getD_eq_getElem?_getD]
      rw [List.getElem?_set_self (by simpa using hL)]
      rfl
    have hci2 : ci + 1 ≤ ((AddGlyphToLine e (L : Int) (ci : Int) b).mLines.getD L []).length := by
      rw [hgd2, List.length_append, List.length_take, List.length_cons]
      omega
    have hrec := insertChunk_shape bs (AddGlyphToLine e (L : Int) (ci : Int) b) L (ci + 1)
      hlen2 hci2
    have hcast : ((ci : Int) + 1) = (((ci + 1 : Nat)) : Int) := by push_cast; omega
    rw [hcast]
    refine ⟨?_, ?_, ?_⟩
    · rw [hrec.1, hgd2, hval]
      rw [List.set_set]
      congr 1
      have hAlen : ((e.mLines.getD L []).take ci).length = ci := by
        rw [List.length_take]
        omega
      have h1 : ci + 1 - ci = 1 := by omega
      have hTake : ((e.mLines.getD L []).take ci ++ b ::
          (e.mLines.getD L []).drop ci).take (ci + 1) =
          (e.mLines.getD L []).take ci ++ [b] := by
        rw [List.take_append_eq_append_take, hAlen, h1]
        rw [List.take_all_of_le (le_of_eq_of_le hAlen (by omega))]
        simp
      have hDrop : ((e.mLines.getD L []).take ci ++ b ::
          (e.mLines.getD L []).drop ci).drop (ci + 1) =
          (e.mLines.getD L []).drop ci := by
        rw [List.drop_append_eq_append_drop, hAlen, h1]
        rw [List.drop_eq_nil_of_le (le_of_eq_of_le hAlen (by omega))]
        simp
      rw [hTake, hDrop]
      simp
    · rw [hrec.2.1, List.length_cons]
      push_cast
      omega
    · rw [hrec.2.2, htab]

theorem getD_app_cons {α : Type} : ∀ (A : List α) (x : α) (B : List α) (d : α),
    (A ++ x :: B).getD A.length d = x
  | [], x, B, d => rfl
  | a :: A, x, B, d => getD_app_cons A x B d

theorem set_app_cons {α : Type} : ∀ (A : List α) (x v : α) (B : List α),
    (A ++ x :: B).set A.length v = A ++ v :: B
  | [], x, v, B => rfl
  | a :: A, x, v, B => by
    simp only [List.cons_append, List.length_cons, List.set_cons_succ]
    rw [set_app_cons A x v B]

theorem take_app_cons {α : Type} : ∀ (A : List α) (x : α) (B : List α),
    (A ++ x :: B).take A.length = A
  | [], x, B => rfl
  | a :: A, x, B => by
    simp only [List.cons_append, List.length_cons, List.take_succ_cons]
    rw [take_app_cons A x B]

theorem take_app_cons_succ {α : Type} : ∀ (A : List α) (x : α) (B : List α),
    (A ++ x :: B).take (A.length + 1) = A ++ [x]
  | [], x, B => rfl
  | a :: A, x, B => by
    simp only [List.cons_append, List.length_cons, List.take_succ_cons]
    rw [take_app_cons_succ A x B]

theorem drop_app_cons_succ {α : Type} : ∀ (A : List α) (x : α) (B : List α),
    (A ++ x :: B).drop (A.length + 1) = B
  | [], x, B => rfl
  | a :: A, x, B => by
    simp only [List.cons_append, List.length_cons, List.drop_succ_cons]
    exact drop_app_cons_succ A x B

theorem insertIdx_app_cons_succ {α : Type} :
    ∀ (A : List α) (x : α) (B : List α) (v : α),
      (A ++ x :: B).insertIdx (A.length + 1) v = A ++ x :: v :: B
  | [], x, B, v => rfl
  | a :: A, x, B, v => by
    simp only [List.cons_append, List.length_cons, List.insertIdx_succ_cons]
    rw [insertIdx_app_cons_succ A x B v]

theorem lines_decomp {A : Type} (X : List (List A)) (L : Nat)
    (h : L < X.length) :
    X = X.take L ++ X.getD L [] :: X.drop (L + 1) ∧ (X.take L).length = L := by
  constructor
  · rw [List.getD_eq_getElem?_getD, List.getElem?_eq_getElem h]
    dsimp only [Option.getD_some]
    rw [← List.drop_eq_getElem_cons h, List.take_append_drop]
  · rw [List.length_take]
    omega

/-- The glyph walk is deterministic: two reached states with the same byte
index have the same column. -/
theorem reach_unique {t : Nat} {line : Line} :
    ∀ {s x y : Nat × Nat}, ReachFrom t line s x → ReachFrom t line s y →
      x.1 = y.1 → x = y
  | s, x, y, hx, hy, heq => by
    cases hx with
    | refl =>
      cases hy with
      | refl => rfl
      | step hlt hrest =>
        exfalso
        have h1 := move_fst_lt t line s.1 s.2
        have h2 := hrest.fst_le
        omega
    | step hlt hrest =>
      cases hy with
      | refl =>
        exfalso
        have h1 := move_fst_lt t line s.1 s.2
        have h2 := hrest.fst_le
        omega
      | step hlt2 hrest2 => exact reach_unique hrest hrest2 heq
termination_by s x _ _ _ _ => x.1 - s.1
decreasing_by
  have h1 := move_fst_lt t line s.1 s.2
  have h2 := hrest.fst_le
  omega

/-- The lines produced by inserting split segments `segs` between a line
prefix `pre` and suffix `suf`. -/
def buildLines (pre suf : Line) : List Line → List Line
  | [] => [pre ++ suf]
  | [s] => [pre ++ s ++ suf]
  | s :: ss => (pre ++ s) :: buildLines [] suf ss

/-- The last segment of a split. -/
def lastSeg : List Line → Line
  | [] => []
  | [s] => s
  | _ :: ss => lastSeg ss

theorem lastSeg_cons_ne {s : Line} {ss : List Line} (h : ss ≠ []) :
    lastSeg (s :: ss) = lastSeg ss := by
  cases ss with
  | nil => exact absurd rfl h
  | cons a as => rfl

theorem buildLines_prepend (pre w suf : Line) (h : Line) (ts : List Line) :
    buildLines (pre ++ w) suf (h :: ts) = buildLines pre suf ((w ++ h) :: ts) := by
  cases ts <;> simp [buildLines, List.append_assoc]

theorem buildLines_tail_decomp (suf : Line) :
    ∀ (ts : List Line), ts ≠ [] →
      ∃ mid : List Line, buildLines [] suf ts = mid ++ [lastSeg ts ++ suf] ∧
        mid.length = ts.length - 1
  | [], h => absurd rfl h
  | [s], _ => ⟨[], by simp [buildLines, lastSeg], rfl⟩
  | s :: s' :: ss, _ => by
    obtain ⟨mid, hm, hl⟩ := buildLines_tail_decomp suf (s' :: ss) (by simp)
    refine ⟨s :: mid, ?_, ?_⟩
    · show ([] ++ s) :: buildLines [] suf (s' :: ss) = _
      rw [hm]
      simp [lastSeg]
    · simp only [List.length_cons] at hl ⊢
      omega

/-- A carriage-return-free text whose split is the single empty segment is
empty. -/
theorem setTextSplit_single_nil :
    ∀ (u : List Byte), (∀ b ∈ u, b ≠ 13) → setTextSplit u = [[]] → u = []
  | [], _, _ => rfl
  | b :: rest, hcr, hs => by
    exfalso
    rw [setTextSplit] at hs
    rw [if_neg (hcr b (List.mem_cons_self b rest))] at hs
    by_cases hb10 : b = 10
    · rw [if_pos hb10] at hs
      have := setTextSplit_ne_nil rest
      simp only [List.cons.injEq] at hs
      exact this hs.2
    · rw [if_neg hb10] at hs
      rcases hsp : setTextSplit rest with _ | ⟨l, ls⟩
      · exact setTextSplit_ne_nil rest hsp
      · rw [hsp] at hs
        simp at hs

theorem buildLines_cons_ne (pre suf s : Line) {ss : List Line} (h : ss ≠ []) :
    buildLines pre suf (s :: ss) = (pre ++ s) :: buildLines [] suf ss := by
  cases ss with
  | nil => exact absurd rfl h
  | cons a as => rfl

set_option maxHeartbeats 1000000 in
/-- Full value-level shape of the insert loop: on a carriage-return-free
well-formed text it splices the split segments of the text into the target
line at the given byte index, and lands at the end of the last segment. -/
theorem insertTextAtLoop_shape :
    ∀ (u : List Byte) (e : Editor) (A B : List Line) (line : Line)
      (i cc tl : Nat),
      e.mLines = A ++ line :: B →
      i ≤ line.length →
      (∀ b ∈ u, b ≠ 13) →
      wellFormedUtf8 u = true →
      1 ≤ e.mTabSize →
      ReachFrom e.mTabSize line (0, 0) (i, cc) →
      (insertTextAtLoop e ⟨(A.length : Int), (cc : Int)⟩ (i : Int) tl
          u).1.mLines =
        A ++ buildLines (line.take i) (line.drop i) (setTextSplit u) ++ B ∧
      (insertTextAtLoop e ⟨(A.length : Int), (cc : Int)⟩ (i : Int) tl
          u).1.mTabSize = e.mTabSize ∧
      ∃ cF : Nat,
        (insertTextAtLoop e ⟨(A.length : Int), (cc : Int)⟩ (i : Int) tl
            u).2.1 =
          ⟨((A.length + (setTextSplit u).length - 1 : Nat) : Int),
            (cF : Int)⟩ ∧
        ReachFrom e.mTabSize
          ((if (setTextSplit u).length = 1 then line.take i else []) ++
            lastSeg (setTextSplit u) ++ line.drop i) (0, 0)
          ((if (setTextSplit u).length = 1 then i else 0) +
            (lastSeg (setTextSplit u)).length, cF)
  | [], e, A, B, line, i, cc, tl => by
    intro hX hi hcr hwf htab hreach
    rw [insertTextAtLoop]
    refine ⟨?_, rfl, cc, ?_, ?_⟩
    · rw [hX]
      simp [setTextSplit, buildLines]
    · simp [setTextSplit]
    · simpa [setTextSplit, lastSeg, List.take_append_drop] using hreach
  | b :: rest, e, A, B, line, i, cc, tl => by
    intro hX hi hcr hwf htab hreach
    have hb13 : b ≠ 13 := hcr b (List.mem_cons_self b rest)
    have hrest13 : ∀ x ∈ rest, x ≠ 13 :=
      fun x hx => hcr x (List.mem_cons_of_mem b hx)
    rw [insertTextAtLoop, if_neg hb13]
    by_cases hb10 : b = 10
    · subst hb10
      rw [if_pos rfl]
      have hwfrest : wellFormedUtf8 rest = true := by
        obtain ⟨_, _, h3⟩ := wellFormed_head_seq hwf
        rw [show UTF8CharLength 10 = 1 from by decide] at h3
        simpa using h3
      dsimp only
      simp only [Int.toNat_natCast]
      rw [hX, getD_app_cons]
      have htn1 : ((A.length : Int) + 1).toNat = A.length + 1 := by omega
      suffices hsuf : ∀ e1 : Editor,
          e1.mLines = A ++ line.take i :: line.drop i :: B →
          e1.mTabSize = e.mTabSize →
          (insertTextAtLoop e1 ⟨(A.length : Int) + 1, 0⟩ 0 (tl + 1)
              rest).1.mLines =
            A ++ buildLines (line.take i) (line.drop i)
              (setTextSplit (10 :: rest)) ++ B ∧
          (insertTextAtLoop e1 ⟨(A.length : Int) + 1, 0⟩ 0 (tl + 1)
              rest).1.mTabSize = e.mTabSize ∧
          ∃ cF : Nat,
            (insertTextAtLoop e1 ⟨(A.length : Int) + 1, 0⟩ 0 (tl + 1)
                rest).2.1 =
              ⟨((A.length + (setTextSplit (10 :: rest)).length - 1 : Nat) :
                  Int), (cF : Int)⟩ ∧
            ReachFrom e.mTabSize
              ((if (setTextSplit (10 :: rest)).length = 1 then line.take i
                  else []) ++ lastSeg (setTextSplit (10 :: rest)) ++
                line.drop i) (0, 0)
              ((if (setTextSplit (10 :: rest)).length = 1 then i else 0) +
                (lastSeg (setTextSplit (10 :: rest))).length, cF)
      · by_cases hil : i < line.length
        · rw [if_pos (by exact_mod_cast hil)]
          have hIL : (InsertLine e ((A.length : Int) + 1)).mLines =
              A ++ line :: [] :: B := by
            rw [InsertLine_mLines_val, hX, htn1, insertIdx_app_cons_succ]
          have hgl : ((InsertLine e ((A.length : Int) + 1)).mLines.getD
              A.length []).drop i = line.drop i := by
            rw [hIL, getD_app_cons]
          rw [hgl]
          refine hsuf _ ?_ ?_
          · rw [RemoveGlyphsFromLine_mLines_val, if_pos rfl]
            simp only [Int.toNat_natCast]
            have hAG : (AddGlyphsToLine (InsertLine e ((A.length : Int) + 1))
                ((A.length : Int) + 1) 0 (line.drop i)).mLines =
                A ++ line :: line.drop i :: B := by
              rw [AddGlyphsToLine_mLines_val, htn1, hIL]
              rw [List.append_cons A line ([] :: B)]
              have hlen1 : (A ++ [line]).length = A.length + 1 := by simp
              rw [← hlen1, getD_app_cons, set_app_cons]
              simp [List.append_assoc]
            rw [hAG, getD_app_cons, set_app_cons]
          · rw [RemoveGlyphsFromLine_mTabSize, AddGlyphsToLine_mTabSize,
              InsertLine_mTabSize]
        · rw [if_neg (by push_cast; omega)]
          have hieq : i = line.length := by omega
          refine hsuf _ ?_ ?_
          · rw [InsertLine_mLines_val, hX, htn1, insertIdx_app_cons_succ,
              hieq]
            simp
          · rw [InsertLine_mTabSize]
      intro e1 hL1 hT1
      have hres := insertTextAtLoop_shape rest e1 (A ++ [line.take i]) B
        (line.drop i) 0 0 (tl + 1) (by rw [hL1]; simp) (Nat.zero_le _)
        hrest13 hwfrest (by rw [hT1]; exact htab) (ReachFrom.refl _)
      rw [hT1] at hres
      have hA1 : (((A ++ [line.take i]).length : Nat) : Int) =
          (A.length : Int) + 1 := by
        rw [List.length_append, List.length_singleton]
        push_cast
        ring
      simp only [hA1, Nat.cast_zero, List.take_zero, List.drop_zero,
        ite_self, Nat.zero_add, List.nil_append] at hres
      rcases hsp : setTextSplit rest with _ | ⟨h1, t1⟩
      · exact absurd hsp (setTextSplit_ne_nil rest)
      rw [hsp] at hres
      have hsp10 : setTextSplit (10 :: rest) = [] :: h1 :: t1 := by
        rw [setTextSplit, if_neg (by decide), if_pos rfl, hsp]
      rw [hsp10]
      have hlen2 : ¬ (([] :: h1 :: t1 : List Line).length = 1) := by simp
      refine ⟨?_, hres.2.1, ?_⟩
      · rw [buildLines_cons_ne _ _ _ (by simp : (h1 :: t1 : List Line) ≠ []),
          hres.1]
        simp [List.append_assoc]
      · obtain ⟨cF, hco, hre⟩ := hres.2.2
        refine ⟨cF, ?_, ?_⟩
        · rw [hco]
          have harith : (A ++ [line.take i]).length + (h1 :: t1).length - 1 =
              A.length + ([] :: h1 :: t1 : List Line).length - 1 := by
            simp only [List.length_append, List.length_singleton,
              List.length_cons, List.length_nil]
            omega
          rw [harith]
        · simp only [if_neg hlen2,
            lastSeg_cons_ne (by simp : (h1 :: t1 : List Line) ≠ [])]
          simp only [List.nil_append, Nat.zero_add]
          exact hre
    · rw [if_neg hb10]
      dsimp only
      have hd1 : 1 ≤ UTF8CharLength b := UTF8CharLength_pos b
      obtain ⟨hdle, hwfc, hwfr⟩ := wellFormed_head_seq hwf
      have hchunk : (b :: rest).take (UTF8CharLength b) =
          b :: rest.take (UTF8CharLength b - 1) := by
        rcases hUd : UTF8CharLength b with _ | k
        · omega
        · simp [List.take_succ_cons]
      have hdropc : (b :: rest).drop (UTF8CharLength b) =
          rest.drop (UTF8CharLength b - 1) := by
        rcases hUd : UTF8CharLength b with _ | k
        · omega
        · simp [List.drop_succ_cons]
      have hlenc : ((b :: rest).take (UTF8CharLength b)).length =
          UTF8CharLength b := by
        rw [List.length_take, List.length_cons]
        omega
      have hall : (rest.take (UTF8CharLength b - 1)).all isUtf8ContByte =
          true := by
        rw [wellFormedUtf8] at hwf
        simp only [Bool.and_eq_true] at hwf
        exact hwf.1.2
      have hchunkclean : ∀ x ∈ (b :: rest).take (UTF8CharLength b),
          x ≠ 10 ∧ x ≠ 13 := by
        intro x hx
        rw [hchunk] at hx
        rcases List.mem_cons.mp hx with hxe | hxm
        · subst hxe
          exact ⟨hb10, hb13⟩
        · obtain ⟨_, h10, h13⟩ :=
            contByte_facts (List.all_eq_true.mp hall x hxm)
          exact ⟨h10, h13⟩
      have hgdL : e.mLines.getD A.length [] = line := by
        rw [hX, getD_app_cons]
      obtain ⟨hCkL, hCk2, hCkT⟩ := insertChunk_shape
        ((b :: rest).take (UTF8CharLength b)) e A.length i
        (by rw [hX]; simp) (by rw [hgdL]; exact hi)
      rw [hgdL] at hCkL
      rw [hX, set_app_cons] at hCkL
      rw [hlenc] at hCk2
      have hpre_len : (line.take i).length = i := by
        rw [List.length_take]
        omega
      have hlenNL : (line.take i ++ (b :: rest).take (UTF8CharLength b) ++
          line.drop i).length = line.length + UTF8CharLength b := by
        rw [List.length_append, List.length_append, hpre_len, hlenc,
          List.length_drop]
        omega
      have htr : ReachFrom e.mTabSize (line.take i ++
          (b :: rest).take (UTF8CharLength b) ++ line.drop i) (0, 0)
          (i, cc) := by
        refine reach_transfer hreach ?_ ?_
        · dsimp only
          rw [List.append_assoc, List.take_left' hpre_len]
        · dsimp only
          rw [hlenNL]
          omega
      obtain ⟨c2, hreach2⟩ := reach_segment (UTF8CharLength b)
        (line.take i ++ (b :: rest).take (UTF8CharLength b) ++ line.drop i)
        i cc
        (by rw [List.append_assoc, List.drop_left' hpre_len,
              List.take_left' hlenc, hchunk]
            exact hwfc)
        (by rw [hlenNL]; omega)
      have hreachNL : ReachFrom e.mTabSize (line.take i ++
          (b :: rest).take (UTF8CharLength b) ++ line.drop i) (0, 0)
          (i + UTF8CharLength b, c2) := htr.trans hreach2
      have hcol : GetCharacterColumn
          (insertChunk e (A.length : Int) (i : Int)
            ((b :: rest).take (UTF8CharLength b))).1.mTabSize
          (insertChunk e (A.length : Int) (i : Int)
            ((b :: rest).take (UTF8CharLength b))).1.mLines
          ((A.length : Int))
          (insertChunk e (A.length : Int) (i : Int)
            ((b :: rest).take (UTF8CharLength b))).2 = c2 := by
        rw [hCkT, hCk2, hCkL]
        refine GetCharacterColumn_reach (Int.natCast_nonneg _) ?_ ?_
        · rw [List.length_append, List.length_cons]
          push_cast
          omega
        · simp only [Int.toNat_natCast]
          rw [getD_app_cons]
          exact hreachNL
      suffices hsuf : ∀ e1 : Editor,
          e1.mLines = A ++ (line.take i ++
            (b :: rest).take (UTF8CharLength b) ++ line.drop i) :: B →
          e1.mTabSize = e.mTabSize →
          (insertTextAtLoop e1 ⟨(A.length : Int), (c2 : Int)⟩
              ((i + UTF8CharLength b : Nat) : Int) tl
              (rest.drop (UTF8CharLength b - 1))).1.mLines =
            A ++ buildLines (line.take i) (line.drop i)
              (setTextSplit (b :: rest)) ++ B ∧
          (insertTextAtLoop e1 ⟨(A.length : Int), (c2 : Int)⟩
              ((i + UTF8CharLength b : Nat) : Int) tl
              (rest.drop (UTF8CharLength b - 1))).1.mTabSize = e.mTabSize ∧
          ∃ cF : Nat,
            (insertTextAtLoop e1 ⟨(A.length : Int), (c2 : Int)⟩
                ((i + UTF8CharLength b : Nat) : Int) tl
                (rest.drop (UTF8CharLength b - 1))).2.1 =
              ⟨((A.length + (setTextSplit (b :: rest)).length - 1 : Nat) :
                  Int), (cF : Int)⟩ ∧
            ReachFrom e.mTabSize
              ((if (setTextSplit (b :: rest)).length = 1 then line.take i
                  else []) ++ lastSeg (setTextSplit (b :: rest)) ++
                line.drop i) (0, 0)
              ((if (setTextSplit (b :: rest)).length = 1 then i else 0) +
                (lastSeg (setTextSplit (b :: rest))).length, cF)
      · rw [hdropc, hcol, hCk2]
        exact hsuf _ hCkL hCkT
      intro e1 hL1 hT1
      have hres := insertTextAtLoop_shape (rest.drop (UTF8CharLength b - 1))
        e1 A B
        (line.take i ++ (b :: rest).take (UTF8CharLength b) ++ line.drop i)
        (i + UTF8CharLength b) c2 tl hL1
        (by rw [hlenNL]; omega)
        (fun x hx => hrest13 x (List.mem_of_mem_drop hx)) hwfr
        (by rw [hT1]; exact htab) (by rw [hT1]; exact hreachNL)
      rw [hT1] at hres
      rcases hsp : setTextSplit (rest.drop (UTF8CharLength b - 1)) with
        _ | ⟨h1, t1⟩
      · exact absurd hsp (setTextSplit_ne_nil _)
      rw [hsp] at hres
      have hsplit : setTextSplit (b :: rest) =
          ((b :: rest).take (UTF8CharLength b) ++ h1) :: t1 := by
        conv_lhs => rw [show b :: rest =
          (b :: rest).take (UTF8CharLength b) ++
            (b :: rest).drop (UTF8CharLength b) from
          (List.take_append_drop _ _).symm]
        rw [setTextSplit_prepend _ _ hchunkclean, hdropc, hsp]
        simp
      rw [hsplit]
      have hNLtake : (line.take i ++ (b :: rest).take (UTF8CharLength b) ++
          line.drop i).take (i + UTF8CharLength b) =
          line.take i ++ (b :: rest).take (UTF8CharLength b) := by
        rw [List.take_left' (by rw [List.length_append, hpre_len, hlenc])]
      have hNLdrop : (line.take i ++ (b :: rest).take (UTF8CharLength b) ++
          line.drop i).drop (i + UTF8CharLength b) = line.drop i := by
        rw [List.drop_left' (by rw [List.length_append, hpre_len, hlenc])]
      rw [hNLtake, hNLdrop] at hres
      have hlen12 : (h1 :: t1 : List Line).length =
          (((b :: rest).take (UTF8CharLength b) ++ h1) :: t1 :
            List Line).length := by simp
      refine ⟨?_, hres.2.1, ?_⟩
      · rw [hres.1, buildLines_prepend]
      · obtain ⟨cF, hco, hre⟩ := hres.2.2
        refine ⟨cF, by rw [← hlen12]; exact hco, ?_⟩
        by_cases ht1 : t1 = []
        · subst ht1
          have hc1 : ((((b :: rest).take (UTF8CharLength b) ++ h1) :: [] :
              List Line)).length = 1 := rfl
          have hc2 : ((h1 :: [] : List Line)).length = 1 := rfl
          rw [if_pos hc1, if_pos hc1]
          rw [if_pos hc2, if_pos hc2] at hre
          simp only [lastSeg] at hre ⊢
          convert hre using 2
          · simp [List.append_assoc]
          · rw [List.length_append, hlenc]
            omega
        · have ht1len : t1.length ≠ 0 := fun h => ht1 (List.length_eq_zero.mp h)
          have hne1 : ¬((((b :: rest).take (UTF8CharLength b) ++ h1) :: t1 :
              List Line).length = 1) := by
            simp only [List.length_cons]
            omega
          have hne2 : ¬((h1 :: t1 : List Line).length = 1) := by
            simp only [List.length_cons]
            omega
          simp only [if_neg hne1, lastSeg_cons_ne ht1]
          simp only [if_neg hne2, lastSeg_cons_ne ht1] at hre
          exact hre
termination_by u => u.length
decreasing_by
  all_goals simp only [List.length_cons, List.length_drop]
  all_goals omega

set_option maxHeartbeats 1000000 in
/-- Inserting a carriage-return-free well-formed text at a walk-reachable
position of a well-formed line and deleting the returned range restores the
document lines. -/
theorem insert_delete_lines (e eI : Editor) (A B : List Line) (line : Line)
    (i0 c0 : Nat) (text : List Byte)
    (hX : e.mLines = A ++ line :: B)
    (htab : 1 ≤ e.mTabSize)
    (hcr : ∀ b ∈ text, b ≠ 13)
    (hwf : wellFormedUtf8 text = true)
    (hlwf : wellFormedUtf8 line = true)
    (hreach : ReachFrom e.mTabSize line (0, 0) (i0, c0))
    (hEL : eI.mLines =
      (InsertTextAt e ⟨(A.length : Int), (c0 : Int)⟩ text).1.mLines)
    (hET : eI.mTabSize = e.mTabSize) :
    (DeleteRange eI ⟨(A.length : Int), (c0 : Int)⟩
      (InsertTextAt e ⟨(A.length : Int), (c0 : Int)⟩ text).2.1).mLines =
      e.mLines := by
  have hi0 : i0 ≤ line.length :=
    (wellFormed_reach hreach (Nat.zero_le _) (by simpa using hlwf)).1
  rcases htext : text with _ | ⟨b0, trest⟩
  · -- empty text: the insertion is a no-op and the range is empty
    rw [htext] at hEL
    rw [InsertTextAt, insertTextAtLoop] at hEL ⊢
    rw [DeleteRange, if_pos rfl]
    exact hEL.trans rfl
  rw [← htext]
  have htne : text ≠ [] := by rw [htext]; simp
  -- run the insertion shape lemma
  have hgdL : e.mLines.getD A.length [] = line := by
    rw [hX, getD_app_cons]
  have hR : GetCharacterIndexR e.mTabSize e.mLines
      ⟨(A.length : Int), (c0 : Int)⟩ = (i0 : Int) := by
    refine GetCharacterIndexR_reach htab (Int.natCast_nonneg _) ?_ ?_
    · rw [hX]
      simp only [List.length_append, List.length_cons]
      push_cast
      omega
    · simp only [Int.toNat_natCast]
      rw [hgdL]
      exact hreach
  rw [InsertTextAt]
  have hMT : (MarkFindResultsDirty e true).mTabSize = e.mTabSize := rfl
  have hML : (MarkFindResultsDirty e true).mLines = e.mLines := rfl
  rw [hMT, hML, hR]
  have hEIL : eI.mLines = (insertTextAtLoop (MarkFindResultsDirty e true)
      ⟨(A.length : Int), (c0 : Int)⟩ (i0 : Int) 0 text).1.mLines := by
    rw [hEL, InsertTextAt, hMT, hML, hR]
  have hres := insertTextAtLoop_shape text (MarkFindResultsDirty e true) A B
    line i0 c0 0 hX hi0 hcr hwf htab hreach
  obtain ⟨hresL, hresT, cF, hresC, hresR⟩ := hres
  rw [hMT] at hresT hresR
  rcases hsp : setTextSplit text with _ | ⟨s0, t⟩
  · exact absurd hsp (setTextSplit_ne_nil text)
  rw [hsp] at hresL hresC hresR
  have hpre0 : (line.take i0).length = i0 := by
    rw [List.length_take]
    omega
  by_cases ht : t = []
  · -- single segment: the whole range sits on one line
    subst ht
    have hs0ne : s0 ≠ [] := fun h => htne
      (setTextSplit_single_nil text hcr (by rw [hsp, h]))
    have hs0wf : wellFormedUtf8 s0 = true :=
      wellFormed_split text (fun h => hcr 13 h rfl) hwf s0
        (by rw [hsp]; exact List.mem_singleton_self s0)
    simp only [buildLines] at hresL
    rw [List.append_assoc, List.singleton_append] at hresL
    simp only [List.length_singleton, Nat.add_sub_cancel] at hresC
    have hc1 : ([s0] : List Line).length = 1 := rfl
    rw [if_pos hc1, if_pos hc1] at hresR
    simp only [lastSeg] at hresR
    -- hresR : reach on the new line to the end of the insertion
    have hNLtake0 : (line.take i0 ++ s0 ++ line.drop i0).take i0 =
        line.take i0 := by
      rw [List.append_assoc, List.take_left' hpre0]
    have hNLlen : (line.take i0 ++ s0 ++ line.drop i0).length =
        line.length + s0.length := by
      rw [List.length_append, List.length_append, hpre0, List.length_drop]
      omega
    have htr0 : ReachFrom e.mTabSize (line.take i0 ++ s0 ++ line.drop i0)
        (0, 0) (i0, c0) := by
      refine reach_transfer hreach ?_ ?_
      · dsimp only
        rw [hNLtake0]
      · dsimp only
        rw [hNLlen]
        omega
    obtain ⟨c2, hr2⟩ := reach_segment s0.length
      (line.take i0 ++ s0 ++ line.drop i0) i0 c0
      (by rw [List.append_assoc, List.drop_left' hpre0,
            List.take_left' rfl]
          exact hs0wf)
      (by rw [hNLlen]; omega)
    have hcomb : ReachFrom e.mTabSize (line.take i0 ++ s0 ++ line.drop i0)
        (0, 0) (i0 + s0.length, c2) := htr0.trans hr2
    have hc2F : c2 = cF := by
      have := reach_unique hcomb hresR rfl
      exact congrArg Prod.snd this
    subst hc2F
    have hc0lt : c0 < c2 := by
      refine hr2.snd_lt htab ?_
      dsimp only
      have := List.length_pos.mpr hs0ne
      omega
    -- unfold the delete
    rw [hresC, DeleteRange]
    rw [if_neg (by
      simp only [Coordinates.mk.injEq]
      rintro ⟨-, h2⟩
      have : c2 = c0 := by exact_mod_cast h2
      omega)]
    have hMT2 : (MarkFindResultsDirty eI true).mTabSize = e.mTabSize := hET
    have hML2 : (MarkFindResultsDirty eI true).mLines =
        A ++ (line.take i0 ++ s0 ++ line.drop i0) :: B :=
      hEIL.trans hresL
    rw [hMT2, hML2]
    have hGLv : GetCharacterIndexL e.mTabSize
        (A ++ (line.take i0 ++ s0 ++ line.drop i0) :: B)
        ⟨(A.length : Int), (c0 : Int)⟩ = (i0 : Int) := by
      refine GetCharacterIndexL_reach htab (Int.natCast_nonneg _) ?_ ?_
      · simp only [List.length_append, List.length_cons]
        push_cast
        omega
      · simp only [Int.toNat_natCast]
        rw [getD_app_cons]
        exact htr0
    have hGRv : GetCharacterIndexR e.mTabSize
        (A ++ (line.take i0 ++ s0 ++ line.drop i0) :: B)
        ⟨(A.length : Int), (c2 : Int)⟩ = ((i0 + s0.length : Nat) : Int) := by
      refine GetCharacterIndexR_reach htab (Int.natCast_nonneg _) ?_ ?_
      · simp only [List.length_append, List.length_cons]
        push_cast
        omega
      · simp only [Int.toNat_natCast]
        rw [getD_app_cons]
        exact hresR
    rw [hGLv, hGRv]
    rw [if_pos rfl]
    have hMaxv : GetLineMaxColumn e.mTabSize
        (A ++ (line.take i0 ++ s0 ++ line.drop i0) :: B)
        ((A.length : Int)) = getLineMaxColumnLoop e.mTabSize
        (line.take i0 ++ s0 ++ line.drop i0) 0 0 := by
      rw [GetLineMaxColumn]
      rw [if_neg (by
        simp only [List.length_append, List.length_cons]
        push_cast
        omega)]
      simp only [Int.toNat_natCast]
      rw [getD_app_cons]
    rw [hMaxv]
    by_cases hmx : ((getLineMaxColumnLoop e.mTabSize
        (line.take i0 ++ s0 ++ line.drop i0) 0 0 : Nat) : Int) ≤ (c2 : Int)
    · rw [if_pos hmx]
      -- the insertion ends at the line end: the original suffix is empty
      have hend : (line.take i0 ++ s0 ++ line.drop i0).length ≤
          i0 + s0.length := by
        by_contra hlt2
        push_neg at hlt2
        obtain ⟨f, hfr, hflen, hfval⟩ := getLineMaxColumnLoop_final
          e.mTabSize (line.take i0 ++ s0 ++ line.drop i0)
          (i0 + s0.length, c2)
        have hflt : c2 < f.2 := by
          have h := hfr.snd_lt htab
            (show ((i0 + s0.length, c2) : Nat × Nat).1 < f.1 by
              dsimp only
              omega)
          simpa using h
        have hn : getLineMaxColumnLoop e.mTabSize
            (line.take i0 ++ s0 ++ line.drop i0) 0 0 = f.2 := by
          have habs := getLineMaxColumnLoop_absorb hcomb
          dsimp only at habs hfval
          rw [habs, hfval]
        rw [hn] at hmx
        omega
      have hsufnil : line.drop i0 = [] := by
        rw [hNLlen] at hend
        have := List.length_drop i0 line
        exact List.length_eq_zero.mp (by omega)
      rw [RemoveGlyphsFromLine_mLines_val, if_pos rfl]
      simp only [Int.toNat_natCast]
      rw [hML2, getD_app_cons, set_app_cons, hNLtake0]
      have hlineeq : line.take i0 = line := by
        conv_rhs => rw [← List.take_append_drop i0 line]
        rw [hsufnil, List.append_nil]
      rw [hlineeq, ← hX]
    · rw [if_neg hmx]
      rw [RemoveGlyphsFromLine_mLines_val,
        if_neg (by omega : ¬((i0 + s0.length : Nat) : Int) = -1)]
      simp only [Int.toNat_natCast]
      rw [hML2, getD_app_cons, set_app_cons, hNLtake0]
      have hNLdropE : (line.take i0 ++ s0 ++ line.drop i0).drop
          (i0 + s0.length) = line.drop i0 := by
        rw [List.drop_left' (by rw [List.length_append, hpre0])]
      rw [hNLdropE, List.take_append_drop, ← hX]
  · -- multi-segment: the insertion spans several lines
    have htlen : t.length ≠ 0 := fun h => ht (List.length_eq_zero.mp h)
    have hne1 : ¬((s0 :: t : List Line).length = 1) := by
      simp only [List.length_cons]
      omega
    simp only [if_neg hne1, lastSeg_cons_ne ht, List.nil_append,
      Nat.zero_add] at hresR
    rw [buildLines_cons_ne _ _ _ ht] at hresL
    obtain ⟨mid, hmid, hmidlen⟩ := buildLines_tail_decomp (line.drop i0) t ht
    rw [hmid] at hresL
    simp only [List.append_assoc, List.cons_append, List.singleton_append,
      List.nil_append] at hresL
    -- hresL : ... = A ++ (take i0 ++ s0) :: (mid ++ (lastSeg t ++ drop i0) :: B)
    have harc : A.length + (s0 :: t : List Line).length - 1 =
        A.length + t.length := by
      simp only [List.length_cons]
      omega
    rw [harc] at hresC
    rw [hresC, DeleteRange]
    rw [if_neg (by
      simp only [Coordinates.mk.injEq]
      rintro ⟨h1, -⟩
      have : A.length + t.length = A.length := by exact_mod_cast h1
      omega)]
    dsimp only
    have hMT2 : (MarkFindResultsDirty eI true).mTabSize = e.mTabSize := hET
    have hML2 : (MarkFindResultsDirty eI true).mLines =
        A ++ (line.take i0 ++ s0) ::
          (mid ++ (lastSeg t ++ line.drop i0) :: B) :=
      hEIL.trans hresL
    have hY2assoc : A ++ (line.take i0 ++ s0) ::
        (mid ++ (lastSeg t ++ line.drop i0) :: B) =
        (A ++ (line.take i0 ++ s0) :: mid) ++
          (lastSeg t ++ line.drop i0) :: B := by
      simp [List.append_assoc]
    have hA2len : (A ++ (line.take i0 ++ s0) :: mid).length =
        A.length + t.length := by
      simp only [List.length_append, List.length_cons]
      omega
    have htr1 : ReachFrom e.mTabSize (line.take i0 ++ s0) (0, 0)
        (i0, c0) := by
      refine reach_transfer hreach ?_ ?_
      · dsimp only
        rw [List.take_left' hpre0]
      · dsimp only
        rw [List.length_append, hpre0]
        omega
    have h1v : GetCharacterIndexL e.mTabSize
        (A ++ (line.take i0 ++ s0) ::
          (mid ++ (lastSeg t ++ line.drop i0) :: B))
        ⟨(A.length : Int), (c0 : Int)⟩ = (i0 : Int) := by
      refine GetCharacterIndexL_reach htab (Int.natCast_nonneg _) ?_ ?_
      · simp only [List.length_append, List.length_cons]
        push_cast
        omega
      · simp only [Int.toNat_natCast]
        rw [getD_app_cons]
        exact htr1
    have h2v : GetCharacterIndexR e.mTabSize
        (A ++ (line.take i0 ++ s0) ::
          (mid ++ (lastSeg t ++ line.drop i0) :: B))
        ⟨((A.length + t.length : Nat) : Int), (cF : Int)⟩ =
        ((lastSeg t).length : Int) := by
      refine GetCharacterIndexR_reach htab (Int.natCast_nonneg _) ?_ ?_
      · simp only [List.length_append, List.length_cons]
        push_cast
        omega
      · simp only [Int.toNat_natCast]
        rw [hY2assoc, ← hA2len, getD_app_cons]
        exact hresR
    rw [hMT2, hML2, h1v, h2v]
    rw [if_neg (by
      intro h1
      have : A.length = A.length + t.length := by exact_mod_cast h1
      omega)]
    rw [if_pos (by push_cast; omega)]
    have hRLval : ∀ (ed : Editor) (a b : Int),
        (RemoveLines ed a b).mLines =
          ed.mLines.take a.toNat ++ ed.mLines.drop b.toNat :=
      fun _ _ _ => rfl
    rw [hRLval, deleteRangeCursorLoop_mLines, AddGlyphsToLine_mLines_val,
      RemoveGlyphsFromLine_mLines_val, RemoveGlyphsFromLine_mLines_val,
      hML2]
    rw [if_pos (rfl : (-1 : Int) = -1)]
    rw [if_neg (by omega : ¬((lastSeg t).length : Int) = -1)]
    have htnn1 : ((A.length : Int) + 1).toNat = A.length + 1 := by omega
    have htnn2 : (((A.length + t.length : Nat) : Int) + 1).toNat =
        A.length + t.length + 1 := by omega
    simp only [Int.toNat_natCast, Int.toNat_zero, htnn1, htnn2,
      List.take_zero, List.nil_append]
    have hq1 : (A ++ (line.take i0 ++ s0) ::
        (mid ++ (lastSeg t ++ line.drop i0) :: B)).getD A.length [] =
        line.take i0 ++ s0 := getD_app_cons _ _ _ _
    rw [hq1, List.take_left' hpre0]
    have hq2 : (A ++ (line.take i0 ++ s0) ::
        (mid ++ (lastSeg t ++ line.drop i0) :: B)).set A.length
        (line.take i0) =
        A ++ line.take i0 :: (mid ++ (lastSeg t ++ line.drop i0) :: B) :=
      set_app_cons _ _ _ _
    rw [hq2]
    have hP1assoc : A ++ line.take i0 ::
        (mid ++ (lastSeg t ++ line.drop i0) :: B) =
        (A ++ line.take i0 :: mid) ++ (lastSeg t ++ line.drop i0) :: B := by
      simp [List.append_assoc]
    have hA3len : (A ++ line.take i0 :: mid).length =
        A.length + t.length := by
      simp only [List.length_append, List.length_cons]
      omega
    have hq3 : (A ++ line.take i0 ::
        (mid ++ (lastSeg t ++ line.drop i0) :: B)).getD
        (A.length + t.length) [] = lastSeg t ++ line.drop i0 := by
      rw [hP1assoc, ← hA3len, getD_app_cons]
    rw [hq3, List.drop_left' rfl]
    have hq4 : (A ++ line.take i0 ::
        (mid ++ (lastSeg t ++ line.drop i0) :: B)).set
        (A.length + t.length) (line.drop i0) =
        A ++ line.take i0 :: (mid ++ line.drop i0 :: B) := by
      rw [hP1assoc, ← hA3len, set_app_cons]
      simp [List.append_assoc]
    rw [hq4]
    have hq5 : (A ++ line.take i0 :: (mid ++ line.drop i0 :: B)).getD
        A.length [] = line.take i0 := getD_app_cons _ _ _ _
    rw [hq5]
    simp only [Int.toNat_natCast, List.take_length, List.drop_length,
      List.append_nil]
    have hP2assoc : A ++ line.take i0 :: (mid ++ line.drop i0 :: B) =
        (A ++ line.take i0 :: mid) ++ line.drop i0 :: B := by
      simp [List.append_assoc]
    have hq6 : (A ++ line.take i0 :: (mid ++ line.drop i0 :: B)).getD
        (A.length + t.length) [] = line.drop i0 := by
      rw [hP2assoc, ← hA3len, getD_app_cons]
    rw [hq6, List.take_append_drop]
    have hq7 : (A ++ line.take i0 :: (mid ++ line.drop i0 :: B)).set
        A.length line = A ++ line :: (mid ++ line.drop i0 :: B) :=
      set_app_cons _ _ _ _
    rw [hq7]
    have hq8 : (A ++ line :: (mid ++ line.drop i0 :: B)).take
        (A.length + 1) = A ++ [line] := take_app_cons_succ _ _ _
    have hP3assoc : A ++ line :: (mid ++ line.drop i0 :: B) =
        (A ++ line :: mid) ++ line.drop i0 :: B := by
      simp [List.append_assoc]
    have hA4len : (A ++ line :: mid).length = A.length + t.length := by
      simp only [List.length_append, List.length_cons]
      omega
    have hq9 : (A ++ line :: (mid ++ line.drop i0 :: B)).drop
        (A.length + t.length + 1) = B := by
      rw [hP3assoc, ← hA4len, drop_app_cons_succ]
    rw [hq8, hq9, List.append_assoc, List.singleton_append, ← hX]

theorem RemoveLines_mTabSize (e : Editor) (a b : Int) :
    (RemoveLines e a b).mTabSize = e.mTabSize := rfl

theorem RemoveLines_mUndoIndex (e : Editor) (a b : Int) :
    (RemoveLines e a b).mUndoIndex = e.mUndoIndex := rfl

theorem onLineChangedApply_mUndoIndex (e : Editor) (aLine : Int)
    (ps : List (Nat × Int)) : (onLineChangedApply e aLine ps).mUndoIndex =
      e.mUndoIndex := by
  rw [onLineChangedApply]
  apply foldl_preserves
  intro ed a
  rfl

theorem AddGlyphToLine_mUndoIndex (e : Editor) (a b : Int) (g : Byte) :
    (AddGlyphToLine e a b g).mUndoIndex = e.mUndoIndex := by
  rw [AddGlyphToLine, onLineChangedApply_mUndoIndex]

theorem AddGlyphsToLine_mUndoIndex (e : Editor) (a b : Int)
    (g : List Byte) : (AddGlyphsToLine e a b g).mUndoIndex = e.mUndoIndex := by
  rw [AddGlyphsToLine, onLineChangedApply_mUndoIndex]

theorem RemoveGlyphsFromLine_mUndoIndex (e : Editor) (a b c : Int) :
    (RemoveGlyphsFromLine e a b c).mUndoIndex = e.mUndoIndex := by
  rw [RemoveGlyphsFromLine, onLineChangedApply_mUndoIndex]

theorem InsertLine_mUndoIndex (e : Editor) (i : Int) :
    (InsertLine e i).mUndoIndex = e.mUndoIndex := by
  rw [InsertLine]
  apply foldl_preserves
  intro ed a
  dsimp only
  split <;> rfl

theorem insertChunk_mTabSize :
    ∀ (bs : List Byte) (e : Editor) (l ci : Int),
      (insertChunk e l ci bs).1.mTabSize = e.mTabSize
  | [], e, l, ci => rfl
  | b :: bs, e, l, ci => by
    rw [insertChunk, insertChunk_mTabSize bs _ _ _, AddGlyphToLine_mTabSize]

theorem insertChunk_mUndoIndex :
    ∀ (bs : List Byte) (e : Editor) (l ci : Int),
      (insertChunk e l ci bs).1.mUndoIndex = e.mUndoIndex
  | [], e, l, ci => rfl
  | b :: bs, e, l, ci => by
    rw [insertChunk, insertChunk_mUndoIndex bs _ _ _,
      AddGlyphToLine_mUndoIndex]

theorem insertTextAtLoop_mTabSize :
    ∀ (text : List Byte) (e : Editor) (w : Coordinates) (ci : Int) (tl : Nat),
      (insertTextAtLoop e w ci tl text).1.mTabSize = e.mTabSize
  | [], e, w, ci, tl => by
    rw [insertTextAtLoop]
  | b :: rest, e, w, ci, tl => by
    rw [insertTextAtLoop]
    by_cases h13 : b = 13
    · rw [if_pos h13]
      rw [insertTextAtLoop_mTabSize rest e w ci tl]
    · rw [if_neg h13]
      by_cases h10 : b = 10
      · rw [if_pos h10]
        dsimp only
        split
        · rw [insertTextAtLoop_mTabSize rest _ _ 0 (tl + 1)]
          rw [RemoveGlyphsFromLine_mTabSize, AddGlyphsToLine_mTabSize,
            InsertLine_mTabSize]
        · rw [insertTextAtLoop_mTabSize rest _ _ 0 (tl + 1)]
          rw [InsertLine_mTabSize]
      · rw [if_neg h10]
        rw [insertTextAtLoop_mTabSize _ _ _ _ _]
        rw [insertChunk_mTabSize]
termination_by text => text.length
decreasing_by
  · simp
  · simp
  · simp
  · have := UTF8CharLength_pos b
    simp only [List.length_drop, List.length_cons]
    omega

theorem insertTextAtLoop_mUndoIndex :
    ∀ (text : List Byte) (e : Editor) (w : Coordinates) (ci : Int) (tl : Nat),
      (insertTextAtLoop e w ci tl text).1.mUndoIndex = e.mUndoIndex
  | [], e, w, ci, tl => by
    rw [insertTextAtLoop]
  | b :: rest, e, w, ci, tl => by
    rw [insertTextAtLoop]
    by_cases h13 : b = 13
    · rw [if_pos h13]
      rw [insertTextAtLoop_mUndoIndex rest e w ci tl]
    · rw [if_neg h13]
      by_cases h10 : b = 10
      · rw [if_pos h10]
        dsimp only
        split
        · rw [insertTextAtLoop_mUndoIndex rest _ _ 0 (tl + 1)]
          rw [RemoveGlyphsFromLine_mUndoIndex, AddGlyphsToLine_mUndoIndex,
            InsertLine_mUndoIndex]
        · rw [insertTextAtLoop_mUndoIndex rest _ _ 0 (tl + 1)]
          rw [InsertLine_mUndoIndex]
      · rw [if_neg h10]
        rw [insertTextAtLoop_mUndoIndex _ _ _ _ _]
        rw [insertChunk_mUndoIndex]
termination_by text => text.length
decreasing_by
  · simp
  · simp
  · simp
  · have := UTF8CharLength_pos b
    simp only [List.length_drop, List.length_cons]
    omega

theorem InsertTextAt_mTabSize (e : Editor) (w : Coordinates)
    (v : List Byte) : (InsertTextAt e w v).1.mTabSize = e.mTabSize := by
  rw [InsertTextAt, insertTextAtLoop_mTabSize]
  rfl

theorem InsertTextAt_mUndoIndex (e : Editor) (w : Coordinates)
    (v : List Byte) : (InsertTextAt e w v).1.mUndoIndex = e.mUndoIndex := by
  rw [InsertTextAt, insertTextAtLoop_mUndoIndex]
  rfl

theorem deleteRangeCursorLoop_mTabSize :
    ∀ (e : Editor) (a b : Coordinates) (c : Nat),
      (deleteRangeCursorLoop e a b c).mTabSize = e.mTabSize
  | e, a, b, c => by
    rw [deleteRangeCursorLoop]
    split
    · dsimp only
      split
      · exact deleteRangeCursorLoop_mTabSize e a b (c + 1)
      · split
        · rfl
        · split
          · exact deleteRangeCursorLoop_mTabSize e a b (c + 1)
          · exact deleteRangeCursorLoop_mTabSize _ a b (c + 1)
    · rfl
termination_by e a b c => e.mState.mCurrentCursor + 1 - c
decreasing_by
  all_goals have hs : ∀ (ed : Editor) (pos : Coordinates) (cc : Int)
      (cl : Bool), (SetCursorPosition ed pos cc cl).mState.mCurrentCursor =
        ed.mState.mCurrentCursor := fun _ _ _ _ => rfl
  all_goals try simp only [hs]
  all_goals omega

theorem deleteRangeCursorLoop_mUndoIndex :
    ∀ (e : Editor) (a b : Coordinates) (c : Nat),
      (deleteRangeCursorLoop e a b c).mUndoIndex = e.mUndoIndex
  | e, a, b, c => by
    rw [deleteRangeCursorLoop]
    split
    · dsimp only
      split
      · exact deleteRangeCursorLoop_mUndoIndex e a b (c + 1)
      · split
        · rfl
        · split
          · exact deleteRangeCursorLoop_mUndoIndex e a b (c + 1)
          · exact deleteRangeCursorLoop_mUndoIndex _ a b (c + 1)
    · rfl
termination_by e a b c => e.mState.mCurrentCursor + 1 - c
decreasing_by
  all_goals have hs : ∀ (ed : Editor) (pos : Coordinates) (cc : Int)
      (cl : Bool), (SetCursorPosition ed pos cc cl).mState.mCurrentCursor =
        ed.mState.mCurrentCursor := fun _ _ _ _ => rfl
  all_goals try simp only [hs]
  all_goals omega

theorem DeleteRange_mTabSize (e : Editor) (a b : Coordinates) :
    (DeleteRange e a b).mTabSize = e.mTabSize := by
  rw [DeleteRange]
  split
  · rfl
  · dsimp only
    split
    · split
      · rw [RemoveGlyphsFromLine_mTabSize]
        rfl
      · rw [RemoveGlyphsFromLine_mTabSize]
        rfl
    · split
      · rw [RemoveLines_mTabSize, deleteRangeCursorLoop_mTabSize,
          AddGlyphsToLine_mTabSize, RemoveGlyphsFromLine_mTabSize,
          RemoveGlyphsFromLine_mTabSize]
        rfl
      · rw [RemoveGlyphsFromLine_mTabSize, RemoveGlyphsFromLine_mTabSize]
        rfl

theorem DeleteRange_mUndoIndex (e : Editor) (a b : Coordinates) :
    (DeleteRange e a b).mUndoIndex = e.mUndoIndex := by
  rw [DeleteRange]
  split
  · rfl
  · dsimp only
    split
    · split
      · rw [RemoveGlyphsFromLine_mUndoIndex]
        rfl
      · rw [RemoveGlyphsFromLine_mUndoIndex]
        rfl
    · split
      · rw [RemoveLines_mUndoIndex, deleteRangeCursorLoop_mUndoIndex,
          AddGlyphsToLine_mUndoIndex, RemoveGlyphsFromLine_mUndoIndex,
          RemoveGlyphsFromLine_mUndoIndex]
        rfl
      · rw [RemoveGlyphsFromLine_mUndoIndex, RemoveGlyphsFromLine_mUndoIndex]
        rfl

/-- Coordinate-level wrapper of `insert_delete_lines`: deleting the range
returned by `InsertTextAt` from any editor that agrees with the insertion
result on lines and tab size restores the original document lines. -/
theorem insert_delete_at (e eI : Editor) (aWhere : Coordinates)
    (text : List Byte)
    (htab : 1 ≤ e.mTabSize)
    (hcr : ∀ b ∈ text, b ≠ 13)
    (hwf : wellFormedUtf8 text = true)
    (h0 : 0 ≤ aWhere.mLine)
    (hlt : aWhere.mLine < (e.mLines.length : Int))
    (hlwf : wellFormedUtf8 (e.mLines.getD aWhere.mLine.toNat []) = true)
    (hcol : ∃ i0 c0 : Nat,
      ReachFrom e.mTabSize (e.mLines.getD aWhere.mLine.toNat []) (0, 0)
        (i0, c0) ∧ aWhere.mColumn = (c0 : Int))
    (hEL : eI.mLines = (InsertTextAt e aWhere text).1.mLines)
    (hET : eI.mTabSize = e.mTabSize) :
    (DeleteRange eI aWhere (InsertTextAt e aWhere text).2.1).mLines =
      e.mLines := by
  obtain ⟨i0, c0, hreach, hceq⟩ := hcol
  have hLnat : aWhere.mLine.toNat < e.mLines.length := by omega
  obtain ⟨hdec, hlen⟩ := lines_decomp e.mLines aWhere.mLine.toNat hLnat
  have haw : aWhere =
      ⟨((e.mLines.take aWhere.mLine.toNat).length : Int), (c0 : Int)⟩ := by
    rcases aWhere with ⟨ln, col⟩
    simp only [Coordinates.mk.injEq]
    constructor
    · rw [hlen]
      simp only at h0 ⊢
      omega
    · exact hceq
  rw [haw]
  rw [haw] at hEL
  exact insert_delete_lines e eI (e.mLines.take aWhere.mLine.toNat)
    (e.mLines.drop (aWhere.mLine.toNat + 1))
    (e.mLines.getD aWhere.mLine.toNat []) i0 c0 text hdec htab hcr hwf
    hlwf hreach hEL hET

/-- Claim C2 (amended): for every carriage-return-free text that is a
concatenation of complete UTF-8 sequences, inserted at a valid coordinate of
the document (a line in range whose bytes are well-formed UTF-8, at a column
the glyph walk actually reaches), `InsertTextAt` followed immediately by
`DeleteRange` over the returned range restores the document content exactly.
The cursor-set half of the original claim is false (see the counterexample):
the insertion moves and clamps cursors and the deletion does not restore
them. -/
theorem claim_C2_amended (e : Editor) (aWhere : Coordinates)
    (text : List Byte)
    (htab : 1 ≤ e.mTabSize)
    (hcr : ∀ b ∈ text, b ≠ 13)
    (hwf : wellFormedUtf8 text = true)
    (h0 : 0 ≤ aWhere.mLine)
    (hlt : aWhere.mLine < (e.mLines.length : Int))
    (hlwf : wellFormedUtf8 (e.mLines.getD aWhere.mLine.toNat []) = true)
    (hcol : ∃ i0 c0 : Nat,
      ReachFrom e.mTabSize (e.mLines.getD aWhere.mLine.toNat []) (0, 0)
        (i0, c0) ∧ aWhere.mColumn = (c0 : Int)) :
    (DeleteRange (InsertTextAt e aWhere text).1 aWhere
      (InsertTextAt e aWhere text).2.1).mLines = e.mLines :=
  insert_delete_at e (InsertTextAt e aWhere text).1 aWhere text htab hcr hwf
    h0 hlt hlwf hcol rfl (InsertTextAt_mTabSize _ _ _)

/-- Claim C2, witness: inserting the single glyph `"b"` at the start of the
one-line document `"a"` and deleting the returned range gives back `"a"`. -/
theorem claim_C2_witness :
    1 ≤ utf8ExampleEditor.mTabSize ∧
    wellFormedUtf8 [98] = true ∧
    (DeleteRange (InsertTextAt utf8ExampleEditor ⟨0, 0⟩ [98]).1 ⟨0, 0⟩
      (InsertTextAt utf8ExampleEditor ⟨0, 0⟩ [98]).2.1).mLines =
      utf8ExampleEditor.mLines :=
  ⟨by decide, by simp +decide [wellFormedUtf8, UTF8CharLength],
   claim_C2_amended utf8ExampleEditor ⟨0, 0⟩ [98] (by decide)
     (by decide) (by simp +decide [wellFormedUtf8, UTF8CharLength])
     (by decide) (by decide)
     (by simp +decide [utf8ExampleEditor, initialEditor, wellFormedUtf8,
       UTF8CharLength])
     ⟨0, 0, ReachFrom.refl _, rfl⟩⟩

/-- The document produced by `InsertTextAt` depends only on the lines and the
tab size of the editor (cursors, history and find state do not feed back into
the text), for a valid insertion of well-formed carriage-return-free text. -/
theorem InsertTextAt_lines_congr (e e' : Editor) (aWhere : Coordinates)
    (text : List Byte)
    (hL : e'.mLines = e.mLines) (hT : e'.mTabSize = e.mTabSize)
    (htab : 1 ≤ e.mTabSize)
    (hcr : ∀ b ∈ text, b ≠ 13)
    (hwf : wellFormedUtf8 text = true)
    (h0 : 0 ≤ aWhere.mLine)
    (hlt : aWhere.mLine < (e.mLines.length : Int))
    (hlwf : wellFormedUtf8 (e.mLines.getD aWhere.mLine.toNat []) = true)
    (hcol : ∃ i0 c0 : Nat,
      ReachFrom e.mTabSize (e.mLines.getD aWhere.mLine.toNat []) (0, 0)
        (i0, c0) ∧ aWhere.mColumn = (c0 : Int)) :
    (InsertTextAt e' aWhere text).1.mLines =
      (InsertTextAt e aWhere text).1.mLines := by
  obtain ⟨i0, c0, hreach, hceq⟩ := hcol
  have hi0 : i0 ≤ (e.mLines.getD aWhere.mLine.toNat []).length :=
    (wellFormed_reach hreach (Nat.zero_le _) (by simpa using hlwf)).1
  have hLnat : aWhere.mLine.toNat < e.mLines.length := by omega
  obtain ⟨hdec, hlen⟩ := lines_decomp e.mLines aWhere.mLine.toNat hLnat
  have haw : aWhere =
      ⟨((e.mLines.take aWhere.mLine.toNat).length : Int), (c0 : Int)⟩ := by
    rcases aWhere with ⟨ln, col⟩
    simp only [Coordinates.mk.injEq]
    constructor
    · rw [hlen]
      simp only at h0 ⊢
      omega
    · exact hceq
  rw [haw]
  have hR : GetCharacterIndexR e.mTabSize e.mLines
      ⟨((e.mLines.take aWhere.mLine.toNat).length : Int), (c0 : Int)⟩ =
      (i0 : Int) := by
    refine GetCharacterIndexR_reach htab (Int.natCast_nonneg _) ?_ ?_
    · rw [hlen]
      push_cast
      omega
    · simp only [Int.toNat_natCast]
      rw [hlen]
      exact hreach
  have hMT : (MarkFindResultsDirty e true).mTabSize = e.mTabSize := rfl
  have hML : (MarkFindResultsDirty e true).mLines = e.mLines := rfl
  have hMT' : (MarkFindResultsDirty e' true).mTabSize = e.mTabSize := hT
  have hML' : (MarkFindResultsDirty e' true).mLines = e.mLines := hL
  rw [InsertTextAt, InsertTextAt, hMT, hML, hMT', hML', hR]
  have hres := insertTextAtLoop_shape text (MarkFindResultsDirty e true)
    (e.mLines.take aWhere.mLine.toNat)
    (e.mLines.drop (aWhere.mLine.toNat + 1))
    (e.mLines.getD aWhere.mLine.toNat []) i0 c0 0 hdec hi0 hcr hwf htab
    hreach
  have hres' := insertTextAtLoop_shape text (MarkFindResultsDirty e' true)
    (e.mLines.take aWhere.mLine.toNat)
    (e.mLines.drop (aWhere.mLine.toNat + 1))
    (e.mLines.getD aWhere.mLine.toNat []) i0 c0 0 (hL.trans hdec) hi0 hcr
    hwf (by rw [show (MarkFindResultsDirty e' true).mTabSize = e.mTabSize
      from hT]; exact htab)
    (by rw [show (MarkFindResultsDirty e' true).mTabSize = e.mTabSize
      from hT]; exact hreach)
  rw [hres.1, hres'.1]

set_option maxHeartbeats 1000000 in
/-- Claim C1 (amended): for a recorded insertion of a nonempty
carriage-return-free well-formed UTF-8 text at a valid reachable coordinate
(the `Add` record the paste path creates, with the pre-edit state as
`mBefore` and the post-edit state as `mAfter`), one `Undo` restores both the
exact document lines and the exact cursor set of the pre-edit editor, and
one `Redo` immediately after restores the post-edit document lines and
cursor set.  On malformed bytes the round trip fails (see the
counterexample), so the original unconditional claim does not hold. -/
theorem claim_C1_amended (E0 : Editor) (aWhere : Coordinates)
    (text : List Byte) (st1 : EditorState) (r : UndoRecord) (E2 : Editor)
    (htab : 1 ≤ E0.mTabSize)
    (hcr : ∀ b ∈ text, b ≠ 13)
    (hwf : wellFormedUtf8 text = true)
    (h0 : 0 ≤ aWhere.mLine)
    (hlt : aWhere.mLine < (E0.mLines.length : Int))
    (hlwf : wellFormedUtf8 (E0.mLines.getD aWhere.mLine.toNat []) = true)
    (hcol : ∃ i0 c0 : Nat,
      ReachFrom E0.mTabSize (E0.mLines.getD aWhere.mLine.toNat []) (0, 0)
        (i0, c0) ∧ aWhere.mColumn = (c0 : Int))
    (hvi : E0.mUndoIndex ≤ E0.mUndoBuffer.length)
    (htxt : text ≠ [])
    (hr : r = ⟨[⟨text, aWhere, (InsertTextAt E0 aWhere text).2.1,
      UndoOperationType.Add⟩], E0.mState, st1⟩)
    (hE2 : E2 = AddUndo
      { (InsertTextAt E0 aWhere text).1 with mState := st1 } r) :
    ((Undo E2 1).mLines = E0.mLines ∧ (Undo E2 1).mState = E0.mState) ∧
    (Redo (Undo E2 1) 1).mLines = E2.mLines ∧
    (Redo (Undo E2 1) 1).mState = E2.mState := by
  subst hr hE2
  have hidx2 : (AddUndo { (InsertTextAt E0 aWhere text).1 with
      mState := st1 } ⟨[⟨text, aWhere, (InsertTextAt E0 aWhere text).2.1,
        UndoOperationType.Add⟩], E0.mState, st1⟩).mUndoIndex = E0.mUndoIndex + 1 := by
    rw [show (AddUndo { (InsertTextAt E0 aWhere text).1 with
      mState := st1 } ⟨[⟨text, aWhere, (InsertTextAt E0 aWhere text).2.1,
        UndoOperationType.Add⟩], E0.mState, st1⟩).mUndoIndex =
      (InsertTextAt E0 aWhere text).1.mUndoIndex + 1 from rfl,
      InsertTextAt_mUndoIndex]
  have hbuf2 : (AddUndo { (InsertTextAt E0 aWhere text).1 with
      mState := st1 } ⟨[⟨text, aWhere, (InsertTextAt E0 aWhere text).2.1,
        UndoOperationType.Add⟩], E0.mState, st1⟩).mUndoBuffer =
      E0.mUndoBuffer.take E0.mUndoIndex ++ [(⟨[⟨text, aWhere, (InsertTextAt E0 aWhere text).2.1,
        UndoOperationType.Add⟩], E0.mState, st1⟩ : UndoRecord)] := by
    rw [show (AddUndo { (InsertTextAt E0 aWhere text).1 with
      mState := st1 } ⟨[⟨text, aWhere, (InsertTextAt E0 aWhere text).2.1,
        UndoOperationType.Add⟩], E0.mState, st1⟩).mUndoBuffer =
      (InsertTextAt E0 aWhere text).1.mUndoBuffer.take
        (InsertTextAt E0 aWhere text).1.mUndoIndex ++ [(⟨[⟨text, aWhere, (InsertTextAt E0 aWhere text).2.1,
        UndoOperationType.Add⟩], E0.mState, st1⟩ : UndoRecord)] from rfl,
      InsertTextAt_mUndoBuffer, InsertTextAt_mUndoIndex]
  have htab2 : (AddUndo { (InsertTextAt E0 aWhere text).1 with
      mState := st1 } ⟨[⟨text, aWhere, (InsertTextAt E0 aWhere text).2.1,
        UndoOperationType.Add⟩], E0.mState, st1⟩).mTabSize = E0.mTabSize := by
    rw [show (AddUndo { (InsertTextAt E0 aWhere text).1 with
      mState := st1 } ⟨[⟨text, aWhere, (InsertTextAt E0 aWhere text).2.1,
        UndoOperationType.Add⟩], E0.mState, st1⟩).mTabSize =
      (InsertTextAt E0 aWhere text).1.mTabSize from rfl,
      InsertTextAt_mTabSize]
  have htk : (E0.mUndoBuffer.take E0.mUndoIndex).length = E0.mUndoIndex := by
    rw [List.length_take]
    omega
  have hcanU : CanUndo (AddUndo { (InsertTextAt E0 aWhere text).1 with
      mState := st1 } ⟨[⟨text, aWhere, (InsertTextAt E0 aWhere text).2.1,
        UndoOperationType.Add⟩], E0.mState, st1⟩) = true := by
    rw [CanUndo, hidx2]
    simp
  have hfetch : (AddUndo { (InsertTextAt E0 aWhere text).1 with
      mState := st1 } ⟨[⟨text, aWhere, (InsertTextAt E0 aWhere text).2.1,
        UndoOperationType.Add⟩], E0.mState, st1⟩).mUndoBuffer.getD
      ((AddUndo { (InsertTextAt E0 aWhere text).1 with
      mState := st1 } ⟨[⟨text, aWhere, (InsertTextAt E0 aWhere text).2.1,
        UndoOperationType.Add⟩], E0.mState, st1⟩).mUndoIndex - 1) default = (⟨[⟨text, aWhere, (InsertTextAt E0 aWhere text).2.1,
        UndoOperationType.Add⟩], E0.mState, st1⟩ : UndoRecord) := by
    rw [hbuf2, hidx2,
      show E0.mUndoIndex + 1 - 1 = E0.mUndoIndex from by omega]
    have hget := getD_app_cons (E0.mUndoBuffer.take E0.mUndoIndex)
      (⟨[⟨text, aWhere, (InsertTextAt E0 aWhere text).2.1,
        UndoOperationType.Add⟩], E0.mState, st1⟩ : UndoRecord) [] default
    rw [htk] at hget
    exact hget
  have hUeq : Undo (AddUndo { (InsertTextAt E0 aWhere text).1 with
      mState := st1 } ⟨[⟨text, aWhere, (InsertTextAt E0 aWhere text).2.1,
        UndoOperationType.Add⟩], E0.mState, st1⟩) 1 =
      { DeleteRange { (AddUndo { (InsertTextAt E0 aWhere text).1 with
      mState := st1 } ⟨[⟨text, aWhere, (InsertTextAt E0 aWhere text).2.1,
        UndoOperationType.Add⟩], E0.mState, st1⟩) with
          mUndoIndex := (AddUndo { (InsertTextAt E0 aWhere text).1 with
      mState := st1 } ⟨[⟨text, aWhere, (InsertTextAt E0 aWhere text).2.1,
        UndoOperationType.Add⟩], E0.mState, st1⟩).mUndoIndex - 1 } aWhere
          (InsertTextAt E0 aWhere text).2.1 with
        mState := E0.mState } := by
    rw [Undo, show ((1 : Int)).toNat = 0 + 1 from rfl, undoLoop,
      if_pos hcanU, undoLoop, hfetch, UndoRecord.Undo]
    dsimp only
    simp only [List.reverse_cons, List.reverse_nil, List.nil_append,
      List.foldl_cons, List.foldl_nil]
    rw [if_neg htxt]
  have hA1 : (Undo (AddUndo { (InsertTextAt E0 aWhere text).1 with
      mState := st1 } ⟨[⟨text, aWhere, (InsertTextAt E0 aWhere text).2.1,
        UndoOperationType.Add⟩], E0.mState, st1⟩) 1).mLines = E0.mLines := by
    rw [hUeq]
    exact insert_delete_at E0 _ aWhere text htab hcr hwf h0 hlt hlwf hcol
      rfl (InsertTextAt_mTabSize E0 aWhere text)
  have hEUI : (Undo (AddUndo { (InsertTextAt E0 aWhere text).1 with
      mState := st1 } ⟨[⟨text, aWhere, (InsertTextAt E0 aWhere text).2.1,
        UndoOperationType.Add⟩], E0.mState, st1⟩) 1).mUndoIndex = E0.mUndoIndex := by
    rw [hUeq]
    dsimp only
    rw [DeleteRange_mUndoIndex]
    dsimp only
    rw [hidx2]
    omega
  have hEUB : (Undo (AddUndo { (InsertTextAt E0 aWhere text).1 with
      mState := st1 } ⟨[⟨text, aWhere, (InsertTextAt E0 aWhere text).2.1,
        UndoOperationType.Add⟩], E0.mState, st1⟩) 1).mUndoBuffer =
      E0.mUndoBuffer.take E0.mUndoIndex ++ [(⟨[⟨text, aWhere, (InsertTextAt E0 aWhere text).2.1,
        UndoOperationType.Add⟩], E0.mState, st1⟩ : UndoRecord)] := by
    rw [hUeq]
    dsimp only
    rw [DeleteRange_mUndoBuffer]
    exact hbuf2
  have hEUT : (Undo (AddUndo { (InsertTextAt E0 aWhere text).1 with
      mState := st1 } ⟨[⟨text, aWhere, (InsertTextAt E0 aWhere text).2.1,
        UndoOperationType.Add⟩], E0.mState, st1⟩) 1).mTabSize = E0.mTabSize := by
    rw [hUeq]
    dsimp only
    rw [DeleteRange_mTabSize]
    exact htab2
  have hcanR : CanRedo (Undo (AddUndo { (InsertTextAt E0 aWhere text).1 with
      mState := st1 } ⟨[⟨text, aWhere, (InsertTextAt E0 aWhere text).2.1,
        UndoOperationType.Add⟩], E0.mState, st1⟩) 1) = true := by
    rw [CanRedo, hEUI, hEUB, List.length_append, htk]
    simp
  have hfetch2 : (Undo (AddUndo { (InsertTextAt E0 aWhere text).1 with
      mState := st1 } ⟨[⟨text, aWhere, (InsertTextAt E0 aWhere text).2.1,
        UndoOperationType.Add⟩], E0.mState, st1⟩) 1).mUndoBuffer.getD
      (Undo (AddUndo { (InsertTextAt E0 aWhere text).1 with
      mState := st1 } ⟨[⟨text, aWhere, (InsertTextAt E0 aWhere text).2.1,
        UndoOperationType.Add⟩], E0.mState, st1⟩) 1).mUndoIndex default = (⟨[⟨text, aWhere, (InsertTextAt E0 aWhere text).2.1,
        UndoOperationType.Add⟩], E0.mState, st1⟩ : UndoRecord) := by
    rw [hEUB, hEUI]
    have hget := getD_app_cons (E0.mUndoBuffer.take E0.mUndoIndex)
      (⟨[⟨text, aWhere, (InsertTextAt E0 aWhere text).2.1,
        UndoOperationType.Add⟩], E0.mState, st1⟩ : UndoRecord) [] default
    rw [htk] at hget
    exact hget
  have hReq : Redo (Undo (AddUndo { (InsertTextAt E0 aWhere text).1 with
      mState := st1 } ⟨[⟨text, aWhere, (InsertTextAt E0 aWhere text).2.1,
        UndoOperationType.Add⟩], E0.mState, st1⟩) 1) 1 =
      { (InsertTextAt { Undo (AddUndo { (InsertTextAt E0 aWhere text).1 with
      mState := st1 } ⟨[⟨text, aWhere, (InsertTextAt E0 aWhere text).2.1,
        UndoOperationType.Add⟩], E0.mState, st1⟩) 1 with
          mUndoIndex := (Undo (AddUndo { (InsertTextAt E0 aWhere text).1 with
      mState := st1 } ⟨[⟨text, aWhere, (InsertTextAt E0 aWhere text).2.1,
        UndoOperationType.Add⟩], E0.mState, st1⟩) 1).mUndoIndex + 1 } aWhere text).1 with
        mState := st1 } := by
    rw [Redo, show ((1 : Int)).toNat = 0 + 1 from rfl, redoLoop,
      if_pos hcanR, redoLoop, hfetch2, UndoRecord.Redo]
    dsimp only
    simp only [List.foldl_cons, List.foldl_nil]
    rw [if_neg htxt]
  refine ⟨⟨hA1, ?_⟩, ?_, ?_⟩
  · rw [hUeq]
  · rw [hReq]
    exact InsertTextAt_lines_congr E0 _ aWhere text hA1 hEUT htab hcr hwf
      h0 hlt hlwf hcol
  · rw [hReq]
    rfl

/-- Claim C1, witness: the recorded insertion of `"b"` at the start of the
one-line document `"a"` round-trips — one `Undo` restores the document and
cursor set, and one `Redo` restores the post-edit document and cursor set. -/
theorem claim_C1_witness :
    1 ≤ utf8ExampleEditor.mTabSize ∧
    wellFormedUtf8 [98] = true ∧
    ((Undo (AddUndo { (InsertTextAt utf8ExampleEditor ⟨0, 0⟩ [98]).1 with
        mState := default }
        ⟨[⟨[98], ⟨0, 0⟩, (InsertTextAt utf8ExampleEditor ⟨0, 0⟩ [98]).2.1,
          UndoOperationType.Add⟩], utf8ExampleEditor.mState, default⟩)
        1).mLines = utf8ExampleEditor.mLines ∧
      (Undo (AddUndo { (InsertTextAt utf8ExampleEditor ⟨0, 0⟩ [98]).1 with
        mState := default }
        ⟨[⟨[98], ⟨0, 0⟩, (InsertTextAt utf8ExampleEditor ⟨0, 0⟩ [98]).2.1,
          UndoOperationType.Add⟩], utf8ExampleEditor.mState, default⟩)
        1).mState = utf8ExampleEditor.mState) ∧
    (Redo (Undo (AddUndo { (InsertTextAt utf8ExampleEditor ⟨0, 0⟩ [98]).1
        with mState := default }
        ⟨[⟨[98], ⟨0, 0⟩, (InsertTextAt utf8ExampleEditor ⟨0, 0⟩ [98]).2.1,
          UndoOperationType.Add⟩], utf8ExampleEditor.mState, default⟩)
        1) 1).mLines =
      (AddUndo { (InsertTextAt utf8ExampleEditor ⟨0, 0⟩ [98]).1 with
        mState := default }
        ⟨[⟨[98], ⟨0, 0⟩, (InsertTextAt utf8ExampleEditor ⟨0, 0⟩ [98]).2.1,
          UndoOperationType.Add⟩], utf8ExampleEditor.mState,
          default⟩).mLines ∧
    (Redo (Undo (AddUndo { (InsertTextAt utf8ExampleEditor ⟨0, 0⟩ [98]).1
        with mState := default }
        ⟨[⟨[98], ⟨0, 0⟩, (InsertTextAt utf8ExampleEditor ⟨0, 0⟩ [98]).2.1,
          UndoOperationType.Add⟩], utf8ExampleEditor.mState, default⟩)
        1) 1).mState =
      (AddUndo { (InsertTextAt utf8ExampleEditor ⟨0, 0⟩ [98]).1 with
        mState := default }
        ⟨[⟨[98], ⟨0, 0⟩, (InsertTextAt utf8ExampleEditor ⟨0, 0⟩ [98]).2.1,
          UndoOperationType.Add⟩], utf8ExampleEditor.mState,
          default⟩).mState :=
  ⟨by decide, by simp +decide [wellFormedUtf8, UTF8CharLength],
   claim_C1_amended utf8ExampleEditor ⟨0, 0⟩ [98] default _ _
     (by decide) (by decide)
     (by simp +decide [wellFormedUtf8, UTF8CharLength])
     (by decide) (by decide)
     (by simp +decide [utf8ExampleEditor, initialEditor, wellFormedUtf8,
       UTF8CharLength])
     ⟨0, 0, ReachFrom.refl _, rfl⟩
     (by decide) (by decide) rfl rfl⟩

end ImGuiTextEdit
